import Mathlib

/-!
Chronos Protocol: command parsing, chat dispatch and the agreement contracts.

A shallow embedding of the parts of the repository that the verified statements
are about:

* `apps/web/src/lib/parser.js` (`parseTaskCommand`, `isValidAddress`);
* `apps/web/src/components/chat/ChatInput.jsx` and `apps/web/src/pages/App.jsx`
  (the `/message` command);
* the `ChronoContract` / `ChronosFactory` contracts, as exercised by the Hardhat tests.

JavaScript strings are modelled as lists of characters, and every index used by the
embedded code is an index into such a list. A JavaScript index counts UTF-16 code
units; the two counts agree on the texts the statements are about (the indices are
either results of `indexOf` on the same text or offsets over ASCII prefixes), and no
character class of the patterns contains a character outside the Basic Multilingual
Plane.
-/

namespace Chronos

/-- A JavaScript string, as the list of its characters. -/
abbrev Str := List Char

/-! ## Character classes of the regular expressions -/

/-- The class `\s` of a JavaScript regular expression, which is also the set of
characters removed by `String.prototype.trim`. -/
def isSpace (c : Char) : Bool :=
  c.toNat == 9 || c.toNat == 10 || c.toNat == 11 || c.toNat == 12 || c.toNat == 13 ||
  c.toNat == 32 || c.toNat == 160 || c.toNat == 5760 ||
  (decide (8192 ≤ c.toNat) && decide (c.toNat ≤ 8202)) ||
  c.toNat == 8232 || c.toNat == 8233 || c.toNat == 8239 || c.toNat == 8287 ||
  c.toNat == 12288 || c.toNat == 65279

/-- The class `\d`: the digits `0-9`. -/
def isDigit (c : Char) : Bool :=
  decide (48 ≤ c.toNat) && decide (c.toNat ≤ 57)

/-- The class `[a-fA-F0-9]`. -/
def isHexDigit (c : Char) : Bool :=
  (decide (97 ≤ c.toNat) && decide (c.toNat ≤ 102)) ||
  (decide (65 ≤ c.toNat) && decide (c.toNat ≤ 70)) ||
  (decide (48 ≤ c.toNat) && decide (c.toNat ≤ 57))

/-- The class `\w`: `[A-Za-z0-9_]`. -/
def isWordChar (c : Char) : Bool :=
  (decide (65 ≤ c.toNat) && decide (c.toNat ≤ 90)) ||
  (decide (97 ≤ c.toNat) && decide (c.toNat ≤ 122)) ||
  (decide (48 ≤ c.toNat) && decide (c.toNat ≤ 57)) || c.toNat == 95

/-! ## A matcher for the regular expressions of the parser

The patterns used by the parser are sequences of single-character items and
greedy `+` repetitions of a character class. In each of them a repetition is
either the last item or is followed by an item whose class is disjoint from
the repeated class, so giving characters back can never turn a failed attempt
into a match: the greedy run is the only candidate and the matcher needs no
backtracking inside a sequence. This is proved below against the enumeration of
all matches in backtracking order (`allMatches_spec`, `matchValueAt_adequate`). -/

/-- One item of a pattern: a single character of a class, or `class+`. -/
inductive Item where
  | one (p : Char → Bool)
  | many1 (p : Char → Bool)

/-- The item matching exactly the character `c`. -/
def lit (c : Char) : Item := Item.one (fun x => x == c)

/-- The class of characters an item accepts. -/
def Item.accepts : Item → Char → Bool
  | Item.one p, c => p c
  | Item.many1 p, c => p c

/-- Match a sequence of items at the start of `cs`. The result is the text
consumed by each item, in order, and the remaining input. -/
def runItems : List Item → Str → Option (List Str × Str)
  | [], cs => some ([], cs)
  | Item.one p :: is, cs =>
    match cs with
    | [] => none
    | c :: rest =>
      if p c then (runItems is rest).map (fun r => ([c] :: r.1, r.2)) else none
  | Item.many1 p :: is, cs =>
    match cs with
    | [] => none
    | c :: rest =>
      if p c then
        (runItems is (rest.dropWhile p)).map (fun r => ((c :: rest.takeWhile p) :: r.1, r.2))
      else none

/-- The search of an unanchored pattern (`String.prototype.match` without the `g` flag):
try the match at every position from the left and keep the first success. -/
def search {α : Type} (m : Str → Option α) : Str → Option α
  | [] => m []
  | c :: cs =>
    match m (c :: cs) with
    | some r => some r
    | none => search m cs

/-- The pattern `@(0x[a-fA-F0-9]{40})`. -/
def addressItems : List Item :=
  lit '@' :: lit '0' :: lit 'x' :: List.replicate 40 (Item.one isHexDigit)

/-- `text.match(/@(0x[a-fA-F0-9]{40})/)`: group 1 of the first match, if any. -/
def matchAddress (text : Str) : Option Str :=
  (search (runItems addressItems) text).map (fun r => (r.1.drop 1).flatten)

/-- The pattern `by\s+(\d{4}-\d{2}-\d{2}\s+\d{2}:\d{2})`. -/
def dateItems : List Item :=
  [lit 'b', lit 'y', Item.many1 isSpace,
   Item.one isDigit, Item.one isDigit, Item.one isDigit, Item.one isDigit, lit '-',
   Item.one isDigit, Item.one isDigit, lit '-', Item.one isDigit, Item.one isDigit,
   Item.many1 isSpace, Item.one isDigit, Item.one isDigit, lit ':',
   Item.one isDigit, Item.one isDigit]

/-- `text.match(/by\s+(\d{4}-\d{2}-\d{2}\s+\d{2}:\d{2})/)`: group 1 of the first match. -/
def matchDate (text : Str) : Option Str :=
  (search (runItems dateItems) text).map (fun r => (r.1.drop 3).flatten)

/-- The pattern `for\s+(\d+\.\d+)\s+(\w+)`: the amount with its optional fraction taken. -/
def valueItemsFrac : List Item :=
  [lit 'f', lit 'o', lit 'r', Item.many1 isSpace, Item.many1 isDigit, lit '.',
   Item.many1 isDigit, Item.many1 isSpace, Item.many1 isWordChar]

/-- The pattern `for\s+(\d+)\s+(\w+)`: the amount with its optional fraction skipped. -/
def valueItemsInt : List Item :=
  [lit 'f', lit 'o', lit 'r', Item.many1 isSpace, Item.many1 isDigit,
   Item.many1 isSpace, Item.many1 isWordChar]

/-- The pattern `for\s+(\d+(?:\.\d+)?)\s+(\w+)` at one position: the greedy optional
group is tried first and skipped when the attempt with it fails. The result is
(group 1, group 2). -/
def matchValueAt (cs : Str) : Option (Str × Str) :=
  match runItems valueItemsFrac cs with
  | some r => some (((r.1.drop 4).take 3).flatten, ((r.1.drop 8).take 1).flatten)
  | none =>
    match runItems valueItemsInt cs with
    | some r => some (((r.1.drop 4).take 1).flatten, ((r.1.drop 6).take 1).flatten)
    | none => none

/-- `text.match(/for\s+(\d+(?:\.\d+)?)\s+(\w+)/)`: groups 1 and 2 of the first match. -/
def matchValue (text : Str) : Option (Str × Str) :=
  search matchValueAt text

/-! ## String operations -/

/-- `String.prototype.trim`. -/
def trim (cs : Str) : Str :=
  ((cs.dropWhile isSpace).reverse.dropWhile isSpace).reverse

/-- The least index at which `pat` occurs in `cs`, if any. -/
def firstIdx (pat : Str) : Str → Option Nat
  | [] => if pat.isEmpty then some 0 else none
  | c :: cs =>
    if pat.isPrefixOf (c :: cs) then some 0 else (firstIdx pat cs).map (fun k => k + 1)

/-- `cs.indexOf(pat, start)`: the least index not below `start` at which `pat` occurs,
or `-1`. The start position is clamped to the length of the string. -/
def indexOf (cs pat : Str) (start : Int) : Int :=
  match firstIdx pat (cs.drop (min start.toNat cs.length)) with
  | some k => ((min start.toNat cs.length + k : Nat) : Int)
  | none => -1

/-- `cs.substring(a, b)`: both ends are clamped to `[0, length]` and swapped when
out of order. -/
def substring (cs : Str) (a b : Int) : Str :=
  (cs.take (max (min a.toNat cs.length) (min b.toNat cs.length))).drop
    (min (min a.toNat cs.length) (min b.toNat cs.length))

/-- `token.toLowerCase()`. -/
def toLowerCase (cs : Str) : Str := cs.map Char.toLower

/-! ## `parseTaskCommand` (apps/web/src/lib/parser.js) -/

/-- The object returned by `parseTaskCommand`. -/
structure TaskData where
  counterparty : Str
  description : Str
  deadline : Int
  value : Str
  token : Str
deriving DecidableEq, Repr

/-- `parseTaskCommand(command)`.

* `dateParse s` is `new Date(s).getTime()`: the engine's reading of the date text in
  milliseconds, `none` standing for `NaN` (an invalid date);
* `nowMs` is `Date.now()`.

The result `Except.ok none` is `return null`, `Except.ok (some t)` is the returned
object and `Except.error msg` is the `Error(msg)` thrown (and re-thrown by the
`catch` block). -/
def parseTaskCommand (dateParse : Str → Option Int) (nowMs : Int) (command : Str) :
    Except String (Option TaskData) :=
  if !("/task ".toList.isPrefixOf command) then Except.ok none
  else
    let taskText := trim (command.drop 5)
    match matchAddress taskText with
    | none => Except.error "Invalid counterparty address format"
    | some counterparty =>
      match matchDate taskText with
      | none => Except.error "Invalid date format. Use: YYYY-MM-DD HH:MM"
      | some dateStr =>
        match dateParse dateStr with
        | none => Except.error "Deadline must be in the future"
        | some ms =>
          if ms / 1000 ≤ nowMs / 1000 then Except.error "Deadline must be in the future"
          else
            match matchValue taskText with
            | none => Except.error "Invalid value format. Use: for [amount] [token]"
            | some (amount, token) =>
              if toLowerCase token ≠ "eth".toList then
                Except.error "Only ETH is supported currently"
              else
                let descStart := indexOf taskText counterparty 0 + counterparty.length
                let descEnd := indexOf taskText "by".toList descStart
                if descStart = -1 ∨ descEnd = -1 then Except.error "Invalid task description"
                else
                  Except.ok (some
                    { counterparty := counterparty
                      description := trim (substring taskText descStart descEnd)
                      deadline := ms / 1000
                      value := amount
                      token := token })

/-- `isValidAddress(address)`: the test of `/^0x[a-fA-F0-9]{40}$/`, a match of the
items at the start of the string that leaves nothing over. -/
def isValidAddress (address : Str) : Bool :=
  match runItems (lit '0' :: lit 'x' :: List.replicate 40 (Item.one isHexDigit)) address with
  | some r => r.2.isEmpty
  | none => false

/-- Whether a repetition item accepts both characters (so that it can consume them
one after the other). -/
def Item.repeats : Item → Char → Char → Bool
  | Item.one _, _, _ => false
  | Item.many1 p, c1, c2 => p c1 && p c2

/-- Whether the pattern can consume `c1` immediately followed by `c2`: inside one
repetition, or with two consecutive items. -/
def crossable : List Item → Char → Char → Bool
  | [], _, _ => false
  | [it], c1, c2 => it.repeats c1 c2
  | it :: it2 :: is, c1, c2 =>
    it.repeats c1 c2 || (it.accepts c1 && it2.accepts c2) || crossable (it2 :: is) c1 c2

/-- Whether the last item of the pattern accepts `c`. -/
def endsWith : List Item → Char → Bool
  | [], _ => false
  | [it], c => it.accepts c
  | _ :: it2 :: is, c => endsWith (it2 :: is) c

/-! ## The backtracking order of the JavaScript matcher

`runItems` follows only the greedy choice of every repetition. The definitions below
enumerate every match in the order in which a backtracking matcher reaches them
(a repetition first tries its longest run, then gives characters back one at a time; an
optional group is first taken, then skipped). The first element of the enumeration is
the match JavaScript reports; it is shown further down to be the result of `runItems`
and of `matchValueAt` for the patterns of the parser. -/

/-- The ways for `p+` to consume a non-empty run at the start of `cs`, as (run, rest),
longest run first. -/
def runsDesc (p : Char → Bool) : Str → List (Str × Str)
  | [] => []
  | c :: cs =>
    if p c then (runsDesc p cs).map (fun r => (c :: r.1, r.2)) ++ [([c], cs)] else []

/-- Every match of a sequence of items at the start of `cs`, in backtracking order. -/
def allMatches : List Item → Str → List (List Str × Str)
  | [], cs => [([], cs)]
  | Item.one p :: is, cs =>
    match cs with
    | [] => []
    | c :: rest => if p c then (allMatches is rest).map (fun r => ([c] :: r.1, r.2)) else []
  | Item.many1 p :: is, cs =>
    (runsDesc p cs).flatMap
      (fun run => (allMatches is run.2).map (fun r => (run.1 :: r.1, r.2)))

/-- No repetition of the pattern is followed by an item that accepts a character of the
repeated class. -/
def Deterministic : List Item → Prop
  | [] => True
  | [_] => True
  | it :: it2 :: is =>
    (∀ p, it = Item.many1 p → ∀ c, p c = true → it2.accepts c = false) ∧
      Deterministic (it2 :: is)

/-- The part `for\s+\d+` of the amount pattern, before the optional group. -/
def valuePre : List Item :=
  [lit 'f', lit 'o', lit 'r', Item.many1 isSpace, Item.many1 isDigit]

/-- The optional group `\.\d+` of the amount pattern. -/
def valueGrp : List Item := [lit '.', Item.many1 isDigit]

/-- The part `\s+(\w+)` of the amount pattern, after the optional group. -/
def valuePost : List Item := [Item.many1 isSpace, Item.many1 isWordChar]

/-- Every match of `for\s+(\d+(?:\.\d+)?)\s+(\w+)` at the start of `cs`, as
(group 1, group 2), in backtracking order: for each match of the part before the optional
group, first the matches that take the group, then those that skip it. -/
def valueMatches (cs : Str) : List (Str × Str) :=
  (allMatches valuePre cs).flatMap (fun a =>
    (allMatches valueGrp a.2).flatMap (fun b =>
      (allMatches valuePost b.2).map (fun c =>
        ((((a.1 ++ b.1 ++ c.1).drop 4).take 3).flatten,
          (((a.1 ++ b.1 ++ c.1).drop 8).take 1).flatten))) ++
    (allMatches valuePost a.2).map (fun c =>
      ((((a.1 ++ c.1).drop 4).take 1).flatten, (((a.1 ++ c.1).drop 6).take 1).flatten)))

/-! ## The command form of the specification -/

/-- The text has the form `YYYY-MM-DD HH:MM`. -/
def isDateTimeText (t : Str) : Bool :=
  match t with
  | [y1, y2, y3, y4, s1, m1, m2, s2, d1, d2, sp, h1, h2, co, n1, n2] =>
    isDigit y1 && isDigit y2 && isDigit y3 && isDigit y4 && s1 == '-' &&
    isDigit m1 && isDigit m2 && s2 == '-' && isDigit d1 && isDigit d2 && sp == ' ' &&
    isDigit h1 && isDigit h2 && co == ':' && isDigit n1 && isDigit n2
  | _ => false

/-- The text is a decimal amount: digits with an optional fractional part. -/
def isAmountText (n : Str) : Bool :=
  !(n.takeWhile isDigit).isEmpty &&
  ((n.dropWhile isDigit).isEmpty ||
    ((n.dropWhile isDigit).head? == some '.' && !(n.dropWhile isDigit).tail.isEmpty &&
      (n.dropWhile isDigit).tail.all isDigit))

/-- The command `'/task @' + a + ' ' + d + ' by ' + t + ' for ' + n + ' ETH'`. -/
def taskCommand (a d t n : Str) : Str :=
  "/task @".toList ++ a ++ " ".toList ++ d ++ " by ".toList ++ t ++ " for ".toList ++ n ++
    " ETH".toList

/-- The text of `taskCommand` after the `/task` prefix has been removed and the rest
trimmed. -/
def taskText (a d t n : Str) : Str :=
  '@' :: (a ++ ' ' :: (d ++ ' ' :: 'b' :: 'y' :: ' ' :: (t ++ ' ' :: 'f' :: 'o' :: 'r' :: ' ' ::
    (n ++ [' ', 'E', 'T', 'H']))))

/-! ## A date parser for the examples -/

/-- The value of a decimal digit. -/
def digitVal (c : Char) : Int := (c.toNat : Int) - 48

/-- The number of days from 1970-01-01 to the civil date `y-m-d` (proleptic Gregorian
calendar). -/
def daysFromCivil (y m d : Int) : Int :=
  let y2 := if m ≤ 2 then y - 1 else y
  let era := y2 / 400
  let yoe := y2 - era * 400
  let doy := (153 * ((m + 9) % 12) + 2) / 5 + d - 1
  era * 146097 + (yoe * 365 + yoe / 4 - yoe / 100 + doy) - 719468

/-- The reading of a `YYYY-MM-DD HH:MM` text by a host whose time zone is UTC, in
milliseconds. It instantiates the `dateParse` parameter of `parseTaskCommand` in the
examples; the general statements hold for every parser. -/
def utcDateParse (s : Str) : Option Int :=
  match s with
  | [y1, y2, y3, y4, _, m1, m2, _, d1, d2, _, h1, h2, _, n1, n2] =>
    let y := digitVal y1 * 1000 + digitVal y2 * 100 + digitVal y3 * 10 + digitVal y4
    let m := digitVal m1 * 10 + digitVal m2
    let d := digitVal d1 * 10 + digitVal d2
    let h := digitVal h1 * 10 + digitVal h2
    let mi := digitVal n1 * 10 + digitVal n2
    if 1 ≤ m ∧ m ≤ 12 ∧ 1 ≤ d ∧ d ≤ 31 ∧ h ≤ 23 ∧ mi ≤ 59 then
      some ((daysFromCivil y m d * 86400 + h * 3600 + mi * 60) * 1000)
    else none
  | _ => none

/-- The address used in the examples. -/
def sampleAddress : Str := "0x1234567890abcdef1234567890abcdef12345678".toList

/-- The deadline text used in the examples. -/
def sampleDeadline : Str := "2100-01-01 00:00".toList

/-- The clock value used in the examples (14 November 2023). -/
def sampleNow : Int := 1700000000000

/-- The command used in the examples:
`/task @0x1234…5678 write docs by 2100-01-01 00:00 for 1.5 ETH`. -/
def sampleCommand : Str :=
  taskCommand sampleAddress "write docs".toList sampleDeadline "1.5".toList

/-- The object `parseTaskCommand` returns for `sampleCommand`. -/
def sampleTask : TaskData :=
  { counterparty := sampleAddress
    description := "write docs".toList
    deadline := 4102444800
    value := "1.5".toList
    token := "ETH".toList }

/-! ## The chat input (apps/web/src/components/chat/ChatInput.jsx) -/

/-- What `handleSendMessage` of the chat input does with a submitted text: the callback
of the parent component it invokes, or the toast it shows. -/
inductive ChatEffect where
  /-- The call `onCreateTask(taskData)`. -/
  | createTask (taskData : TaskData)
  /-- The call `onStartMessaging(xmtpMessage, recipient)`: the two arguments in the order
  in which they are passed. -/
  | startMessaging (first second : Str)
  /-- The call `onSendMessage(message, currentUser)`. -/
  | sendMessage (message user : Str)
  /-- The call `window.showToast(title, message, …)`. -/
  | toast (title message : String)
deriving DecidableEq, Repr

/-- The `try` block of the copy of `parseTaskCommand` local to the chat input: the same
steps as the library function, without the test of the `/task ` prefix. -/
def ChatInput.parseTaskBody (dateParse : Str → Option Int) (nowMs : Int) (command : Str) :
    Except String TaskData :=
  let taskText := trim (command.drop 5)
  match matchAddress taskText with
  | none => Except.error "Invalid counterparty address format"
  | some counterparty =>
    match matchDate taskText with
    | none => Except.error "Invalid date format. Use: YYYY-MM-DD HH:MM"
    | some dateStr =>
      match dateParse dateStr with
      | none => Except.error "Deadline must be in the future"
      | some ms =>
        if ms / 1000 ≤ nowMs / 1000 then Except.error "Deadline must be in the future"
        else
          match matchValue taskText with
          | none => Except.error "Invalid value format. Use: for [amount] [token]"
          | some (amount, token) =>
            if toLowerCase token ≠ "eth".toList then
              Except.error "Only ETH is supported currently"
            else
              let descStart := indexOf taskText counterparty 0 + counterparty.length
              let descEnd := indexOf taskText "by".toList descStart
              if descStart = -1 ∨ descEnd = -1 then Except.error "Invalid task description"
              else
                Except.ok
                  { counterparty := counterparty
                    description := trim (substring taskText descStart descEnd)
                    deadline := ms / 1000
                    value := amount
                    token := token }

/-- `parseTaskCommand(command)` of the chat input: the `catch` block shows the toast
`Parse Error` with the message of the error and returns `null`. The result is the value
returned and the toasts shown. -/
def ChatInput.parseTaskCommand (dateParse : Str → Option Int) (nowMs : Int)
    (command : Str) : Option TaskData × List (String × String) :=
  match ChatInput.parseTaskBody dateParse nowMs command with
  | Except.ok taskData => (some taskData, [])
  | Except.error msg => (none, [("Parse Error", msg)])

/-- `parseMessageCommand(command)` of the chat input: the address after `/message`, or
`null` (the error thrown for a missing address is caught and `null` returned). -/
def ChatInput.parseMessageCommand (command : Str) : Option Str :=
  matchAddress (trim (command.drop 8))

/-- `handleSendMessage` of the chat input, for the text `message` in the input field:
the effects in order, and the new content of the input field. An empty or blank text is
ignored and left in the field. -/
def ChatInput.handleSendMessage (dateParse : Str → Option Int) (nowMs : Int)
    (currentUser : Str) (message : Str) : List ChatEffect × Str :=
  if (trim message).isEmpty then ([], message)
  else if "/task".toList.isPrefixOf message then
    match ChatInput.parseTaskCommand dateParse nowMs message with
    | (some taskData, toasts) =>
      (toasts.map (fun t => ChatEffect.toast t.1 t.2) ++ [ChatEffect.createTask taskData], [])
    | (none, toasts) => (toasts.map (fun t => ChatEffect.toast t.1 t.2), [])
  else if "/message".toList.isPrefixOf message then
    match ChatInput.parseMessageCommand message with
    | some recipient =>
      ([ChatEffect.startMessaging (trim (message.drop (8 + recipient.length))) recipient], [])
    | none => ([ChatEffect.toast "Message Error" "Invalid /message command format"], [])
  else ([ChatEffect.sendMessage message currentUser], [])

/-! ## The application page (apps/web/src/pages/App.jsx) -/

/-- The part of the state of `App` that the messaging handlers touch. A chat message is
kept as (message, user); toasts are recorded in the order shown. -/
structure AppState where
  messages : List (Str × Str)
  showMessenger : Bool
  recipientAddress : Str
  toasts : List (String × String)

/-- The state of `App` when it is mounted. -/
def AppState.initial : AppState :=
  { messages := [], showMessenger := false, recipientAddress := [], toasts := [] }

/-- `handleSendMessage(message, user)` of `App`: append the chat message. -/
def App.handleSendMessage (message user : Str) (st : AppState) : AppState :=
  { st with messages := st.messages ++ [(message, user)] }

/-- `handleStartMessaging(address)` of `App`. `isConnected` comes from the wallet context
and `isAddress` is `ethers.utils.isAddress`. -/
def App.handleStartMessaging (isConnected : Bool) (isAddress : Str → Bool) (address : Str)
    (st : AppState) : AppState :=
  if !isConnected then
    { st with toasts := st.toasts ++ [("Error", "Please connect your wallet first")] }
  else if address.isEmpty || !isAddress address then
    { st with toasts := st.toasts ++ [("Error", "Invalid Ethereum address")] }
  else
    let st1 := App.handleSendMessage
      ("Starting wallet-to-wallet conversation with ".toList ++ address.take 6 ++
        "...".toList ++ address.drop (address.length - 4)) "System".toList st
    { st1 with recipientAddress := address, showMessenger := true }

/-- The prop `onStartMessaging={handleStartMessaging}` of `App`: the chat input calls it
with two arguments and `handleStartMessaging` has one parameter, so the first argument
is bound to `address` and the second is dropped. -/
def App.onStartMessaging (isConnected : Bool) (isAddress : Str → Bool) (first _second : Str)
    (st : AppState) : AppState :=
  App.handleStartMessaging isConnected isAddress first st

/-- `handleCreateTask(taskData)` of `App`, up to its call of `createAgreement`: the toasts
and the chat message that precede the transaction. What follows depends on the chain and
is not part of the state modelled here. -/
def App.handleCreateTaskStart (isConnected : Bool) (currentUser : Str) (taskData : TaskData)
    (st : AppState) : AppState :=
  if !isConnected then
    { st with toasts := st.toasts ++ [("Error", "Please connect your wallet first")] }
  else
    let st1 : AppState :=
      { st with toasts := st.toasts ++ [("Processing", "Creating agreement on-chain...")] }
    let st2 := App.handleSendMessage ("Creating task: ".toList ++ taskData.description)
      currentUser st1
    { st2 with toasts := st2.toasts ++ [("Processing", "Creating agreement...")] }

/-- Submitting `message` in the chat input while `App` is in state `st`: the callbacks
invoked by the chat input are the handlers that `App` passes as props, and the toasts of
the chat input go to the same `window.showToast`. -/
def App.submitChatInput (isConnected : Bool) (isAddress : Str → Bool)
    (dateParse : Str → Option Int) (nowMs : Int) (currentUser : Str) (message : Str)
    (st : AppState) : AppState :=
  (ChatInput.handleSendMessage dateParse nowMs currentUser message).1.foldl
    (fun s eff =>
      match eff with
      | ChatEffect.startMessaging first second =>
        App.onStartMessaging isConnected isAddress first second s
      | ChatEffect.sendMessage m u => App.handleSendMessage m u s
      | ChatEffect.toast title msg => { s with toasts := s.toasts ++ [(title, msg)] }
      | ChatEffect.createTask taskData =>
        App.handleCreateTaskStart isConnected currentUser taskData s)
    st

/-! ## The agreement contracts

The Solidity sources of `ChronoContract` and `ChronosFactory` are not among the source
files; the repository holds their Hardhat tests (`test/ChronoContract.test.js`,
`test/ChronosFactory.test.js`) and their callers. -/

/-- An account or contract address. -/
abbrev Address := Nat

/-- The state of an agreement; the constructors are numbered 0 to 4 in this order, as
the `State` table of the tests. -/
inductive State where
  | Proposed
  | Active
  | Completed
  | Expired
  | Voided
deriving DecidableEq, Repr

/-- The reason of a revert. -/
inductive Revert where
  | onlyCounterparty
  | onlyCreator
  | invalidState
  | wrongValue
  | notExpired
deriving DecidableEq, Repr

/-- The revert strings that the tests expect. -/
def Revert.message : Revert → Option String
  | Revert.onlyCounterparty => some "Only the counterparty can call this function"
  | Revert.wrongValue => some "Must send exact value for escrow"
  | _ => none

/-- Modelled from the spec: the storage of a `ChronoContract`, whose Solidity source is
missing. The spec describes the agreement as an escrow record `(creator, counterparty,
description, deadline, value, state)`; `balance` is the ether held by the contract. -/
structure ChronoContract where
  creator : Address
  counterparty : Address
  description : Str
  deadline : Nat
  value : Nat
  state : State
  balance : Nat
deriving DecidableEq, Repr

/-- Modelled from the spec: the constructor of `ChronoContract`, whose Solidity source is
missing. A new agreement is `Proposed` (test "Should set the correct initial state") and
holds no ether. -/
def ChronoContract.deploy (creator counterparty : Address) (description : Str)
    (deadline value : Nat) : ChronoContract :=
  { creator := creator, counterparty := counterparty, description := description,
    deadline := deadline, value := value, state := State.Proposed, balance := 0 }

/-- The methods of the agreement contract; `accept` is the only payable one and carries
the ether sent with the call. -/
inductive Method where
  | accept (payment : Nat)
  | reject
  | markAsDone
  | confirmCompletion
  | reclaimOnExpiry
deriving DecidableEq, Repr

/-- Modelled from the spec: `accept()` of `ChronoContract`, whose Solidity source is
missing: the transition `Proposed → Active` of the spec's lifecycle, payable. The tests
give the caller (the counterparty), the two revert strings and the escrow. The caller is
checked first, then the state, then the payment. `sender` is `msg.sender` and `payment`
is `msg.value`. -/
def ChronoContract.accept (c : ChronoContract) (sender : Address) (payment : Nat) :
    Except Revert ChronoContract :=
  if sender ≠ c.counterparty then Except.error Revert.onlyCounterparty
  else if c.state ≠ State.Proposed then Except.error Revert.invalidState
  else if payment ≠ c.value then Except.error Revert.wrongValue
  else Except.ok { c with state := State.Active, balance := c.balance + payment }

/-- Modelled from the spec: `reject()` of `ChronoContract`, whose Solidity source is
missing: the transition to `Voided`, which the tests show to be taken by the
counterparty from `Proposed`. -/
def ChronoContract.reject (c : ChronoContract) (sender : Address) :
    Except Revert ChronoContract :=
  if sender ≠ c.counterparty then Except.error Revert.onlyCounterparty
  else if c.state ≠ State.Proposed then Except.error Revert.invalidState
  else Except.ok { c with state := State.Voided }

/-- Modelled from the spec: `markAsDone()` of `ChronoContract`, whose Solidity source is
missing: called by the counterparty on an `Active` agreement, it only emits an event
(test "Should allow task completion flow"). -/
def ChronoContract.markAsDone (c : ChronoContract) (sender : Address) :
    Except Revert ChronoContract :=
  if sender ≠ c.counterparty then Except.error Revert.onlyCounterparty
  else if c.state ≠ State.Active then Except.error Revert.invalidState
  else Except.ok c

/-- Modelled from the spec: `confirmCompletion()` of `ChronoContract`, whose Solidity
source is missing: the transition `Active → Completed` of the spec's lifecycle, taken by
the creator; the escrowed value is paid out to the counterparty. -/
def ChronoContract.confirmCompletion (c : ChronoContract) (sender : Address) :
    Except Revert ChronoContract :=
  if sender ≠ c.creator then Except.error Revert.onlyCreator
  else if c.state ≠ State.Active then Except.error Revert.invalidState
  else Except.ok { c with state := State.Completed, balance := c.balance - c.value }

/-- Modelled from the spec: `reclaimOnExpiry()` of `ChronoContract`, whose Solidity
source is missing: the transition `Active → Expired` of the spec's lifecycle, taken by
the creator once the deadline has passed; the escrowed value is paid back to the
creator. `timestamp` is `block.timestamp`. -/
def ChronoContract.reclaimOnExpiry (c : ChronoContract) (sender : Address)
    (timestamp : Nat) : Except Revert ChronoContract :=
  if sender ≠ c.creator then Except.error Revert.onlyCreator
  else if c.state ≠ State.Active then Except.error Revert.invalidState
  else if timestamp ≤ c.deadline then Except.error Revert.notExpired
  else Except.ok { c with state := State.Expired, balance := c.balance - c.value }

/-- A call of a method of the agreement by `sender` at the block time `timestamp`. -/
def ChronoContract.call (c : ChronoContract) (sender : Address) (timestamp : Nat) :
    Method → Except Revert ChronoContract
  | Method.accept payment => c.accept sender payment
  | Method.reject => c.reject sender
  | Method.markAsDone => c.markAsDone sender
  | Method.confirmCompletion => c.confirmCompletion sender
  | Method.reclaimOnExpiry => c.reclaimOnExpiry sender timestamp

/-- A transaction on the contract: a reverted call leaves the storage as it was. The
result is the storage after the transaction and the revert reason, if any. -/
def ChronoContract.exec (c : ChronoContract) (sender : Address) (timestamp : Nat)
    (m : Method) : ChronoContract × Option Revert :=
  match c.call sender timestamp m with
  | Except.ok c2 => (c2, none)
  | Except.error e => (c, some e)

/-- The agreements that can be reached from a deployment by transactions. -/
inductive ChronoContract.Reachable : ChronoContract → Prop where
  | deploy (creator counterparty : Address) (description : Str) (deadline value : Nat) :
      ChronoContract.Reachable
        (ChronoContract.deploy creator counterparty description deadline value)
  | step (c : ChronoContract) (sender : Address) (timestamp : Nat) (m : Method) :
      ChronoContract.Reachable c → ChronoContract.Reachable (c.exec sender timestamp m).1

/-- Modelled from the spec: the storage of `ChronosFactory`, whose Solidity source is
missing: the list returned by `getDeployedAgreements()`, the lists returned by
`getUserAgreements(user)` and the deployed agreements by address. -/
structure ChronosFactory where
  deployedAgreements : List Address
  userAgreements : Address → List Address
  agreements : Address → Option ChronoContract

/-- Modelled from the spec: a freshly deployed `ChronosFactory`, whose Solidity source is
missing (test "Should have empty deployed agreements initially"). -/
def ChronosFactory.fresh : ChronosFactory :=
  { deployedAgreements := [], userAgreements := fun _ => [], agreements := fun _ => none }

/-- `getDeployedAgreements()`. -/
def ChronosFactory.getDeployedAgreements (f : ChronosFactory) : List Address :=
  f.deployedAgreements

/-- `getUserAgreements(user)`. -/
def ChronosFactory.getUserAgreements (f : ChronosFactory) (user : Address) : List Address :=
  f.userAgreements user

/-- Modelled from the spec: `createAgreement(counterparty, description, deadline, value)`
of `ChronosFactory`, whose Solidity source is missing, called by `creator`. The factory
deploys a `ChronoContract` and indexes it (spec: "deploys and indexes individual Agreement
contracts"): the address is pushed to the list of all agreements, then to the list of
the creator, then to the list of the counterparty (test "Should create an agreement").
`addressOf n` is the address at which the factory creates its contract number `n`. The
result is the factory after the call and the address of the new agreement. -/
def ChronosFactory.createAgreement (addressOf : Nat → Address) (f : ChronosFactory)
    (creator counterparty : Address) (description : Str) (deadline value : Nat) :
    ChronosFactory × Address :=
  let addr := addressOf f.deployedAgreements.length
  let users1 : Address → List Address :=
    fun u => if u = creator then f.userAgreements u ++ [addr] else f.userAgreements u
  let users2 : Address → List Address :=
    fun u => if u = counterparty then users1 u ++ [addr] else users1 u
  ({ deployedAgreements := f.deployedAgreements ++ [addr]
     userAgreements := users2
     agreements := fun x =>
       if x = addr then
         some (ChronoContract.deploy creator counterparty description deadline value)
       else f.agreements x },
   addr)

/-- The factory states that can be reached from a fresh factory by calls of
`createAgreement`. -/
inductive ChronosFactory.Reachable (addressOf : Nat → Address) : ChronosFactory → Prop where
  | fresh : ChronosFactory.Reachable addressOf ChronosFactory.fresh
  | create (f : ChronosFactory) (creator counterparty : Address) (description : Str)
      (deadline value : Nat) :
      ChronosFactory.Reachable addressOf f →
      ChronosFactory.Reachable addressOf
        (f.createAgreement addressOf creator counterparty description deadline value).1

/-- The agreement used in the examples: creator 1, counterparty 2, deadline 1000,
value 50, freshly deployed. -/
def sampleAgreement : ChronoContract :=
  ChronoContract.deploy 1 2 "Complete the documentation".toList 1000 50

/-- The address scheme used in the examples: contract number `n` is created at address
`1000 + n`. -/
def sampleAddressOf (n : Nat) : Address := 1000 + n

/-! ## JavaScript values and numbers -/

/-- A JavaScript number as the utilities below meet it: an integer, `NaN` or an
infinity. An integer stands for the double of that value, so it is one that a double
holds exactly (every integer of magnitude up to `2^53` is); `roundToDouble` gives the
double nearest to any other integer. Fractional numbers are outside the model. -/
inductive JSNum where
  | nan
  | int (i : Int)
  | inf (negative : Bool)
  deriving DecidableEq, Repr

/-- A JavaScript value: the primitives, plain objects as lists of own data properties
(an array is the object of its indices), and functions. A function is given by the
outcome of calling it without arguments: `some v` when it returns `v`, `none` when it
throws. -/
inductive JSValue where
  | undefined
  | null
  | bool (b : Bool)
  | num (n : JSNum)
  | str (s : Str)
  | obj (props : List (Str × JSValue))
  | func (result : Option JSValue)

/-- `v === undefined`. -/
def JSValue.isUndefined : JSValue → Bool
  | JSValue.undefined => true
  | _ => false

/-- `v === null`. -/
def JSValue.isNull : JSValue → Bool
  | JSValue.null => true
  | _ => false

/-- `typeof v === 'function'`. -/
def JSValue.isFunction : JSValue → Bool
  | JSValue.func _ => true
  | _ => false

/-- The truth value of `v` in a condition (`!v` is its negation): `undefined`, `null`,
`false`, `0`, `NaN` and the empty string are falsy, everything else is truthy. -/
def JSValue.truthy : JSValue → Bool
  | JSValue.undefined => false
  | JSValue.null => false
  | JSValue.bool b => b
  | JSValue.num JSNum.nan => false
  | JSValue.num (JSNum.int i) => i != 0
  | JSValue.num (JSNum.inf _) => true
  | JSValue.str s => !s.isEmpty
  | JSValue.obj _ => true
  | JSValue.func _ => true

/-- The character of a digit value below 36, in lowercase as `Number.prototype.toString`
prints it. -/
def digitChar (d : Nat) : Char :=
  "0123456789abcdefghijklmnopqrstuvwxyz".toList.getD d '0'

/-- The digits of `n` in the given radix, most significant first, in front of `acc`. The
first argument bounds the number of digits. -/
def toDigits (radix : Nat) : Nat → Nat → Str → Str
  | 0, _, acc => acc
  | fuel + 1, n, acc =>
    if n < radix then digitChar n :: acc
    else toDigits radix fuel (n / radix) (digitChar (n % radix) :: acc)

/-- The digits of the natural number `n` in the given radix (2 to 36): `0` prints as
`"0"`, other numbers without leading zeros. -/
def natToString (radix n : Nat) : Str := toDigits radix (n + 1) n []

/-- `n.toString(radix)` and, for radix 10, the string of `n` in a template literal or a
concatenation. In radix 10 JavaScript turns to the exponent form from `10^21` on, far
beyond the safe integers; the digits are printed here at every size. -/
def JSNum.toStr (radix : Nat) : JSNum → Str
  | JSNum.nan => "NaN".toList
  | JSNum.int i => if i < 0 then '-' :: natToString radix i.natAbs else natToString radix i.toNat
  | JSNum.inf negative => if negative then "-Infinity".toList else "Infinity".toList

/-- `s.padStart(n, c)` for a single pad character `c`. -/
def padStart (n : Nat) (c : Char) (s : Str) : Str :=
  List.replicate (n - s.length) c ++ s

/-- The value of a character as a digit: `0-9`, then the letters in either case from 10
to 35. -/
def radixDigit (c : Char) : Option Nat :=
  if isDigit c then some (c.toNat - 48)
  else if decide (97 ≤ c.toNat) && decide (c.toNat ≤ 122) then some (c.toNat - 87)
  else if decide (65 ≤ c.toNat) && decide (c.toNat ≤ 90) then some (c.toNat - 55)
  else none

/-- Whether `c` is a digit of the given radix. -/
def isRadixDigit (radix : Nat) (c : Char) : Bool :=
  match radixDigit c with
  | some d => decide (d < radix)
  | none => false

/-- The number written by a string of digits in the given radix. -/
def digitsValue (radix : Nat) (ds : Str) : Nat :=
  ds.foldl (fun acc c => acc * radix + (radixDigit c).getD 0) 0

/-- The number of binary digits of `m`; the first argument bounds it. -/
def bitLength : Nat → Nat → Nat
  | 0, _ => 0
  | fuel + 1, m => if m = 0 then 0 else bitLength fuel (m / 2) + 1

/-- The double nearest to the natural number `m`, ties going to the even significand:
up to `2^53` every number is a double; a larger one keeps its 53 leading binary digits,
rounded. `none` is `Infinity`: the result when `m`, or `m` rounded, has more than 1024
binary digits, that is from `2^1024 - 2^970` on. -/
def roundToDouble (m : Nat) : Option Nat :=
  if m < 2 ^ 53 then some m
  else if 1024 < bitLength 1025 m then none
  else
    let k := bitLength 1025 m - 53
    let q := m / 2 ^ k
    let r := m % 2 ^ k
    let q1 := if 2 ^ k < 2 * r ∨ (2 * r = 2 ^ k ∧ q % 2 = 1) then q + 1 else q
    if 1024 < bitLength 1025 (q1 * 2 ^ k) then none else some (q1 * 2 ^ k)

/-- The JavaScript number of a sign and a magnitude: the nearest double. -/
def JSNum.ofSigned (negative : Bool) (m : Nat) : JSNum :=
  match roundToDouble m with
  | some v => JSNum.int (if negative then -(v : Int) else (v : Int))
  | none => JSNum.inf negative

/-- `parseInt(string, radix)` on a string; radix `0` stands for an omitted radix.
Leading white space is skipped, a sign is read, with radix 16 or no radix a marker `0x`
or `0X` is skipped and selects radix 16, and the longest run of digits of the radix is
read; without a digit the result is `NaN`. The result is the double nearest to the
number read, as the engine computes it for the radices 10 and 16 that the code uses. -/
def parseInt (string : Str) (radix : Nat) : JSNum :=
  let s := string.dropWhile isSpace
  let negative := s.head? == some '-'
  let s1 := if s.head? == some '+' || s.head? == some '-' then s.drop 1 else s
  if radix != 0 && (decide (radix < 2) || decide (36 < radix)) then JSNum.nan
  else
    let marked := (radix == 0 || radix == 16) &&
      ("0x".toList.isPrefixOf s1 || "0X".toList.isPrefixOf s1)
    let s2 := if marked then s1.drop 2 else s1
    let r := if marked then 16 else if radix == 0 then 10 else radix
    let z := s2.takeWhile (isRadixDigit r)
    if z.isEmpty then JSNum.nan
    else JSNum.ofSigned negative (digitsValue r z)

/-- `isNaN(x)` on a number. -/
def JSNum.isNaN : JSNum → Bool
  | JSNum.nan => true
  | _ => false

/-- `x <= k` for a number `x` and an integer `k`: false for `NaN`. -/
def JSNum.leInt (x : JSNum) (k : Int) : Bool :=
  match x with
  | JSNum.nan => false
  | JSNum.int i => decide (i ≤ k)
  | JSNum.inf negative => negative

/-- The conversion of a value to a string (`String(v)`, as `parseInt` and `parseFloat`
apply it to their argument). For an object or a function the conversion runs the
value's own `toString`; its result is the parameter `objToString`, `none` when the
conversion throws. -/
def JSValue.toStr (objToString : JSValue → Option Str) : JSValue → Option Str
  | JSValue.undefined => some "undefined".toList
  | JSValue.null => some "null".toList
  | JSValue.bool b => some (if b then "true".toList else "false".toList)
  | JSValue.num n => some (n.toStr 10)
  | JSValue.str s => some s
  | v => objToString v

/-! ## Chain IDs (apps/web/src/utils/chainIdUtils.js) -/

/-- `formatChainIdForWallet(chainId)`: a value that is not a number goes through
`parseInt` first, and `null` (`none`) is returned when that conversion throws; the
number is printed in radix 16 and padded to six characters behind `0x`. -/
def formatChainIdForWallet (objToString : JSValue → Option Str) (chainId : JSValue) :
    Option Str :=
  let parsed : Option JSNum :=
    match chainId with
    | JSValue.num n => some n
    | v => (v.toStr objToString).map (fun s => parseInt s 0)
  match parsed with
  | none => none
  | some n => some ("0x".toList ++ padStart 6 '0' (n.toStr 16))

/-- `formatChainIdHex` of `scripts/verify-chain-id-fix.js` and
`scripts/test-chain-formatting.js`, on a number. -/
def formatChainIdHex (chainId : JSNum) : Str :=
  "0x".toList ++ padStart 6 '0' (chainId.toStr 16)

/-- `normalizeChainId(chainId)`, the same in `chainIdUtils.js` and in
`context/WalletProvider.jsx`: a string is parsed in radix 16 when it starts with `0x`
and in radix 10 otherwise; any other value is returned as it is. -/
def normalizeChainId (chainId : JSValue) : JSValue :=
  match chainId with
  | JSValue.str s =>
    if "0x".toList.isPrefixOf s then JSValue.num (parseInt s 16)
    else JSValue.num (parseInt s 10)
  | v => v

/-- The lowercase hexadecimal digits `0-9a-f`. -/
def isLowerHexDigit (c : Char) : Bool :=
  isDigit c || (decide (97 ≤ c.toNat) && decide (c.toNat ≤ 102))

/-! ## The agreement states in the front end -/

/-- `ContractState` of `apps/web/src/config/addresses.js`. -/
def ContractState : List (Str × Nat) :=
  [("PROPOSED".toList, 0), ("ACTIVE".toList, 1), ("COMPLETED".toList, 2),
   ("EXPIRED".toList, 3), ("VOIDED".toList, 4)]

/-- The `State` table of `test/ChronoContract.test.js`. -/
def ChronoContractTest.State : List (Str × Nat) :=
  [("PROPOSED".toList, 0), ("ACTIVE".toList, 1), ("COMPLETED".toList, 2),
   ("EXPIRED".toList, 3), ("VOIDED".toList, 4)]

/-- `StateLabels` of `apps/web/src/config/addresses.js`; the keys are written as
numbers. -/
def StateLabels : List (Nat × Str) :=
  [(0, "Proposed".toList), (1, "Active".toList), (2, "Completed".toList),
   (3, "Expired".toList), (4, "Voided".toList)]

/-- The property read `table[key]` with a number as key, on an object whose property
names are written as numbers: the names are the printed numbers, and two numbers print
alike exactly when they are equal. `none` is `undefined`. -/
def numberKeyed (table : List (Nat × Str)) : JSNum → Option Str
  | JSNum.int i =>
    if 0 ≤ i then (table.find? (fun e => e.1 == i.toNat)).map (fun e => e.2) else none
  | JSNum.nan => none
  | JSNum.inf _ => none

/-- The element read `array[index]` with a number as index; `none` is `undefined`. -/
def arrayAt (array : List Str) : JSNum → Option Str
  | JSNum.int i => if 0 ≤ i then array.get? i.toNat else none
  | JSNum.nan => none
  | JSNum.inf _ => none

/-- `label || fallback` for a string or `undefined`: the empty string is falsy. -/
def orElseStr (label : Option Str) (fallback : Str) : Str :=
  match label with
  | some l => if l.isEmpty then fallback else l
  | none => fallback

/-- The label shown by `Tag` (`apps/web/src/components/ui/Tag.jsx`):
`StateLabels[state] || 'Unknown'`. -/
def Tag.label (state : JSNum) : Str :=
  orElseStr (numberKeyed StateLabels state) "Unknown".toList

/-- `getStateLabel` of `apps/web/src/components/chat/ChronoContractCard.jsx`. -/
def getStateLabel (stateNum : JSNum) : Str :=
  let states := ["Proposed".toList, "Active".toList, "Completed".toList,
    "Expired".toList, "Voided".toList]
  orElseStr (arrayAt states stateNum) "Unknown".toList

/-- The label that names a member of `ContractState`: the member name with its first
letter kept and the others in lowercase. -/
def memberLabel (name : Str) : Str :=
  match name with
  | [] => []
  | c :: cs => c :: toLowerCase cs

/-! ## Time and address formatting (apps/web/src/lib) -/

/-- `getTimeRemaining(deadline)` of `lib/time.js`, with the clock `Date.now()` as the
parameter `nowMs`. Deadline and clock are integers; `%` is taken of a positive number
only, where the remainder of JavaScript and the one of `Int` agree. -/
def getTimeRemaining (nowMs deadline : Int) : Str :=
  let now := nowMs / 1000
  let remaining := deadline - now
  if remaining ≤ 0 then "Expired".toList
  else
    let days := remaining / 86400
    let hours := (remaining % 86400) / 3600
    let minutes := (remaining % 3600) / 60
    if days > 0 then
      (JSNum.int days).toStr 10 ++ "d ".toList ++ (JSNum.int hours).toStr 10 ++
        "h remaining".toList
    else if hours > 0 then
      (JSNum.int hours).toStr 10 ++ "h ".toList ++ (JSNum.int minutes).toStr 10 ++
        "m remaining".toList
    else (JSNum.int minutes).toStr 10 ++ "m remaining".toList

/-- `formatAddress(address)` of `lib/format.js`. A truthy value that is not a string has
no `substring` method: the call throws a `TypeError`. -/
def formatAddress (address : JSValue) : Except Str Str :=
  if !address.truthy then Except.ok []
  else
    match address with
    | JSValue.str s =>
      Except.ok (substring s 0 6 ++ "...".toList ++
        substring s ((s.length : Int) - 4) (s.length : Int))
    | _ => Except.error "TypeError: address.substring is not a function".toList

/-! ## Safe access (apps/web/src/utils/numberUtils.js) -/

/-- The property read `v[key]`. On `null` and `undefined` it throws a `TypeError`; on
every other value it is the engine's lookup, own properties first and then the
prototype chain, given as the parameter `getProp`. Properties are data properties:
reading one does not throw. -/
def readProp (getProp : JSValue → Str → JSValue) (v : JSValue) (key : Str) :
    Except Str JSValue :=
  if v.isUndefined || v.isNull then
    Except.error "TypeError: cannot read properties of null or undefined".toList
  else Except.ok (getProp v key)

/-- The call `f()`: a value that is not a function cannot be called. -/
def callFunction (f : JSValue) : Except Str JSValue :=
  match f with
  | JSValue.func (some v) => Except.ok v
  | JSValue.func none => Except.error "thrown by the function".toList
  | _ => Except.error "TypeError: not a function".toList

/-- The lookup of own properties only: the properties of an object, the length and the
characters of a string; `undefined` otherwise. It is the lookup of an engine whose
prototypes are empty, used in the examples. -/
def ownProp (v : JSValue) (key : Str) : JSValue :=
  match v with
  | JSValue.obj props =>
    match props.find? (fun e => e.1 == key) with
    | some e => e.2
    | none => JSValue.undefined
  | JSValue.str s =>
    if key == "length".toList then JSValue.num (JSNum.int s.length)
    else
      match (List.range s.length).find? (fun i => natToString 10 i == key) with
      | some i => JSValue.str (s.drop i |>.take 1)
      | none => JSValue.undefined
  | _ => JSValue.undefined

/-- `safeToNumber(bigNumber, defaultValue = 0)`; `defaultArg` is the second argument,
`undefined` when it is omitted, and then the default is 0. -/
def safeToNumber (getProp : JSValue → Str → JSValue) (bigNumber defaultArg : JSValue) :
    Except Str JSValue :=
  let defaultValue := if defaultArg.isUndefined then JSValue.num (JSNum.int 0) else defaultArg
  if !bigNumber.truthy then Except.ok defaultValue
  else
    match readProp getProp bigNumber "toNumber".toList with
    | Except.error e => Except.error e
    | Except.ok f =>
      if !f.isFunction then Except.ok defaultValue
      else
        match (readProp getProp bigNumber "toNumber".toList).bind callFunction with
        | Except.ok v => Except.ok v
        | Except.error _ => Except.ok defaultValue

/-- `path.split(sep)` for a single separator character. -/
def splitOn (sep : Char) : Str → List Str
  | [] => [[]]
  | c :: cs =>
    if c == sep then [] :: splitOn sep cs
    else
      match splitOn sep cs with
      | h :: t => (c :: h) :: t
      | [] => [[c]]

/-- The loop of `getNestedProperty` over the remaining path parts, and the return after
it. -/
def getNestedProperty.walk (getProp : JSValue → Str → JSValue) (defaultValue : JSValue) :
    JSValue → List Str → Except Str JSValue
  | result, [] => Except.ok (if result.isUndefined then defaultValue else result)
  | result, part :: rest =>
    if result.isUndefined || result.isNull then Except.ok defaultValue
    else
      match readProp getProp result part with
      | Except.error e => Except.error e
      | Except.ok next => getNestedProperty.walk getProp defaultValue next rest

/-- `getNestedProperty(obj, path, defaultValue)`. A truthy path that is not a string has
no `split` method: the call throws a `TypeError`. -/
def getNestedProperty (getProp : JSValue → Str → JSValue) (obj path defaultValue : JSValue) :
    Except Str JSValue :=
  if !obj.truthy || !path.truthy then Except.ok defaultValue
  else
    match path with
    | JSValue.str p => getNestedProperty.walk getProp defaultValue obj (splitOn '.' p)
    | _ => Except.error "TypeError: path.split is not a function".toList

/-- The values met when the keys are followed from `v`: `v` itself, then the property
of each value under the next key. -/
def valuesAlong (getProp : JSValue → Str → JSValue) : JSValue → List Str → List JSValue
  | v, [] => [v]
  | v, key :: keys => v :: valuesAlong getProp (getProp v key) keys

/-- Neither `null` nor `undefined`. -/
def JSValue.isPresent (v : JSValue) : Bool := !(v.isUndefined || v.isNull)

/-! ## The REST endpoints of the server (server/index.js) -/

/-- The result of `parseFloat`: `NaN`, an infinity, or the decimal number
`± mantissa * 10 ^ exponent` that the text writes. -/
inductive Decimal where
  | nan
  | infinity (negative : Bool)
  | finite (negative : Bool) (mantissa : Nat) (exponent : Int)
  deriving DecidableEq, Repr

/-- `isNaN(x)`. -/
def Decimal.isNaN : Decimal → Bool
  | Decimal.nan => true
  | _ => false

/-- `x <= 0` for the double nearest to the decimal: it is negative, zero, or so small
that it rounds to zero (at most `2^-1075`, half the least positive double). -/
def Decimal.leZero : Decimal → Bool
  | Decimal.nan => false
  | Decimal.infinity negative => negative
  | Decimal.finite negative mantissa exponent =>
    negative || mantissa == 0 ||
      (decide (exponent < 0) && decide (mantissa * 2 ^ 1075 ≤ 10 ^ (-exponent).toNat))

/-- `parseFloat(string)` on a string: leading white space is skipped, a sign is read,
and the longest decimal literal that starts the rest is the number: `Infinity`, or
digits with an optional fraction and an optional exponent; without one the result is
`NaN`. -/
def parseFloat (string : Str) : Decimal :=
  let s := string.dropWhile isSpace
  let negative := s.head? == some '-'
  let s1 := if s.head? == some '+' || s.head? == some '-' then s.drop 1 else s
  if "Infinity".toList.isPrefixOf s1 then Decimal.infinity negative
  else
    let intDigits := s1.takeWhile isDigit
    let afterInt := s1.dropWhile isDigit
    let hasPoint := afterInt.head? == some '.'
    let fracDigits := if hasPoint then (afterInt.drop 1).takeWhile isDigit else []
    let afterFrac := if hasPoint then (afterInt.drop 1).dropWhile isDigit else afterInt
    if intDigits.isEmpty && fracDigits.isEmpty then Decimal.nan
    else
      let t := afterFrac.drop 1
      let expNegative := t.head? == some '-'
      let t1 := if t.head? == some '+' || t.head? == some '-' then t.drop 1 else t
      let expDigits := t1.takeWhile isDigit
      let exponent : Int :=
        if (afterFrac.head? == some 'e' || afterFrac.head? == some 'E') &&
            !expDigits.isEmpty then
          if expNegative then -((digitsValue 10 expDigits : Nat) : Int)
          else ((digitsValue 10 expDigits : Nat) : Int)
        else 0
      Decimal.finite negative (digitsValue 10 (intDigits ++ fracDigits))
        (exponent - (fracDigits.length : Int))

/-- What the server's handlers take from their surroundings: `ethers.utils.isAddress`,
the engine's conversion of objects to strings and its property lookup,
`ethers.utils.parseEther` (`none` when it throws), the clock `Date.now()`, and whether
the SDK and the contracts were initialised (`sdkInstance && contracts`). -/
structure ServerEnv where
  isAddress : JSValue → Bool
  objToString : JSValue → Option Str
  getProp : JSValue → Str → JSValue
  parseEther : Str → Option Nat
  nowMs : Int
  connected : Bool

/-- How far the handler of `POST /api/agreements` gets: it answers with a status and an
error text, or it reaches the call `chronosFactory.call("createAgreement", ...)` with
these arguments. What follows the call depends on the chain and is not modelled. -/
inductive CreateOutcome where
  | respond (status : Nat) (error : Str)
  | factoryCall (counterparty description deadline : JSValue) (valueInWei : Nat)

/-- The test `!description || description.trim() === ''`. On a string `trim` is the
method of strings; on another truthy value it is whatever property `trim` the value
has, and calling it throws unless it is a function. -/
def descriptionBlank (getProp : JSValue → Str → JSValue) (description : JSValue) :
    Except Str Bool :=
  if !description.truthy then Except.ok true
  else
    match description with
    | JSValue.str s => Except.ok (trim s).isEmpty
    | v =>
      match (readProp getProp v "trim".toList).bind callFunction with
      | Except.ok (JSValue.str []) => Except.ok true
      | Except.ok _ => Except.ok false
      | Except.error e => Except.error e

/-- The handler of `POST /api/agreements` on the four fields of the request body (an
absent field is `undefined`), up to the first call of the factory contract. An exception
in the validation reaches the outer `catch`, one in `parseEther` the inner one.
`value.toString()` is taken to be the string of the conversion `String(value)`. -/
def createAgreementHandler (env : ServerEnv)
    (counterparty description deadline value : JSValue) : CreateOutcome :=
  if !counterparty.truthy || !env.isAddress counterparty then
    CreateOutcome.respond 400 "Invalid counterparty address".toList
  else
    match descriptionBlank env.getProp description with
    | Except.error _ => CreateOutcome.respond 500 "Internal server error".toList
    | Except.ok true => CreateOutcome.respond 400 "Description is required".toList
    | Except.ok false =>
      match deadline.toStr env.objToString with
      | none => CreateOutcome.respond 500 "Internal server error".toList
      | some deadlineText =>
        if (parseInt deadlineText 0).isNaN ||
            (parseInt deadlineText 0).leInt (env.nowMs / 1000) then
          CreateOutcome.respond 400 "Deadline must be a valid future timestamp".toList
        else
          match value.toStr env.objToString with
          | none => CreateOutcome.respond 500 "Internal server error".toList
          | some valueText =>
            if (parseFloat valueText).isNaN || (parseFloat valueText).leZero then
              CreateOutcome.respond 400 "Value must be a positive number".toList
            else if !env.connected then
              CreateOutcome.respond 503 "Smart contract connection unavailable".toList
            else
              match env.parseEther valueText with
              | none => CreateOutcome.respond 500 "Failed to create agreement".toList
              | some valueInWei =>
                CreateOutcome.factoryCall counterparty description deadline valueInWei

/-- An address check for the examples: the strings that `isValidAddress` accepts. -/
def sampleIsAddress : JSValue → Bool
  | JSValue.str s => isValidAddress s
  | _ => false

/-- An ether parser for the examples: a string of digits is that many ether. -/
def sampleParseEther (s : Str) : Option Nat :=
  if !s.isEmpty && s.all isDigit then some (digitsValue 10 s * 10 ^ 18) else none

/-- The surroundings used in the examples: own properties only, objects print as
`[object Object]`, the clock of the other examples, a connected SDK. -/
def sampleEnv : ServerEnv :=
  { isAddress := sampleIsAddress
    objToString := fun _ => some "[object Object]".toList
    getProp := ownProp
    parseEther := sampleParseEther
    nowMs := sampleNow
    connected := true }

/-! ## The matcher on runs of single-character items -/

theorem runItems_nil (cs : Str) : runItems [] cs = some ([], cs) := rfl

theorem runItems_one_cons (p : Char → Bool) (is : List Item) (c : Char) (rest : Str) :
    runItems (Item.one p :: is) (c :: rest) =
      if p c then (runItems is rest).map (fun r => ([c] :: r.1, r.2)) else none := rfl

theorem runItems_one_nil (p : Char → Bool) (is : List Item) :
    runItems (Item.one p :: is) [] = none := rfl

theorem runItems_many1_cons (p : Char → Bool) (is : List Item) (c : Char) (rest : Str) :
    runItems (Item.many1 p :: is) (c :: rest) =
      if p c then
        (runItems is (rest.dropWhile p)).map (fun r => ((c :: rest.takeWhile p) :: r.1, r.2))
      else none := rfl

theorem runItems_lit_cons (x : Char) (is : List Item) (c : Char) (rest : Str) :
    runItems (lit x :: is) (c :: rest) =
      if c = x then (runItems is rest).map (fun r => ([c] :: r.1, r.2)) else none := by
  simp [lit, runItems_one_cons]

theorem runItems_lit_nil (x : Char) (is : List Item) : runItems (lit x :: is) [] = none := rfl

/-- A block of `n` single-character items of class `p` consumes exactly the next `n`
characters, which must all be in `p`. -/
theorem runItems_replicate (p : Char → Bool) (is : List Item) :
    ∀ (n : Nat) (cs : Str),
      runItems (List.replicate n (Item.one p) ++ is) cs =
        if n ≤ cs.length ∧ (cs.take n).all p = true then
          (runItems is (cs.drop n)).map
            (fun r => ((cs.take n).map (fun c => [c]) ++ r.1, r.2))
        else none
  | 0, cs => by
    cases h : runItems is cs <;> simp [h]
  | n + 1, [] => by
    simp [List.replicate_succ, runItems_one_nil]
  | n + 1, c :: cs => by
    simp only [List.replicate_succ, List.cons_append, runItems_one_cons,
      runItems_replicate p is n cs]
    by_cases hc : p c = true
    · by_cases hn : n ≤ cs.length ∧ (cs.take n).all p = true
      · have h2 : n + 1 ≤ (c :: cs).length ∧ ((c :: cs).take (n + 1)).all p = true := by
          simpa [hc] using hn
        rw [if_pos hc, if_pos hn, if_pos h2]
        cases h : runItems is (cs.drop n) <;> simp [h]
      · have h2 : ¬ (n + 1 ≤ (c :: cs).length ∧ ((c :: cs).take (n + 1)).all p = true) := by
          simpa [hc] using hn
        rw [if_pos hc, if_neg hn, if_neg h2]
        rfl
    · have h2 : ¬ (n + 1 ≤ (c :: cs).length ∧ ((c :: cs).take (n + 1)).all p = true) := by
        simp [hc]
      rw [if_neg hc, if_neg h2]

theorem isValidAddress_iff (s : Str) :
    isValidAddress s = true ↔
      ∃ h : Str, s = '0' :: 'x' :: h ∧ h.length = 40 ∧ ∀ c ∈ h, isHexDigit c = true := by
  unfold isValidAddress
  have key := runItems_replicate isHexDigit [] 40
  simp only [List.append_nil] at key
  constructor
  · intro hv
    match s, hv with
    | [], hv => simp [runItems_lit_nil] at hv
    | [c1], hv =>
      simp only [runItems_lit_cons] at hv
      split_ifs at hv
      simp [runItems_lit_nil] at hv
    | c1 :: c2 :: h, hv =>
      simp only [runItems_lit_cons, key] at hv
      by_cases h1 : c1 = '0'
      · by_cases h2 : c2 = 'x'
        · by_cases h3 : 40 ≤ h.length ∧ (h.take 40).all isHexDigit = true
          · rw [if_pos h1, if_pos h2, if_pos h3] at hv
            simp only [runItems_nil, Option.map_some'] at hv
            have hlen : h.length = 40 := by
              have : h.drop 40 = [] := by simpa using hv
              have := List.drop_eq_nil_iff.mp this
              omega
            refine ⟨h, by rw [h1, h2], hlen, ?_⟩
            have h4 := h3.2
            rw [List.take_of_length_le (by omega)] at h4
            simpa using h4
          · rw [if_pos h1, if_pos h2, if_neg h3] at hv
            simp at hv
        · rw [if_pos h1, if_neg h2] at hv
          simp at hv
      · rw [if_neg h1] at hv
        simp at hv
  · rintro ⟨h, rfl, hlen, hall⟩
    simp only [runItems_lit_cons, key, if_true]
    have h3 : 40 ≤ h.length ∧ (h.take 40).all isHexDigit = true := by
      refine ⟨by omega, ?_⟩
      rw [List.take_of_length_le (by omega)]
      simpa using hall
    rw [if_pos h3]
    simp [runItems_nil, hlen]

/-! ## Greedy runs and concatenation -/

theorem dropWhile_append_of_stop (p : Char → Bool) :
    ∀ (u v : Str), (∃ x ∈ u, p x = false) →
      (u ++ v).dropWhile p = u.dropWhile p ++ v ∧ (u ++ v).takeWhile p = u.takeWhile p
  | [], v, h => by simp at h
  | x :: u, v, h => by
    by_cases hx : p x = true
    · have h2 : ∃ y ∈ u, p y = false := by
        obtain ⟨y, hy, hpy⟩ := h
        rcases List.mem_cons.mp hy with rfl | hy
        · rw [hx] at hpy; cases hpy
        · exact ⟨y, hy, hpy⟩
      have ih := dropWhile_append_of_stop p u v h2
      simp [List.dropWhile_cons, List.takeWhile_cons, hx, ih.1, ih.2]
    · simp [List.dropWhile_cons, List.takeWhile_cons, hx]

theorem dropWhile_append_of_all (p : Char → Bool) :
    ∀ (u v : Str), (∀ x ∈ u, p x = true) →
      (u ++ v).dropWhile p = v.dropWhile p ∧ (u ++ v).takeWhile p = u ++ v.takeWhile p
  | [], v, _ => by simp
  | x :: u, v, h => by
    have hx : p x = true := h x (List.mem_cons_self _ _)
    have ih := dropWhile_append_of_all p u v (fun y hy => h y (List.mem_cons_of_mem _ hy))
    simp [List.dropWhile_cons, List.takeWhile_cons, hx, ih.1, ih.2]

theorem all_or_stop (p : Char → Bool) (u : Str) :
    (∀ x ∈ u, p x = true) ∨ (∃ x ∈ u, p x = false) := by
  by_cases h : ∀ x ∈ u, p x = true
  · exact Or.inl h
  · right
    push_neg at h
    obtain ⟨x, hx, hpx⟩ := h
    exact ⟨x, hx, by simpa using hpx⟩

theorem dropWhile_all (p : Char → Bool) (u : Str) (h : ∀ x ∈ u, p x = true) :
    u.dropWhile p = [] ∧ u.takeWhile p = u := by
  have := dropWhile_append_of_all p u [] h
  simpa using this

theorem dropWhile_cons_stop (p : Char → Bool) (c : Char) (w : Str) (h : p c = false) :
    (c :: w).dropWhile p = c :: w ∧ (c :: w).takeWhile p = [] := by
  simp [List.dropWhile_cons, List.takeWhile_cons, h]

/-! ## Basic facts on `runItems` -/

theorem runItems_cons_nil (it : Item) (is : List Item) : runItems (it :: is) [] = none := by
  cases it <;> rfl

theorem runItems_accepts_head (it : Item) (is : List Item) (c : Char) (X : Str)
    (r : List Str × Str) (h : runItems (it :: is) (c :: X) = some r) : it.accepts c = true := by
  cases it with
  | one p =>
    rw [runItems_one_cons] at h
    by_cases hp : p c = true
    · exact hp
    · rw [if_neg hp] at h; cases h
  | many1 p =>
    rw [runItems_many1_cons] at h
    by_cases hp : p c = true
    · exact hp
    · rw [if_neg hp] at h; cases h

/-- The input is the consumed segments followed by the remaining input. -/
theorem runItems_input (is : List Item) :
    ∀ (X : Str) (r : List Str × Str), runItems is X = some r → X = r.1.flatten ++ r.2 := by
  induction is with
  | nil =>
    intro X r h
    rw [runItems_nil] at h
    cases h
    simp
  | cons it is ih =>
    intro X r h
    cases X with
    | nil => rw [runItems_cons_nil] at h; cases h
    | cons c X =>
      cases it with
      | one p =>
        rw [runItems_one_cons] at h
        by_cases hp : p c = true
        · rw [if_pos hp] at h
          cases h2 : runItems is X with
          | none => rw [h2] at h; cases h
          | some r2 =>
            rw [h2] at h
            cases h
            have := ih X r2 h2
            simp [← this]
        · rw [if_neg hp] at h; cases h
      | many1 p =>
        rw [runItems_many1_cons] at h
        by_cases hp : p c = true
        · rw [if_pos hp] at h
          cases h2 : runItems is (X.dropWhile p) with
          | none => rw [h2] at h; cases h
          | some r2 =>
            rw [h2] at h
            cases h
            have := ih _ r2 h2
            simp [← this, List.takeWhile_append_dropWhile]
        · rw [if_neg hp] at h; cases h

theorem runItems_rest_length (is : List Item) (X : Str) (r : List Str × Str)
    (h : runItems is X = some r) : r.2.length ≤ X.length := by
  have := runItems_input is X r h
  rw [this]
  simp

theorem runItems_cons_rest_length (it : Item) (is : List Item) (X : Str) (r : List Str × Str)
    (h : runItems (it :: is) X = some r) : r.2.length < X.length := by
  cases X with
  | nil => rw [runItems_cons_nil] at h; cases h
  | cons c X =>
    cases it with
    | one p =>
      rw [runItems_one_cons] at h
      by_cases hp : p c = true
      · rw [if_pos hp] at h
        cases h2 : runItems is X with
        | none => rw [h2] at h; cases h
        | some r2 =>
          rw [h2] at h
          cases h
          have := runItems_rest_length is X r2 h2
          simp only [List.length_cons]
          omega
      · rw [if_neg hp] at h; cases h
    | many1 p =>
      rw [runItems_many1_cons] at h
      by_cases hp : p c = true
      · rw [if_pos hp] at h
        cases h2 : runItems is (X.dropWhile p) with
        | none => rw [h2] at h; cases h
        | some r2 =>
          rw [h2] at h
          cases h
          have h3 := runItems_rest_length is _ r2 h2
          have h4 : (X.dropWhile p).length ≤ X.length :=
            (List.dropWhile_sublist p).length_le
          simp only [List.length_cons]
          omega
      · rw [if_neg hp] at h; cases h

theorem runItems_one_inv (p : Char → Bool) (is : List Item) (X : Str) (r : List Str × Str)
    (h : runItems (Item.one p :: is) X = some r) :
    ∃ c X2 r2, X = c :: X2 ∧ p c = true ∧ runItems is X2 = some r2 ∧
      r = ([c] :: r2.1, r2.2) := by
  cases X with
  | nil => rw [runItems_cons_nil] at h; cases h
  | cons c X =>
    rw [runItems_one_cons] at h
    by_cases hp : p c = true
    · rw [if_pos hp] at h
      cases h2 : runItems is X with
      | none => rw [h2] at h; cases h
      | some r2 =>
        rw [h2] at h
        cases h
        exact ⟨c, X, r2, rfl, hp, h2, rfl⟩
    · rw [if_neg hp] at h; cases h

theorem runItems_many1_inv (p : Char → Bool) (is : List Item) (X : Str) (r : List Str × Str)
    (h : runItems (Item.many1 p :: is) X = some r) :
    ∃ c X2 r2, X = c :: X2 ∧ p c = true ∧ runItems is (X2.dropWhile p) = some r2 ∧
      r = ((c :: X2.takeWhile p) :: r2.1, r2.2) := by
  cases X with
  | nil => rw [runItems_cons_nil] at h; cases h
  | cons c X =>
    rw [runItems_many1_cons] at h
    by_cases hp : p c = true
    · rw [if_pos hp] at h
      cases h2 : runItems is (X.dropWhile p) with
      | none => rw [h2] at h; cases h
      | some r2 =>
        rw [h2] at h
        cases h
        exact ⟨c, X, r2, rfl, hp, h2, rfl⟩
    · rw [if_neg hp] at h; cases h

/-- Truncation: a match that leaves the tail `v` of the input untouched is also the
match on the input without `v`. -/
theorem runItems_truncate (is : List Item) :
    ∀ (u v : Str) (segs : List Str) (rest : Str),
      runItems is (u ++ v) = some (segs, rest ++ v) → runItems is u = some (segs, rest) := by
  induction is with
  | nil =>
    intro u v segs rest h
    rw [runItems_nil] at h
    simp only [Option.some.injEq, Prod.mk.injEq] at h
    rw [runItems_nil, ← h.1, List.append_cancel_right h.2]
  | cons it is ih =>
    intro u v segs rest h
    have hlen := runItems_cons_rest_length it is _ _ h
    simp only [List.length_append] at hlen
    cases u with
    | nil => simp at hlen
    | cons x u =>
      cases it with
      | one p =>
        obtain ⟨c, X2, r2, hX, hp, hr, hres⟩ := runItems_one_inv p is _ _ h
        simp only [List.cons_append, List.cons.injEq] at hX
        obtain ⟨rfl, rfl⟩ := hX
        simp only [Prod.mk.injEq] at hres
        obtain ⟨rfl, h2⟩ := hres
        have := ih u v r2.1 rest (by rw [hr, h2])
        rw [runItems_one_cons, if_pos hp, this]
        rfl
      | many1 p =>
        obtain ⟨c, X2, r2, hX, hp, hr, hres⟩ := runItems_many1_inv p is _ _ h
        simp only [List.cons_append, List.cons.injEq] at hX
        obtain ⟨rfl, rfl⟩ := hX
        simp only [Prod.mk.injEq] at hres
        obtain ⟨rfl, h2⟩ := hres
        have key : (u ++ v).dropWhile p = u.dropWhile p ++ v ∧
            (u ++ v).takeWhile p = u.takeWhile p := by
          rcases all_or_stop p u with hall | hstop
          · have h3 := dropWhile_append_of_all p u v hall
            have h4 := runItems_rest_length is _ _ hr
            rw [h3.1, ← h2] at h4
            simp only [List.length_append] at h4
            have h5 : (v.dropWhile p).length ≤ v.length :=
              (List.dropWhile_sublist p).length_le
            have h6 : v.dropWhile p = v := by
              apply List.Sublist.eq_of_length_le (List.dropWhile_sublist p)
              omega
            have h7 : v.takeWhile p = [] := by
              have := List.takeWhile_append_dropWhile p v
              rw [h6] at this
              exact List.append_left_eq_self.mp this
            have h8 := dropWhile_all p u hall
            rw [h3.1, h3.2, h6, h7, h8.1, h8.2]
            simp
          · exact dropWhile_append_of_stop p u v hstop
        rw [key.1] at hr
        have := ih (u.dropWhile p) v r2.1 rest (by rw [hr, h2])
        rw [runItems_many1_cons, if_pos hp, this, key.2]
        rfl

theorem crossable_tail (it : Item) (is : List Item) (c1 c2 : Char)
    (h : crossable (it :: is) c1 c2 = false) : crossable is c1 c2 = false := by
  cases is with
  | nil => rfl
  | cons it2 is =>
    simp only [crossable, Bool.or_eq_false_iff] at h
    exact h.2

/-- After the first item has consumed `c1`, nothing of `c2 :: w` is consumed when the
pattern cannot take `c1` and `c2` in a row. -/
theorem runItems_stop_after (it : Item) (is : List Item) (c1 c2 : Char) (w : Str)
    (hacc : it.accepts c1 = true)
    (hx : crossable (it :: is) c1 c2 = false) (r : List Str × Str)
    (h : runItems is (c2 :: w) = some r) : r.2 = c2 :: w := by
  cases is with
  | nil =>
    rw [runItems_nil] at h
    cases h
    rfl
  | cons it2 is =>
    have h2 := runItems_accepts_head it2 is c2 w r h
    simp only [crossable, Bool.or_eq_false_iff, Bool.and_eq_false_iff] at hx
    rcases hx.1.2 with h3 | h3
    · rw [hacc] at h3; cases h3
    · rw [h2] at h3; cases h3

/-- No crossing: if the pattern cannot consume `c1` immediately followed by `c2`, a
match on `u ++ c1 :: c2 :: w` leaves `c2 :: w` untouched. -/
theorem runItems_noCross (c1 c2 : Char) (w : Str) (is : List Item) :
    ∀ (u : Str) (r : List Str × Str), crossable is c1 c2 = false →
      runItems is (u ++ c1 :: c2 :: w) = some r → ∃ rest, r.2 = rest ++ c2 :: w := by
  induction is with
  | nil =>
    intro u r _ h
    rw [runItems_nil] at h
    cases h
    exact ⟨u ++ [c1], by simp⟩
  | cons it is ih =>
    intro u r hx h
    have hx2 := crossable_tail it is c1 c2 hx
    cases it with
    | one p =>
      obtain ⟨c, X2, r2, hX, hp, hr, hres⟩ := runItems_one_inv p is _ _ h
      rw [hres]
      cases u with
      | nil =>
        simp only [List.nil_append, List.cons.injEq] at hX
        obtain ⟨rfl, rfl⟩ := hX
        exact ⟨[], runItems_stop_after (Item.one p) is c1 c2 w hp hx r2 hr⟩
      | cons x u =>
        simp only [List.cons_append, List.cons.injEq] at hX
        obtain ⟨rfl, rfl⟩ := hX
        exact ih u r2 hx2 hr
    | many1 p =>
      obtain ⟨c, X2, r2, hX, hp, hr, hres⟩ := runItems_many1_inv p is _ _ h
      rw [hres]
      have hrep : ¬ (p c1 = true ∧ p c2 = true) := by
        intro hb
        have : crossable (Item.many1 p :: is) c1 c2 = true := by
          cases is <;> simp [crossable, Item.repeats, hb.1, hb.2]
        rw [this] at hx
        cases hx
      -- the behaviour of the greedy run on `c1 :: c2 :: w`
      have tailCase : ∀ r3, runItems is ((c1 :: c2 :: w).dropWhile p) = some r3 →
          ∃ rest, r3.2 = rest ++ c2 :: w := by
        intro r3 h3
        by_cases hp1 : p c1 = true
        · have hp2 : p c2 = false := by
            cases hq : p c2
            · rfl
            · exact absurd ⟨hp1, hq⟩ hrep
          have : (c1 :: c2 :: w).dropWhile p = c2 :: w := by
            simp [List.dropWhile_cons, hp1, hp2]
          rw [this] at h3
          exact ⟨[], runItems_stop_after (Item.many1 p) is c1 c2 w hp1 hx r3 h3⟩
        · have : (c1 :: c2 :: w).dropWhile p = c1 :: c2 :: w := by
            simp [List.dropWhile_cons, hp1]
          rw [this] at h3
          exact ih [] r3 hx2 h3
      cases u with
      | nil =>
        simp only [List.nil_append, List.cons.injEq] at hX
        obtain ⟨rfl, rfl⟩ := hX
        have hp2 : p c2 = false := by
          cases hq : p c2
          · rfl
          · exact absurd ⟨hp, hq⟩ hrep
        have : (c2 :: w).dropWhile p = c2 :: w := by
          simp [List.dropWhile_cons, hp2]
        rw [this] at hr
        exact ⟨[], runItems_stop_after (Item.many1 p) is c1 c2 w hp hx r2 hr⟩
      | cons x u =>
        simp only [List.cons_append, List.cons.injEq] at hX
        obtain ⟨rfl, rfl⟩ := hX
        rcases all_or_stop p u with hall | hstop
        · rw [(dropWhile_append_of_all p u _ hall).1] at hr
          exact tailCase r2 hr
        · rw [(dropWhile_append_of_stop p u _ hstop).1] at hr
          exact ih _ r2 hx2 hr

/-- A match that consumes its whole input ends with a character of the last item. -/
theorem runItems_last (c : Char) (is : List Item) :
    ∀ (u : Str) (segs : List Str), is ≠ [] →
      runItems is (u ++ [c]) = some (segs, []) → endsWith is c = true := by
  induction is with
  | nil => intro u segs h; exact absurd rfl h
  | cons it is ih =>
    intro u segs _ h
    cases is with
    | nil =>
      cases it with
      | one p =>
        obtain ⟨x, X2, r2, hX, hp, hr, hres⟩ := runItems_one_inv p [] _ _ h
        rw [runItems_nil] at hr
        cases hr
        simp only [Prod.mk.injEq] at hres
        have hX2 : X2 = [] := hres.2.symm
        subst hX2
        cases u with
        | nil =>
          simp only [List.nil_append, List.cons.injEq] at hX
          rw [hX.1]
          exact hp
        | cons y u =>
          simp only [List.cons_append, List.cons.injEq] at hX
          have := congrArg List.length hX.2
          simp at this
      | many1 p =>
        obtain ⟨x, X2, r2, hX, hp, hr, hres⟩ := runItems_many1_inv p [] _ _ h
        rw [runItems_nil] at hr
        cases hr
        simp only [Prod.mk.injEq] at hres
        have hX2 : X2.dropWhile p = [] := hres.2.symm
        have hall : ∀ y ∈ X2, p y = true := by
          intro y hy
          have := List.dropWhile_eq_nil_iff.mp hX2 y hy
          exact this
        have hc : c ∈ x :: X2 := by rw [← hX]; simp
        rcases List.mem_cons.mp hc with rfl | hc
        · exact hp
        · exact hall c hc
    | cons it2 is =>
      have ih2 := ih
      cases it with
      | one p =>
        obtain ⟨x, X2, r2, hX, hp, hr, hres⟩ := runItems_one_inv p _ _ _ h
        simp only [Prod.mk.injEq] at hres
        cases u with
        | nil =>
          simp only [List.nil_append, List.cons.injEq] at hX
          rw [← hX.2, runItems_cons_nil] at hr
          cases hr
        | cons y u =>
          simp only [List.cons_append, List.cons.injEq] at hX
          rw [← hX.2] at hr
          have hr2 : runItems (it2 :: is) (u ++ [c]) = some (r2.1, []) := by
            rw [hr, hres.2]
          exact ih2 u r2.1 (by simp) hr2
      | many1 p =>
        obtain ⟨x, X2, r2, hX, hp, hr, hres⟩ := runItems_many1_inv p _ _ _ h
        simp only [Prod.mk.injEq] at hres
        have hr2 : runItems (it2 :: is) (X2.dropWhile p) = some (r2.1, []) := by
          rw [hr, hres.2]
        cases u with
        | nil =>
          simp only [List.nil_append, List.cons.injEq] at hX
          rw [← hX.2] at hr2
          simp only [List.dropWhile_nil, runItems_cons_nil] at hr2
          cases hr2
        | cons y u =>
          simp only [List.cons_append, List.cons.injEq] at hX
          rw [← hX.2] at hr2
          rcases all_or_stop p u with hall | hstop
          · rw [(dropWhile_append_of_all p u _ hall).1] at hr2
            by_cases hpc : p c = true
            · simp only [List.dropWhile_cons, hpc, if_true, List.dropWhile_nil,
                runItems_cons_nil] at hr2
              cases hr2
            · have : [c].dropWhile p = [] ++ [c] := by
                simp [List.dropWhile_cons, hpc]
              rw [this] at hr2
              exact ih2 [] r2.1 (by simp) hr2
          · rw [(dropWhile_append_of_stop p u _ hstop).1] at hr2
            exact ih2 _ r2.1 (by simp) hr2

/-! ## The leftmost search -/

theorem search_of_hit {α : Type} (m : Str → Option α) (cs : Str) (r : α)
    (h : m cs = some r) : search m cs = some r := by
  cases cs with
  | nil => exact h
  | cons c cs => simp only [search, h]

theorem search_cons_of_fail {α : Type} (m : Str → Option α) (c : Char) (cs : Str)
    (h : m (c :: cs) = none) : search m (c :: cs) = search m cs := by
  simp only [search, h]

/-- Positions at which the match fails are skipped by the search. -/
theorem search_append_of_fail {α : Type} (m : Str → Option α) (R : Str) :
    ∀ P : Str, (∀ p s, P = p ++ s → s ≠ [] → m (s ++ R) = none) →
      search m (P ++ R) = search m R
  | [], _ => rfl
  | c :: P, h => by
    have h1 : m (c :: (P ++ R)) = none := h [] (c :: P) rfl (by simp)
    show search m (c :: (P ++ R)) = search m R
    rw [search_cons_of_fail m c _ h1]
    apply search_append_of_fail m R P
    intro p s hp hs
    exact h (c :: p) s (by rw [hp]; rfl) hs

/-- A search without result means that the match fails at every position. -/
theorem search_eq_none {α : Type} (m : Str → Option α) :
    ∀ cs : Str, search m cs = none → ∀ p s, cs = p ++ s → m s = none
  | [], h, p, s, hp => by
    have : s = [] := (List.append_eq_nil.mp hp.symm).2
    rw [this]
    exact h
  | c :: cs, h, p, s, hp => by
    simp only [search] at h
    cases h1 : m (c :: cs) with
    | some r => rw [h1] at h; cases h
    | none =>
      rw [h1] at h
      cases p with
      | nil =>
        rw [List.nil_append] at hp
        rw [← hp]
        exact h1
      | cons x p =>
        simp only [List.cons_append, List.cons.injEq] at hp
        exact search_eq_none m cs h p s hp.2

/-- A successful search is a match at some position, with no match before it. -/
theorem search_eq_some {α : Type} (m : Str → Option α) (r : α) :
    ∀ cs : Str, search m cs = some r → ∃ p s, cs = p ++ s ∧ m s = some r
  | [], h => ⟨[], [], rfl, h⟩
  | c :: cs, h => by
    simp only [search] at h
    cases h1 : m (c :: cs) with
    | some r2 =>
      rw [h1] at h
      cases h
      exact ⟨[], c :: cs, rfl, h1⟩
    | none =>
      rw [h1] at h
      obtain ⟨p, s, hp, hs⟩ := search_eq_some m r cs h
      exact ⟨c :: p, s, by rw [hp]; rfl, hs⟩

theorem suffix_concat_cases (A : Str) (c : Char) (F rest : Str)
    (h : A ++ [c] = F ++ rest) : rest = [] ∨ ∃ rest0, rest = rest0 ++ [c] := by
  rcases List.eq_nil_or_concat rest with h0 | ⟨r0, x, h0⟩
  · exact Or.inl h0
  · right
    subst h0
    rw [List.concat_eq_append, ← List.append_assoc] at h
    have := List.append_inj' h rfl
    simp only [List.cons.injEq, and_true] at this
    exact ⟨r0, by rw [List.concat_eq_append, this.2]⟩

/-- A match on `s ++ c1 :: c2 :: w` stays inside `s ++ [c1]` when the pattern cannot
consume `c1` followed by `c2`. -/
theorem runItems_inside_one (is : List Item) (s : Str) (c1 c2 : Char) (w : Str)
    (hx : crossable is c1 c2 = false) (r : List Str × Str)
    (h : runItems is (s ++ c1 :: c2 :: w) = some r) :
    ∃ rest, runItems is (s ++ [c1]) = some (r.1, rest) := by
  obtain ⟨rest, hrest⟩ := runItems_noCross c1 c2 w is s r hx h
  refine ⟨rest, runItems_truncate is (s ++ [c1]) (c2 :: w) r.1 rest ?_⟩
  rw [← hrest, List.append_assoc]
  exact h

/-- A match on `s ++ c1 :: c2 :: w` stays inside `s` when the pattern can neither
consume `c1` followed by `c2` nor end with `c1`. -/
theorem runItems_inside (is : List Item) (s : Str) (c1 c2 : Char) (w : Str)
    (hne : is ≠ []) (hx : crossable is c1 c2 = false) (he : endsWith is c1 = false)
    (r : List Str × Str) (h : runItems is (s ++ c1 :: c2 :: w) = some r) :
    ∃ rest, runItems is s = some (r.1, rest) := by
  obtain ⟨rest, hrest⟩ := runItems_inside_one is s c1 c2 w hx r h
  have hin : s ++ [c1] = r.1.flatten ++ rest := runItems_input is _ _ hrest
  rcases suffix_concat_cases s c1 _ _ hin with h0 | ⟨rest0, h0⟩
  · rw [h0] at hrest
    have := runItems_last c1 is s r.1 hne hrest
    rw [this] at he
    cases he
  · rw [h0] at hrest
    exact ⟨rest0, runItems_truncate is s [c1] r.1 rest0 hrest⟩

/-! ## Character classes -/

theorem isDigit_not_space (c : Char) (h : isDigit c = true) : isSpace c = false := by
  simp only [isDigit, Bool.and_eq_true, decide_eq_true_eq] at h
  cases hs : isSpace c
  · rfl
  · simp only [isSpace, Bool.or_eq_true, Bool.and_eq_true, decide_eq_true_eq,
      beq_iff_eq] at hs
    omega

theorem flatten_singletons : ∀ h : Str, (h.map (fun c => [c])).flatten = h
  | [] => rfl
  | c :: h => by
    simp only [List.map_cons, List.flatten_cons, List.singleton_append,
      flatten_singletons h]

/-! ## The canonical command -/

theorem taskText_eq (a d t n : Str) :
    trim ((taskCommand a d t n).drop 5) = taskText a d t n := by
  have e1 : (taskCommand a d t n).drop 5 = ' ' :: taskText a d t n := by
    have l1 : "/task @".toList = ['/', 't', 'a', 's', 'k', ' ', '@'] := rfl
    have l2 : " ".toList = [' '] := rfl
    have l3 : " by ".toList = [' ', 'b', 'y', ' '] := rfl
    have l4 : " for ".toList = [' ', 'f', 'o', 'r', ' '] := rfl
    have l5 : " ETH".toList = [' ', 'E', 'T', 'H'] := rfl
    simp [taskCommand, taskText, l1, l2, l3, l4, l5]
  have e2 : taskText a d t n =
      ('@' :: (a ++ ' ' :: (d ++ ' ' :: 'b' :: 'y' :: ' ' :: (t ++ ' ' :: 'f' :: 'o' :: 'r' ::
        ' ' :: (n ++ [' ', 'E', 'T'])))) ) ++ ['H'] := by
    simp [taskText]
  rw [e1]
  unfold trim
  have s1 : isSpace ' ' = true := by decide
  have s2 : isSpace '@' = false := by decide
  have s3 : isSpace 'H' = false := by decide
  have e3 : (' ' :: taskText a d t n).dropWhile isSpace = taskText a d t n := by
    rw [List.dropWhile_cons, if_pos s1]
    unfold taskText
    rw [List.dropWhile_cons]
    simp [s2]
  rw [e3]
  conv_lhs => rw [e2]
  rw [List.reverse_append]
  simp only [List.reverse_cons, List.reverse_nil, List.nil_append, List.singleton_append,
    List.dropWhile_cons, s3]
  simp [taskText]

theorem taskCommand_starts (a d t n : Str) :
    "/task ".toList.isPrefixOf (taskCommand a d t n) = true := by
  have l0 : "/task ".toList = ['/', 't', 'a', 's', 'k', ' '] := rfl
  have l1 : "/task @".toList = ['/', 't', 'a', 's', 'k', ' ', '@'] := rfl
  simp [taskCommand, l0, l1, List.isPrefixOf]

theorem matchAddress_at_start (a R : Str) (ha : isValidAddress a = true) :
    matchAddress ('@' :: (a ++ R)) = some a := by
  obtain ⟨h, rfl, hlen, hall⟩ := (isValidAddress_iff a).mp ha
  unfold matchAddress
  have key := runItems_replicate isHexDigit [] 40
  simp only [List.append_nil] at key
  have hit : runItems addressItems ('@' :: ('0' :: 'x' :: h ++ R)) =
      some (['@'] :: ['0'] :: ['x'] :: h.map (fun c => [c]), R) := by
    unfold addressItems
    simp only [List.cons_append, runItems_lit_cons, if_true, key]
    have h3 : 40 ≤ (h ++ R).length ∧ ((h ++ R).take 40).all isHexDigit = true := by
      refine ⟨by simp; omega, ?_⟩
      rw [List.take_left' hlen]
      simpa using hall
    rw [if_pos h3, List.take_left' hlen, List.drop_left' hlen, runItems_nil]
    simp
  rw [search_of_hit _ _ _ hit]
  simp [flatten_singletons]

theorem matchAddress_taskText (a d t n : Str) (ha : isValidAddress a = true) :
    matchAddress (taskText a d t n) = some a :=
  matchAddress_at_start a _ ha

/-! ## The greedy matcher reports the first match in backtracking order -/

theorem runsDesc_of_reject (p : Char → Bool) (x : Char) (w : Str) (h : p x = false) :
    runsDesc p (x :: w) = [] := by
  simp [runsDesc, h]

/-- The runs of `p+` start with the longest one; every other run leaves a rest that
begins with a character of `p`. -/
theorem runsDesc_spec (p : Char → Bool) :
    ∀ (cs : Str) (c : Char), p c = true →
      ∃ tl, runsDesc p (c :: cs) = (c :: cs.takeWhile p, cs.dropWhile p) :: tl ∧
        ∀ r ∈ tl, ∃ x w, r.2 = x :: w ∧ p x = true
  | [], c, hc => ⟨[], by simp [runsDesc, hc], by simp⟩
  | d :: cs, c, hc => by
    by_cases hd : p d = true
    · obtain ⟨tl, htl, hrest⟩ := runsDesc_spec p cs d hd
      refine ⟨tl.map (fun r => (c :: r.1, r.2)) ++ [([c], d :: cs)], ?_, ?_⟩
      · have : runsDesc p (c :: d :: cs) =
            (runsDesc p (d :: cs)).map (fun r => (c :: r.1, r.2)) ++ [([c], d :: cs)] := by
          simp [runsDesc, hc]
        rw [this, htl]
        simp [List.takeWhile_cons, List.dropWhile_cons, hd]
      · intro r hr
        rcases List.mem_append.mp hr with h1 | h1
        · obtain ⟨r2, hr2, rfl⟩ := List.mem_map.mp h1
          exact hrest r2 hr2
        · simp only [List.mem_singleton] at h1
          subst h1
          exact ⟨d, cs, rfl, hd⟩
    · have hd2 : p d = false := by simpa using hd
      refine ⟨[], ?_, by simp⟩
      have : runsDesc p (c :: d :: cs) =
          (runsDesc p (d :: cs)).map (fun r => (c :: r.1, r.2)) ++ [([c], d :: cs)] := by
        simp [runsDesc, hc]
      rw [this, runsDesc_of_reject p d cs hd2]
      simp [List.takeWhile_cons, List.dropWhile_cons, hd2]

theorem allMatches_of_reject (it : Item) (is : List Item) (x : Char) (w : Str)
    (h : it.accepts x = false) : allMatches (it :: is) (x :: w) = [] := by
  cases it with
  | one p =>
    simp only [Item.accepts] at h
    simp [allMatches, h]
  | many1 p =>
    simp only [Item.accepts] at h
    simp [allMatches, runsDesc_of_reject p x w h]

theorem allMatches_cons_nil (it : Item) (is : List Item) : allMatches (it :: is) [] = [] := by
  cases it <;> simp [allMatches, runsDesc]

theorem Deterministic.tail (it : Item) (is : List Item) (h : Deterministic (it :: is)) :
    Deterministic is := by
  cases is with
  | nil => trivial
  | cons it2 is => exact h.2

theorem flatMap_eq_nil_of_forall {α β : Type} (l : List α) (f : α → List β)
    (h : ∀ a ∈ l, f a = []) : l.flatMap f = [] := by
  induction l with
  | nil => rfl
  | cons a l ih =>
    rw [List.flatMap_cons, h a (List.mem_cons_self _ _),
      ih (fun b hb => h b (List.mem_cons_of_mem _ hb))]
    rfl

/-- Adequacy of the greedy matcher: for a deterministic pattern the first match in
backtracking order is the result of `runItems`, and every later match comes from a
shorter run of a final repetition. -/
theorem allMatches_spec (is : List Item) :
    Deterministic is → ∀ cs : Str,
      (allMatches is cs).head? = runItems is cs ∧
      ∀ a ∈ (allMatches is cs).tail, ∃ p x w,
        is.getLast? = some (Item.many1 p) ∧ a.2 = x :: w ∧ p x = true := by
  induction is with
  | nil =>
    intro _ cs
    simp [allMatches, runItems_nil]
  | cons it is ih =>
    intro hdet cs
    have ih2 := ih (Deterministic.tail it is hdet)
    cases cs with
    | nil =>
      rw [allMatches_cons_nil, runItems_cons_nil]
      simp
    | cons c rest =>
      cases it with
      | one p =>
        by_cases hp : p c = true
        · have e : allMatches (Item.one p :: is) (c :: rest) =
              (allMatches is rest).map (fun r => ([c] :: r.1, r.2)) := by
            simp [allMatches, hp]
          rw [e, runItems_one_cons, if_pos hp]
          refine ⟨by rw [List.head?_map, (ih2 rest).1], ?_⟩
          intro a ha
          rw [← List.map_tail] at ha
          obtain ⟨a2, ha2, rfl⟩ := List.mem_map.mp ha
          obtain ⟨q, x, w, hq, hx, hqx⟩ := (ih2 rest).2 a2 ha2
          refine ⟨q, x, w, ?_, hx, hqx⟩
          cases is with
          | nil => simp at hq
          | cons it2 is => rw [List.getLast?_cons_cons]; exact hq
        · have hp2 : p c = false := by simpa using hp
          rw [allMatches_of_reject (Item.one p) is c rest hp2, runItems_one_cons, if_neg hp]
          simp
      | many1 p =>
        by_cases hp : p c = true
        · obtain ⟨tl, htl, hrest⟩ := runsDesc_spec p rest c hp
          have e : allMatches (Item.many1 p :: is) (c :: rest) =
              (allMatches is (rest.dropWhile p)).map
                (fun r => ((c :: rest.takeWhile p) :: r.1, r.2)) ++
              tl.flatMap (fun run => (allMatches is run.2).map
                (fun r => (run.1 :: r.1, r.2))) := by
            simp [allMatches, htl]
          rw [e, runItems_many1_cons, if_pos hp]
          cases is with
          | nil =>
            simp only [allMatches, List.map_cons, List.map_nil, List.singleton_append,
              List.head?_cons, runItems_nil, Option.map_some', List.tail_cons, true_and]
            intro a ha
            obtain ⟨r, hr, har⟩ := List.mem_flatMap.mp ha
            simp only [List.mem_singleton] at har
            subst har
            obtain ⟨x, w, hx, hpx⟩ := hrest r hr
            exact ⟨p, x, w, rfl, hx, hpx⟩
          | cons it2 is =>
            have hnil : tl.flatMap (fun run => (allMatches (it2 :: is) run.2).map
                (fun r => (run.1 :: r.1, r.2))) = [] := by
              apply flatMap_eq_nil_of_forall
              intro r hr
              obtain ⟨x, w, hx, hpx⟩ := hrest r hr
              rw [hx, allMatches_of_reject it2 is x w (hdet.1 p rfl x hpx)]
              rfl
            rw [hnil, List.append_nil]
            refine ⟨by rw [List.head?_map, (ih2 _).1], ?_⟩
            intro a ha
            rw [← List.map_tail] at ha
            obtain ⟨a2, ha2, rfl⟩ := List.mem_map.mp ha
            obtain ⟨q, x, w, hq, hx, hqx⟩ := (ih2 _).2 a2 ha2
            exact ⟨q, x, w, by rw [List.getLast?_cons_cons]; exact hq, hx, hqx⟩
        · have hp2 : p c = false := by simpa using hp
          rw [allMatches_of_reject (Item.many1 p) is c rest hp2, runItems_many1_cons,
            if_neg hp]
          simp

theorem isSpace_not_digit (c : Char) (h : isSpace c = true) : isDigit c = false := by
  cases hd : isDigit c
  · rfl
  · rw [isDigit_not_space c hd] at h
    cases h

theorem isSpace_not_word (c : Char) (h : isSpace c = true) : isWordChar c = false := by
  simp only [isSpace, Bool.or_eq_true, Bool.and_eq_true, decide_eq_true_eq, beq_iff_eq] at h
  cases hw : isWordChar c
  · rfl
  · simp only [isWordChar, Bool.or_eq_true, Bool.and_eq_true, decide_eq_true_eq,
      beq_iff_eq] at hw
    omega

theorem isDigit_not_dot (c : Char) (h : isDigit c = true) : (lit '.').accepts c = false := by
  cases hb : (lit '.').accepts c
  · rfl
  · have : c = '.' := by simpa [lit, Item.accepts] using hb
    rw [this] at h
    exact absurd h (by decide)

theorem Deterministic.cons_one (q : Char → Bool) (it2 : Item) (is : List Item)
    (h : Deterministic (it2 :: is)) : Deterministic (Item.one q :: it2 :: is) := by
  refine ⟨?_, h⟩
  intro _ hp
  cases hp

theorem Deterministic.cons_many1 (p : Char → Bool) (it2 : Item) (is : List Item)
    (hd : ∀ c, p c = true → it2.accepts c = false) (h : Deterministic (it2 :: is)) :
    Deterministic (Item.many1 p :: it2 :: is) := by
  refine ⟨?_, h⟩
  intro q hq c hc
  have : p = q := by injection hq
  subst this
  exact hd c hc

theorem Deterministic.replicate_one (q : Char → Bool) :
    ∀ n : Nat, Deterministic (List.replicate n (Item.one q))
  | 0 => trivial
  | 1 => trivial
  | n + 2 => by
    show Deterministic (Item.one q :: Item.one q :: List.replicate n (Item.one q))
    exact Deterministic.cons_one q _ _ (Deterministic.replicate_one q (n + 1))

theorem deterministic_addressItems : Deterministic addressItems :=
  Deterministic.cons_one _ _ _ (Deterministic.cons_one _ _ _
    (Deterministic.cons_one _ _ _
      (show Deterministic (Item.one isHexDigit :: List.replicate 39 (Item.one isHexDigit))
        from Deterministic.replicate_one isHexDigit 40)))

theorem deterministic_dateItems : Deterministic dateItems := by
  unfold dateItems lit
  refine Deterministic.cons_one _ _ _ (Deterministic.cons_one _ _ _
    (Deterministic.cons_many1 _ _ _ (fun c hc => isSpace_not_digit c hc) ?_))
  refine Deterministic.cons_one _ _ _ (Deterministic.cons_one _ _ _
    (Deterministic.cons_one _ _ _ (Deterministic.cons_one _ _ _
    (Deterministic.cons_one _ _ _ (Deterministic.cons_one _ _ _
    (Deterministic.cons_one _ _ _ (Deterministic.cons_one _ _ _
    (Deterministic.cons_one _ _ _ (Deterministic.cons_one _ _ _ ?_)))))))))
  exact Deterministic.cons_many1 _ _ _ (fun c hc => isSpace_not_digit c hc)
    (Deterministic.cons_one _ _ _ (Deterministic.cons_one _ _ _
    (Deterministic.cons_one _ _ _ (Deterministic.cons_one _ _ _ trivial))))

theorem deterministic_valuePost : Deterministic valuePost :=
  Deterministic.cons_many1 _ _ _ (fun c hc => isSpace_not_word c hc) trivial

theorem deterministic_valueGrpPost : Deterministic (valueGrp ++ valuePost) :=
  Deterministic.cons_one _ _ _ (Deterministic.cons_many1 _ _ _
    (fun c hc => isDigit_not_space c hc) deterministic_valuePost)

theorem deterministic_valuePre : Deterministic valuePre :=
  Deterministic.cons_one _ _ _ (Deterministic.cons_one _ _ _ (Deterministic.cons_one _ _ _
    (Deterministic.cons_many1 _ _ _ (fun c hc => isSpace_not_digit c hc) trivial)))

/-- The address pattern: the match reported at a position is the first one in
backtracking order. -/
theorem addressItems_adequate (cs : Str) :
    (allMatches addressItems cs).head? = runItems addressItems cs :=
  (allMatches_spec addressItems deterministic_addressItems cs).1

/-- The deadline pattern: the match reported at a position is the first one in
backtracking order. -/
theorem dateItems_adequate (cs : Str) :
    (allMatches dateItems cs).head? = runItems dateItems cs :=
  (allMatches_spec dateItems deterministic_dateItems cs).1

theorem runItems_append (is1 is2 : List Item) :
    ∀ cs : Str, runItems (is1 ++ is2) cs =
      match runItems is1 cs with
      | none => none
      | some a => (runItems is2 a.2).map (fun b => (a.1 ++ b.1, b.2)) := by
  induction is1 with
  | nil =>
    intro cs
    simp only [List.nil_append, runItems_nil]
    cases runItems is2 cs <;> simp
  | cons it is1 ih =>
    intro cs
    cases cs with
    | nil => simp [runItems_cons_nil]
    | cons c rest =>
      cases it with
      | one p =>
        simp only [List.cons_append, runItems_one_cons]
        by_cases hp : p c = true
        · rw [if_pos hp, if_pos hp, ih rest]
          cases h1 : runItems is1 rest with
          | none => rfl
          | some a =>
            simp only [Option.map_some']
            cases runItems is2 a.2 <;> simp
        · rw [if_neg hp, if_neg hp]
      | many1 p =>
        simp only [List.cons_append, runItems_many1_cons]
        by_cases hp : p c = true
        · rw [if_pos hp, if_pos hp, ih _]
          cases h1 : runItems is1 (rest.dropWhile p) with
          | none => rfl
          | some a =>
            simp only [Option.map_some']
            cases runItems is2 a.2 <;> simp
        · rw [if_neg hp, if_neg hp]

theorem allMatches_append (is1 is2 : List Item) :
    ∀ cs : Str, allMatches (is1 ++ is2) cs =
      (allMatches is1 cs).flatMap
        (fun a => (allMatches is2 a.2).map (fun b => (a.1 ++ b.1, b.2))) := by
  induction is1 with
  | nil =>
    intro cs
    simp [allMatches]
  | cons it is1 ih =>
    intro cs
    have ih2 : ∀ cs : Str, allMatches (is1.append is2) cs =
        (allMatches is1 cs).flatMap
          (fun a => (allMatches is2 a.2).map (fun b => (a.1 ++ b.1, b.2))) := ih
    cases it with
    | one p =>
      cases cs with
      | nil => simp [allMatches]
      | cons c rest =>
        by_cases hp : p c = true
        · simp only [List.cons_append, allMatches, hp, if_true, ih2 rest, List.map_flatMap,
            List.flatMap_map, List.map_map]
          rfl
        · simp [allMatches, hp]
    | many1 p =>
      simp only [List.cons_append, allMatches, ih2, List.flatMap_assoc, List.map_flatMap,
        List.flatMap_map, List.map_map]
      rfl

/-- Adequacy of `matchValueAt`: the groups it reports are those of the first match of
`for\s+(\d+(?:\.\d+)?)\s+(\w+)` in backtracking order. -/
theorem matchValueAt_adequate (cs : Str) : (valueMatches cs).head? = matchValueAt cs := by
  have hpre := allMatches_spec valuePre deterministic_valuePre cs
  have hFrac : valueItemsFrac = valuePre ++ (valueGrp ++ valuePost) := rfl
  have hInt : valueItemsInt = valuePre ++ valuePost := rfl
  have hgp := allMatches_spec (valueGrp ++ valuePost) deterministic_valueGrpPost
  have hpo := allMatches_spec valuePost deterministic_valuePost
  unfold matchValueAt valueMatches
  rw [hFrac, hInt, runItems_append, runItems_append, ← hpre.1]
  cases hL : allMatches valuePre cs with
  | nil => simp
  | cons a0 tl =>
    rw [hL] at hpre
    -- the matches that gave digits back contribute nothing
    have htl : ∀ a ∈ tl,
        ((allMatches valueGrp a.2).flatMap (fun b =>
          (allMatches valuePost b.2).map (fun c =>
            ((((a.1 ++ b.1 ++ c.1).drop 4).take 3).flatten,
              (((a.1 ++ b.1 ++ c.1).drop 8).take 1).flatten))) ++
        (allMatches valuePost a.2).map (fun c =>
          ((((a.1 ++ c.1).drop 4).take 1).flatten,
            (((a.1 ++ c.1).drop 6).take 1).flatten))) = [] := by
      intro a ha
      obtain ⟨p, x, w, hp, hx, hpx⟩ := hpre.2 a (by simpa using ha)
      have hpd : p = isDigit := by
        have : valuePre.getLast? = some (Item.many1 isDigit) := rfl
        rw [this] at hp
        injection hp with hp
        injection hp with hp
        exact hp.symm
      subst hpd
      have h1 : allMatches valueGrp (x :: w) = [] :=
        allMatches_of_reject _ _ x w (isDigit_not_dot x hpx)
      have h2 : allMatches valuePost (x :: w) = [] :=
        allMatches_of_reject _ _ x w (by
          simp only [Item.accepts]
          exact isDigit_not_space x hpx)
      rw [hx, h1, h2]
      rfl
    rw [List.flatMap_cons, flatMap_eq_nil_of_forall tl _ htl, List.append_nil]
    -- the matches that take the group
    have hF : (allMatches valueGrp a0.2).flatMap (fun b =>
          (allMatches valuePost b.2).map (fun c =>
            ((((a0.1 ++ b.1 ++ c.1).drop 4).take 3).flatten,
              (((a0.1 ++ b.1 ++ c.1).drop 8).take 1).flatten))) =
        (allMatches (valueGrp ++ valuePost) a0.2).map (fun bc =>
            ((((a0.1 ++ bc.1).drop 4).take 3).flatten,
              (((a0.1 ++ bc.1).drop 8).take 1).flatten)) := by
      rw [allMatches_append, List.map_flatMap]
      simp only [List.map_map, List.append_assoc]
      rfl
    rw [hF, List.head?_append, List.head?_map, List.head?_map, (hgp a0.2).1, (hpo a0.2).1]
    simp only [List.head?_cons]
    cases h1 : runItems (valueGrp ++ valuePost) a0.2 with
    | some r => simp
    | none =>
      cases h2 : runItems valuePost a0.2 with
      | some r => simp
      | none => simp

theorem search_skip_second {α : Type} (m : Str → Option α) (q : Char → Bool)
    (hm : ∀ x y Z, q y = false → m (x :: y :: Z) = none)
    (L : Str) (c : Char) (R : Str) (hL : ∀ x ∈ L, q x = false) (hc : q c = false) :
    search m (L ++ c :: R) = search m (c :: R) := by
  apply search_append_of_fail
  intro p s hp hs
  cases s with
  | nil => exact absurd rfl hs
  | cons x s =>
    cases s with
    | nil => exact hm x c R hc
    | cons y s =>
      apply hm x y _ (hL y _)
      rw [hp]
      simp

theorem search_skip_first {α : Type} (m : Str → Option α) (q : Char → Bool)
    (hm : ∀ x Z, q x = false → m (x :: Z) = none)
    (L : Str) (R : Str) (hL : ∀ x ∈ L, q x = false) :
    search m (L ++ R) = search m R := by
  apply search_append_of_fail
  intro p s hp hs
  cases s with
  | nil => exact absurd rfl hs
  | cons x s =>
    apply hm x _ (hL x _)
    rw [hp]
    simp

theorem runItems_many1_run (p : Char → Bool) (is : List Item) (run tail : Str)
    (hne : run ≠ []) (hall : ∀ x ∈ run, p x = true) (hstop : ∀ c ∈ tail.head?, p c = false) :
    runItems (Item.many1 p :: is) (run ++ tail) =
      (runItems is tail).map (fun r => (run :: r.1, r.2)) := by
  cases run with
  | nil => exact absurd rfl hne
  | cons c run =>
    have hc : p c = true := hall c (List.mem_cons_self _ _)
    have h1 := dropWhile_append_of_all p run tail
      (fun x hx => hall x (List.mem_cons_of_mem _ hx))
    have h2 : tail.dropWhile p = tail ∧ tail.takeWhile p = [] := by
      cases tail with
      | nil => simp
      | cons y tail => exact dropWhile_cons_stop p y tail (hstop y (by simp))
    rw [List.cons_append, runItems_many1_cons, if_pos hc, h1.1, h1.2, h2.1, h2.2,
      List.append_nil]

theorem address_chars (a : Str) (ha : isValidAddress a = true) :
    ∀ x ∈ '@' :: a, isHexDigit x = true ∨ x = 'x' ∨ x = '@' := by
  obtain ⟨h, rfl, _, hall⟩ := (isValidAddress_iff a).mp ha
  intro x hx
  simp only [List.mem_cons] at hx
  rcases hx with rfl | rfl | rfl | hx
  · right; right; rfl
  · left; decide
  · right; left; rfl
  · left; exact hall x hx

theorem address_chars_ne (a : Str) (ha : isValidAddress a = true) (k : Char)
    (hk : isHexDigit k = false) (hk2 : k ≠ 'x') (hk3 : k ≠ '@') :
    ∀ x ∈ '@' :: a, (x == k) = false := by
  intro x hx
  rcases address_chars a ha x hx with h | h | h
  · cases hb : x == k
    · rfl
    · have : x = k := by simpa using hb
      rw [this, hk] at h
      cases h
  · rw [h]; simpa using fun h2 => hk2 h2.symm
  · rw [h]; simpa using fun h2 => hk3 h2.symm

theorem dateItems_second (x y : Char) (Z : Str) (hy : (y == 'y') = false) :
    runItems dateItems (x :: y :: Z) = none := by
  have hy2 : ¬ y = 'y' := by simpa using hy
  unfold dateItems
  rw [runItems_lit_cons]
  by_cases hx : x = 'b'
  · rw [if_pos hx, runItems_lit_cons, if_neg hy2]
    rfl
  · rw [if_neg hx]

theorem dateItems_first (x : Char) (Z : Str) (hx : (x == 'b') = false) :
    runItems dateItems (x :: Z) = none := by
  have hx2 : ¬ x = 'b' := by simpa using hx
  unfold dateItems
  rw [runItems_lit_cons, if_neg hx2]

theorem dateItems_hit (t R : Str) (ht : isDateTimeText t = true) :
    ∃ segs, runItems dateItems ('b' :: 'y' :: ' ' :: (t ++ R)) = some (segs, R) ∧
      (segs.drop 3).flatten = t := by
  match t, ht with
  | [y1, y2, y3, y4, s1, m1, m2, s2, d1, d2, sp, h1, h2, co, n1, n2], ht =>
    simp only [isDateTimeText, Bool.and_eq_true, beq_iff_eq] at ht
    obtain ⟨⟨⟨⟨⟨⟨⟨⟨⟨⟨⟨⟨⟨⟨⟨e1, e2⟩, e3⟩, e4⟩, e5⟩, e6⟩, e7⟩, e8⟩, e9⟩, e10⟩, e11⟩, e12⟩, e13⟩,
      e14⟩, e15⟩, e16⟩ := ht
    subst e5 e8 e11 e14
    have sy := isDigit_not_space y1 e1
    have sh := isDigit_not_space h1 e12
    have sp : isSpace ' ' = true := by decide
    refine ⟨[['b'], ['y'], [' '], [y1], [y2], [y3], [y4], ['-'], [m1], [m2], ['-'], [d1], [d2],
      [' '], [h1], [h2], [':'], [n1], [n2]], ?_, ?_⟩
    · simp only [dateItems, List.cons_append, List.nil_append, runItems_lit_cons,
        runItems_one_cons, runItems_many1_cons, if_true, sp, e1, e2, e3, e4, e6, e7, e9, e10,
        e12, e13, e15, e16, List.dropWhile_cons, List.takeWhile_cons, sy, sh, runItems_nil,
        Option.map_some', Bool.false_eq_true, if_false]
    · simp

theorem matchDate_taskText (a d t n : Str) (ha : isValidAddress a = true)
    (hd : matchDate d = none) (ht : isDateTimeText t = true) :
    matchDate (taskText a d t n) = some t := by
  have hd2 : search (runItems dateItems) d = none := by
    simpa [matchDate] using hd
  obtain ⟨segs, hit, hseg⟩ := dateItems_hit t
    (' ' :: 'f' :: 'o' :: 'r' :: ' ' :: (n ++ [' ', 'E', 'T', 'H'])) ht
  unfold matchDate taskText
  have e0 : '@' :: (a ++ ' ' :: (d ++ ' ' :: 'b' :: 'y' :: ' ' :: (t ++ ' ' :: 'f' :: 'o' ::
      'r' :: ' ' :: (n ++ [' ', 'E', 'T', 'H'])))) =
      ('@' :: a) ++ ' ' :: (d ++ ' ' :: 'b' :: 'y' :: ' ' :: (t ++ ' ' :: 'f' :: 'o' ::
      'r' :: ' ' :: (n ++ [' ', 'E', 'T', 'H']))) := rfl
  rw [e0, search_skip_second (runItems dateItems) (fun c => c == 'y') dateItems_second _ _ _
    (address_chars_ne a ha 'y' (by decide) (by decide) (by decide)) (by decide),
    search_cons_of_fail _ _ _ (dateItems_first _ _ (by decide)),
    search_append_of_fail, search_cons_of_fail _ _ _ (dateItems_first _ _ (by decide)),
    search_of_hit _ _ _ hit]
  · simp [hseg]
  · intro p s hp _
    cases hs : runItems dateItems (s ++ ' ' :: 'b' :: 'y' :: ' ' :: (t ++ ' ' :: 'f' :: 'o' ::
      'r' :: ' ' :: (n ++ [' ', 'E', 'T', 'H']))) with
    | none => rfl
    | some r =>
      obtain ⟨rest, hr⟩ := runItems_inside dateItems s ' ' 'b' _ (by simp [dateItems])
        (by decide) (by decide) r hs
      rw [search_eq_none _ d hd2 p s hp] at hr
      cases hr

theorem matchValueAt_eq_none (X : Str) :
    matchValueAt X = none ↔
      runItems valueItemsFrac X = none ∧ runItems valueItemsInt X = none := by
  unfold matchValueAt
  cases h1 : runItems valueItemsFrac X with
  | some r => simp
  | none =>
    cases h2 : runItems valueItemsInt X with
    | some r => simp
    | none => simp

theorem valueItemsFrac_second (x y : Char) (Z : Str) (hy : ¬ y = 'o') :
    runItems valueItemsFrac (x :: y :: Z) = none := by
  unfold valueItemsFrac
  rw [runItems_lit_cons]
  by_cases hx : x = 'f'
  · rw [if_pos hx, runItems_lit_cons, if_neg hy]
    rfl
  · rw [if_neg hx]

theorem valueItemsInt_second (x y : Char) (Z : Str) (hy : ¬ y = 'o') :
    runItems valueItemsInt (x :: y :: Z) = none := by
  unfold valueItemsInt
  rw [runItems_lit_cons]
  by_cases hx : x = 'f'
  · rw [if_pos hx, runItems_lit_cons, if_neg hy]
    rfl
  · rw [if_neg hx]

theorem matchValueAt_second (x y : Char) (Z : Str) (hy : (y == 'o') = false) :
    matchValueAt (x :: y :: Z) = none := by
  have hy2 : ¬ y = 'o' := by simpa using hy
  rw [matchValueAt_eq_none]
  exact ⟨valueItemsFrac_second x y Z hy2, valueItemsInt_second x y Z hy2⟩

theorem matchValueAt_first (x : Char) (Z : Str) (hx : (x == 'f') = false) :
    matchValueAt (x :: Z) = none := by
  have hx2 : ¬ x = 'f' := by simpa using hx
  rw [matchValueAt_eq_none]
  constructor
  · unfold valueItemsFrac
    rw [runItems_lit_cons, if_neg hx2]
  · unfold valueItemsInt
    rw [runItems_lit_cons, if_neg hx2]

/-- A match of the amount pattern that starts in `s` cannot reach past the `by` of
`s ++ " by "`. -/
theorem matchValueAt_inside (s w : Str)
    (h : matchValueAt (s ++ [' ', 'b', 'y']) = none) :
    matchValueAt (s ++ ' ' :: 'b' :: 'y' :: ' ' :: w) = none := by
  rw [matchValueAt_eq_none] at h ⊢
  have e : s ++ ' ' :: 'b' :: 'y' :: ' ' :: w = (s ++ [' ', 'b']) ++ 'y' :: ' ' :: w := by
    simp
  have e2 : s ++ [' ', 'b', 'y'] = (s ++ [' ', 'b']) ++ ['y'] := by simp
  rw [e]
  rw [e2] at h
  constructor
  · cases hs : runItems valueItemsFrac ((s ++ [' ', 'b']) ++ 'y' :: ' ' :: w) with
    | none => rfl
    | some r =>
      obtain ⟨rest, hr⟩ := runItems_inside_one valueItemsFrac _ 'y' ' ' w (by decide) r hs
      rw [h.1] at hr
      cases hr
  · cases hs : runItems valueItemsInt ((s ++ [' ', 'b']) ++ 'y' :: ' ' :: w) with
    | none => rfl
    | some r =>
      obtain ⟨rest, hr⟩ := runItems_inside_one valueItemsInt _ 'y' ' ' w (by decide) r hs
      rw [h.2] at hr
      cases hr

theorem amount_cases (n : Str) (hn : isAmountText n = true) :
    ∃ c i, isDigit c = true ∧ (∀ x ∈ i, isDigit x = true) ∧
      (n = c :: i ∨ ∃ g f, isDigit g = true ∧ (∀ x ∈ f, isDigit x = true) ∧
        n = (c :: i) ++ '.' :: g :: f) := by
  have hsplit := List.takeWhile_append_dropWhile isDigit n
  have hT : ∀ x ∈ n.takeWhile isDigit, isDigit x = true :=
    fun x hx => List.mem_takeWhile_imp hx
  simp only [isAmountText, Bool.and_eq_true, Bool.or_eq_true, Bool.not_eq_true',
    List.isEmpty_eq_false, List.isEmpty_iff, beq_iff_eq, List.all_eq_true] at hn
  obtain ⟨h1, h2⟩ := hn
  cases hi : n.takeWhile isDigit with
  | nil => exact absurd hi (by simpa using h1)
  | cons c i =>
    rw [hi] at hT hsplit
    refine ⟨c, i, hT c (by simp), fun x hx => hT x (by simp [hx]), ?_⟩
    rcases h2 with h2 | ⟨⟨h3, h4⟩, h5⟩
    · left
      rw [h2, List.append_nil] at hsplit
      exact hsplit.symm
    · right
      cases hr : n.dropWhile isDigit with
      | nil => rw [hr] at h3; cases h3
      | cons y r =>
        rw [hr] at h3 h4 h5 hsplit
        simp only [List.head?_cons, Option.some.injEq] at h3
        subst h3
        simp only [List.tail_cons] at h4 h5
        cases r with
        | nil => exact absurd rfl h4
        | cons g f =>
          exact ⟨g, f, h5 g (by simp), fun x hx => h5 x (by simp [hx]), hsplit.symm⟩

theorem matchValueAt_hit (n : Str) (hn : isAmountText n = true) :
    matchValueAt ('f' :: 'o' :: 'r' :: ' ' :: (n ++ [' ', 'E', 'T', 'H'])) =
      some (n, ['E', 'T', 'H']) := by
  obtain ⟨c, i, hc, hi, hcase⟩ := amount_cases n hn
  have sp : isSpace ' ' = true := by decide
  have hci : ∀ x ∈ c :: i, isDigit x = true := by
    intro x hx
    rcases List.mem_cons.mp hx with rfl | hx
    · exact hc
    · exact hi x hx
  have spaceRun : ∀ (is : List Item) (y : Char) (tail : Str), isSpace y = false →
      runItems (Item.many1 isSpace :: is) (' ' :: y :: tail) =
        (runItems is (y :: tail)).map (fun r => ([' '] :: r.1, r.2)) := by
    intro is y tail hy
    exact runItems_many1_run isSpace is [' '] (y :: tail) (by simp) (by simpa using sp)
      (by simpa using hy)
  have wordRun : runItems [Item.many1 isWordChar] ['E', 'T', 'H'] =
      some ([['E', 'T', 'H']], []) := by decide
  have tailRun : runItems [Item.many1 isSpace, Item.many1 isWordChar] [' ', 'E', 'T', 'H'] =
      some ([[' '], ['E', 'T', 'H']], []) := by decide
  rcases hcase with rfl | ⟨g, f, hg, hf, rfl⟩
  · have hFrac : runItems valueItemsFrac
        ('f' :: 'o' :: 'r' :: ' ' :: ((c :: i) ++ [' ', 'E', 'T', 'H'])) = none := by
      unfold valueItemsFrac
      rw [runItems_lit_cons, if_pos rfl, runItems_lit_cons, if_pos rfl, runItems_lit_cons,
        if_pos rfl, List.cons_append, spaceRun _ _ _ (isDigit_not_space c hc),
        ← List.cons_append,
        runItems_many1_run isDigit _ (c :: i) _ (by simp) hci (by simp; decide),
        runItems_lit_cons, if_neg (by decide)]
      rfl
    have hInt : runItems valueItemsInt
        ('f' :: 'o' :: 'r' :: ' ' :: ((c :: i) ++ [' ', 'E', 'T', 'H'])) =
        some ([['f'], ['o'], ['r'], [' '], c :: i, [' '], ['E', 'T', 'H']], []) := by
      unfold valueItemsInt
      rw [runItems_lit_cons, if_pos rfl, runItems_lit_cons, if_pos rfl, runItems_lit_cons,
        if_pos rfl, List.cons_append, spaceRun _ _ _ (isDigit_not_space c hc),
        ← List.cons_append,
        runItems_many1_run isDigit _ (c :: i) _ (by simp) hci (by simp; decide), tailRun]
      rfl
    unfold matchValueAt
    rw [hFrac, hInt]
    simp
  · have hgf : ∀ x ∈ g :: f, isDigit x = true := by
      intro x hx
      rcases List.mem_cons.mp hx with rfl | hx
      · exact hg
      · exact hf x hx
    have hFrac : runItems valueItemsFrac
        ('f' :: 'o' :: 'r' :: ' ' :: (((c :: i) ++ '.' :: g :: f) ++ [' ', 'E', 'T', 'H'])) =
        some ([['f'], ['o'], ['r'], [' '], c :: i, ['.'], g :: f, [' '], ['E', 'T', 'H']],
          []) := by
      have e : ((c :: i) ++ '.' :: g :: f) ++ [' ', 'E', 'T', 'H'] =
          c :: (i ++ '.' :: ((g :: f) ++ [' ', 'E', 'T', 'H'])) := by simp
      have e2 : c :: (i ++ '.' :: ((g :: f) ++ [' ', 'E', 'T', 'H'])) =
          (c :: i) ++ '.' :: ((g :: f) ++ [' ', 'E', 'T', 'H']) := rfl
      unfold valueItemsFrac
      rw [runItems_lit_cons, if_pos rfl, runItems_lit_cons, if_pos rfl, runItems_lit_cons,
        if_pos rfl, e, spaceRun _ _ _ (isDigit_not_space c hc), e2,
        runItems_many1_run isDigit _ (c :: i) _ (by simp) hci (by simp; decide),
        runItems_lit_cons, if_pos rfl,
        runItems_many1_run isDigit _ (g :: f) _ (by simp) hgf (by simp; decide), tailRun]
      rfl
    unfold matchValueAt
    rw [hFrac]
    simp

theorem dateTime_chars (t : Str) (ht : isDateTimeText t = true) :
    ∀ x ∈ t, isDigit x = true ∨ x = '-' ∨ x = ' ' ∨ x = ':' := by
  match t, ht with
  | [y1, y2, y3, y4, s1, m1, m2, s2, d1, d2, sp, h1, h2, co, n1, n2], ht =>
    simp only [isDateTimeText, Bool.and_eq_true, beq_iff_eq] at ht
    obtain ⟨⟨⟨⟨⟨⟨⟨⟨⟨⟨⟨⟨⟨⟨⟨e1, e2⟩, e3⟩, e4⟩, e5⟩, e6⟩, e7⟩, e8⟩, e9⟩, e10⟩, e11⟩, e12⟩, e13⟩,
      e14⟩, e15⟩, e16⟩ := ht
    intro x hx
    simp only [List.mem_cons, List.mem_singleton, List.not_mem_nil, or_false] at hx
    rcases hx with h | h | h | h | h | h | h | h | h | h | h | h | h | h | h | h <;> subst h <;>
      simp_all

theorem dateTime_chars_ne_f (t : Str) (ht : isDateTimeText t = true) :
    ∀ x ∈ t, (x == 'f') = false := by
  intro x hx
  cases hb : x == 'f'
  · rfl
  · have hxf : x = 'f' := by simpa using hb
    subst hxf
    rcases dateTime_chars t ht 'f' hx with h | h | h | h
    · exact absurd h (by decide)
    · exact absurd h (by decide)
    · exact absurd h (by decide)
    · exact absurd h (by decide)

theorem matchValue_taskText (a d t n : Str) (ha : isValidAddress a = true)
    (hd : matchValue (d ++ [' ', 'b', 'y']) = none) (ht : isDateTimeText t = true)
    (hn : isAmountText n = true) :
    matchValue (taskText a d t n) = some (n, ['E', 'T', 'H']) := by
  unfold matchValue at hd ⊢
  unfold taskText
  have e0 : '@' :: (a ++ ' ' :: (d ++ ' ' :: 'b' :: 'y' :: ' ' :: (t ++ ' ' :: 'f' :: 'o' ::
      'r' :: ' ' :: (n ++ [' ', 'E', 'T', 'H'])))) =
      ('@' :: a) ++ ' ' :: (d ++ ' ' :: 'b' :: 'y' :: ' ' :: (t ++ ' ' :: 'f' :: 'o' ::
      'r' :: ' ' :: (n ++ [' ', 'E', 'T', 'H']))) := rfl
  have e1 : ' ' :: 'b' :: 'y' :: ' ' :: (t ++ ' ' :: 'f' :: 'o' ::
      'r' :: ' ' :: (n ++ [' ', 'E', 'T', 'H'])) =
      (' ' :: 'b' :: 'y' :: ' ' :: (t ++ [' '])) ++ 'f' :: 'o' ::
      'r' :: ' ' :: (n ++ [' ', 'E', 'T', 'H']) := by simp
  rw [e0, search_skip_second matchValueAt (fun c => c == 'o') matchValueAt_second _ _ _
    (address_chars_ne a ha 'o' (by decide) (by decide) (by decide)) (by decide),
    search_cons_of_fail _ _ _ (matchValueAt_first _ _ (by decide)),
    search_append_of_fail, e1,
    search_skip_first matchValueAt (fun c => c == 'f') matchValueAt_first,
    search_of_hit _ _ _ (matchValueAt_hit n hn)]
  · intro x hx
    simp only [List.mem_cons, List.mem_append, List.mem_singleton, List.not_mem_nil,
      or_false] at hx
    rcases hx with h | h | h | h | h | h
    · subst h; decide
    · subst h; decide
    · subst h; decide
    · subst h; decide
    · exact dateTime_chars_ne_f t ht x h
    · subst h; decide
  · intro p s hp _
    apply matchValueAt_inside
    apply search_eq_none matchValueAt _ hd p
    rw [hp]
    simp

/-! ## `indexOf` -/

theorem firstIdx_at_start (pat X : Str) (h : pat.isPrefixOf X = true) :
    firstIdx pat X = some 0 := by
  cases X with
  | nil =>
    cases pat with
    | nil => rfl
    | cons c pat => simp [List.isPrefixOf] at h
  | cons c X => simp only [firstIdx, h, if_true]

theorem firstIdx_cons_skip (pat : Str) (c : Char) (X : Str)
    (h : pat.isPrefixOf (c :: X) = false) :
    firstIdx pat (c :: X) = (firstIdx pat X).map (fun k => k + 1) := by
  simp only [firstIdx, h, Bool.false_eq_true, if_false]

/-- An occurrence of the pattern is always found. -/
theorem firstIdx_isSome (pat v : Str) :
    ∀ u : Str, ∃ k, firstIdx pat (u ++ (pat ++ v)) = some k ∧ k ≤ u.length
  | [] => ⟨0, firstIdx_at_start _ _ (by simp), Nat.le_refl _⟩
  | c :: u => by
    obtain ⟨k, hk, hle⟩ := firstIdx_isSome pat v u
    cases hp : pat.isPrefixOf (c :: (u ++ (pat ++ v)))
    · refine ⟨k + 1, ?_, by simp only [List.length_cons]; omega⟩
      rw [List.cons_append, firstIdx_cons_skip _ _ _ hp, hk]
      rfl
    · exact ⟨0, firstIdx_at_start _ _ hp, Nat.zero_le _⟩

theorem indexOf_address (a d t n : Str) (ha : isValidAddress a = true) :
    indexOf (taskText a d t n) a 0 = 1 := by
  obtain ⟨h, rfl, _, _⟩ := (isValidAddress_iff a).mp ha
  unfold indexOf taskText
  have h1 : ('0' :: 'x' :: h).isPrefixOf ('@' :: ('0' :: 'x' :: h ++ ' ' :: (d ++ ' ' :: 'b' ::
      'y' :: ' ' :: (t ++ ' ' :: 'f' :: 'o' :: 'r' :: ' ' :: (n ++ [' ', 'E', 'T', 'H']))))) =
      false := by
    simp [List.isPrefixOf]
  have h2 : ('0' :: 'x' :: h).isPrefixOf ('0' :: 'x' :: h ++ ' ' :: (d ++ ' ' :: 'b' ::
      'y' :: ' ' :: (t ++ ' ' :: 'f' :: 'o' :: 'r' :: ' ' :: (n ++ [' ', 'E', 'T', 'H'])))) =
      true := by
    simp
  simp only [Int.toNat_zero, Nat.zero_min, List.drop_zero, Nat.zero_add]
  rw [firstIdx_cons_skip _ _ _ h1, firstIdx_at_start _ _ h2]
  rfl

theorem taskText_drop (a d t n : Str) (ha : isValidAddress a = true) :
    (taskText a d t n).drop 43 = ' ' :: (d ++ ' ' :: 'b' :: 'y' :: ' ' :: (t ++ ' ' :: 'f' ::
      'o' :: 'r' :: ' ' :: (n ++ [' ', 'E', 'T', 'H']))) ∧ 43 ≤ (taskText a d t n).length := by
  obtain ⟨h, rfl, hlen, _⟩ := (isValidAddress_iff a).mp ha
  have e : taskText ('0' :: 'x' :: h) d t n = ('@' :: '0' :: 'x' :: h) ++
      ' ' :: (d ++ ' ' :: 'b' :: 'y' :: ' ' :: (t ++ ' ' :: 'f' ::
      'o' :: 'r' :: ' ' :: (n ++ [' ', 'E', 'T', 'H']))) := rfl
  rw [e]
  constructor
  · exact List.drop_left' (by simp [hlen])
  · simp only [List.length_append, List.length_cons, hlen]
    omega

theorem indexOf_by_found (a d t n : Str) (ha : isValidAddress a = true) :
    indexOf (taskText a d t n) ['b', 'y'] 43 ≠ -1 := by
  obtain ⟨hdrop, hlen⟩ := taskText_drop a d t n ha
  unfold indexOf
  have hmin : min (43 : Int).toNat (taskText a d t n).length = 43 := by
    have : (43 : Int).toNat = 43 := rfl
    rw [this]
    omega
  rw [hmin, hdrop]
  have e : ' ' :: (d ++ ' ' :: 'b' :: 'y' :: ' ' :: (t ++ ' ' :: 'f' ::
      'o' :: 'r' :: ' ' :: (n ++ [' ', 'E', 'T', 'H']))) =
      (' ' :: (d ++ [' '])) ++ (['b', 'y'] ++ ' ' :: (t ++ ' ' :: 'f' ::
      'o' :: 'r' :: ' ' :: (n ++ [' ', 'E', 'T', 'H']))) := by simp
  obtain ⟨k, hk, _⟩ := firstIdx_isSome ['b', 'y'] (' ' :: (t ++ ' ' :: 'f' ::
      'o' :: 'r' :: ' ' :: (n ++ [' ', 'E', 'T', 'H']))) (' ' :: (d ++ [' ']))
  rw [e, hk]
  simp only [ne_eq]
  omega

/-- The canonical command parses, with the description cut out of the text between
the address and the first `by` after it. -/
theorem parse_canonical (dateParse : Str → Option Int) (nowMs : Int) (a d t n : Str)
    (ms : Int) (ha : isValidAddress a = true) (hd1 : matchDate d = none)
    (hd2 : matchValue (d ++ [' ', 'b', 'y']) = none) (ht : isDateTimeText t = true)
    (hn : isAmountText n = true) (hdp : dateParse t = some ms)
    (hfut : nowMs / 1000 < ms / 1000) :
    parseTaskCommand dateParse nowMs (taskCommand a d t n) =
      Except.ok (some
        { counterparty := a
          description := trim (substring (taskText a d t n) 43
            (indexOf (taskText a d t n) ['b', 'y'] 43))
          deadline := ms / 1000
          value := n
          token := ['E', 'T', 'H'] }) := by
  have hlen : a.length = 42 := by
    obtain ⟨h, rfl, hlen, _⟩ := (isValidAddress_iff a).mp ha
    simp [hlen]
  have hby : "by".toList = ['b', 'y'] := rfl
  have heth : ¬ toLowerCase ['E', 'T', 'H'] ≠ "eth".toList := by decide
  have hstart : indexOf (taskText a d t n) a 0 + (a.length : Int) = 43 := by
    rw [indexOf_address a d t n ha, hlen]
    rfl
  unfold parseTaskCommand
  rw [taskCommand_starts]
  simp only [Bool.not_true, Bool.false_eq_true, if_false, taskText_eq,
    matchAddress_taskText a d t n ha, matchDate_taskText a d t n ha hd1 ht, hdp,
    matchValue_taskText a d t n ha hd2 ht hn, if_neg (not_le.mpr hfut), if_neg heth, hby,
    hstart]
  rw [if_neg]
  intro h
  rcases h with h | h
  · omega
  · exact indexOf_by_found a d t n ha h

/-! ## What a successful parse tells -/

/-- Inversion of `parseTaskCommand`: a returned object comes from a command that passed
every check, and its fields are the captured groups. -/
theorem parse_ok_inv (dateParse : Str → Option Int) (nowMs : Int) (command : Str)
    (task : TaskData)
    (h : parseTaskCommand dateParse nowMs command = Except.ok (some task)) :
    "/task ".toList.isPrefixOf command = true ∧
    ∃ ds ms amount token,
      matchAddress (trim (command.drop 5)) = some task.counterparty ∧
      matchDate (trim (command.drop 5)) = some ds ∧
      dateParse ds = some ms ∧ nowMs / 1000 < ms / 1000 ∧
      matchValue (trim (command.drop 5)) = some (amount, token) ∧
      toLowerCase token = "eth".toList ∧
      indexOf (trim (command.drop 5)) ['b', 'y']
        (indexOf (trim (command.drop 5)) task.counterparty 0 + task.counterparty.length) ≠ -1 ∧
      task =
        { counterparty := task.counterparty
          description := trim (substring (trim (command.drop 5))
            (indexOf (trim (command.drop 5)) task.counterparty 0 + task.counterparty.length)
            (indexOf (trim (command.drop 5)) ['b', 'y']
              (indexOf (trim (command.drop 5)) task.counterparty 0 +
                task.counterparty.length)))
          deadline := ms / 1000
          value := amount
          token := token } := by
  have hby : "by".toList = ['b', 'y'] := rfl
  unfold parseTaskCommand at h
  by_cases hp : "/task ".toList.isPrefixOf command = true
  · refine ⟨hp, ?_⟩
    simp only [hp, Bool.not_true, Bool.false_eq_true, if_false, hby] at h
    cases ha : matchAddress (trim (command.drop 5)) with
    | none => simp only [ha] at h; cases h
    | some cp =>
      simp only [ha] at h
      cases hd : matchDate (trim (command.drop 5)) with
      | none => simp only [hd] at h; cases h
      | some ds =>
        simp only [hd] at h
        cases hms : dateParse ds with
        | none => simp only [hms] at h; cases h
        | some ms =>
          simp only [hms] at h
          by_cases hfut : ms / 1000 ≤ nowMs / 1000
          · rw [if_pos hfut] at h; cases h
          · rw [if_neg hfut] at h
            cases hv : matchValue (trim (command.drop 5)) with
            | none => simp only [hv] at h; cases h
            | some at2 =>
              obtain ⟨amount, token⟩ := at2
              simp only [hv] at h
              by_cases htok : toLowerCase token ≠ "eth".toList
              · rw [if_pos htok] at h; cases h
              · rw [if_neg htok] at h
                by_cases hidx : indexOf (trim (command.drop 5)) cp 0 + (cp.length : Int) = -1 ∨
                    indexOf (trim (command.drop 5)) ['b', 'y']
                      (indexOf (trim (command.drop 5)) cp 0 + (cp.length : Int)) = -1
                · rw [if_pos hidx] at h; cases h
                · rw [if_neg hidx] at h
                  simp only [Except.ok.injEq, Option.some.injEq] at h
                  subst h
                  refine ⟨ds, ms, amount, token, rfl, rfl, hms, not_le.mp hfut, rfl,
                    not_not.mp htok, ?_, rfl⟩
                  exact fun hc => hidx (Or.inr hc)
  · simp only [hp, Bool.not_false, if_true] at h
    cases h

theorem firstIdx_some_spec (pat : Str) :
    ∀ (X : Str) (k : Nat), firstIdx pat X = some k →
      ∃ u v, X = u ++ (pat ++ v) ∧ u.length = k
  | [], k, h => by
    simp only [firstIdx] at h
    by_cases hp : pat.isEmpty = true
    · rw [if_pos hp] at h
      cases h
      exact ⟨[], [], by simp [List.isEmpty_iff.mp hp], rfl⟩
    · rw [if_neg hp] at h
      cases h
  | c :: X, k, h => by
    cases hp : pat.isPrefixOf (c :: X)
    · rw [firstIdx_cons_skip _ _ _ hp] at h
      cases h2 : firstIdx pat X with
      | none => rw [h2] at h; cases h
      | some k2 =>
        rw [h2] at h
        cases h
        obtain ⟨u, v, hX, hu⟩ := firstIdx_some_spec pat X k2 h2
        exact ⟨c :: u, v, by rw [hX]; rfl, by simp [hu]⟩
    · rw [firstIdx_at_start _ _ hp] at h
      cases h
      obtain ⟨v, hv⟩ := List.isPrefixOf_iff_prefix.mp hp
      exact ⟨[], v, by rw [← hv]; rfl, rfl⟩

theorem firstIdx_none_of_absent (pat X : Str) (h : ¬ pat <:+: X) :
    firstIdx pat X = none := by
  cases hf : firstIdx pat X with
  | none => rfl
  | some k =>
    obtain ⟨u, v, hX, _⟩ := firstIdx_some_spec pat X k hf
    exact absurd ⟨u, v, by rw [hX]; simp⟩ h

/-- Without a `by` inside `d`, the first `by` of `d ++ " by" ++ W` is the one after `d`. -/
theorem firstIdx_by_skip (W : Str) :
    ∀ d : Str, firstIdx ['b', 'y'] d = none →
      firstIdx ['b', 'y'] (d ++ ' ' :: 'b' :: 'y' :: W) = some (d.length + 1)
  | [], _ => by
    have h1 : List.isPrefixOf ['b', 'y'] (' ' :: 'b' :: 'y' :: W) = false := by
      simp [List.isPrefixOf]
    have h2 : List.isPrefixOf ['b', 'y'] ('b' :: 'y' :: W) = true := by
      simp [List.isPrefixOf]
    rw [List.nil_append, firstIdx_cons_skip _ _ _ h1, firstIdx_at_start _ _ h2]
    rfl
  | x :: d, h => by
    cases hp : List.isPrefixOf ['b', 'y'] (x :: d)
    · rw [firstIdx_cons_skip _ _ _ hp] at h
      have h2 : firstIdx ['b', 'y'] d = none := by
        cases h3 : firstIdx ['b', 'y'] d with
        | none => rfl
        | some k => rw [h3] at h; cases h
      have hp2 : List.isPrefixOf ['b', 'y'] (x :: (d ++ ' ' :: 'b' :: 'y' :: W)) = false := by
        cases d with
        | nil =>
          simp [List.isPrefixOf]
        | cons y d =>
          simp only [List.isPrefixOf, Bool.and_true] at hp
          simp only [List.cons_append, List.isPrefixOf, Bool.and_true]
          exact hp
      rw [List.cons_append, firstIdx_cons_skip _ _ _ hp2, firstIdx_by_skip W d h2]
      rfl
    · rw [firstIdx_at_start _ _ hp] at h
      cases h

theorem substring_mid (A mid B : Str) :
    substring (A ++ (mid ++ B)) (A.length : Int) ((A.length + mid.length : Nat) : Int) = mid := by
  unfold substring
  have h1 : ((A.length : Nat) : Int).toNat = A.length := Int.toNat_ofNat _
  have h2 : ((A.length + mid.length : Nat) : Int).toNat = A.length + mid.length :=
    Int.toNat_ofNat _
  have hl : (A ++ (mid ++ B)).length = A.length + (mid.length + B.length) := by simp
  rw [h1, h2, hl]
  have m1 : min A.length (A.length + (mid.length + B.length)) = A.length := by omega
  have m2 : min (A.length + mid.length) (A.length + (mid.length + B.length)) =
      A.length + mid.length := by omega
  have m3 : max A.length (A.length + mid.length) = A.length + mid.length := by omega
  have m4 : min A.length (A.length + mid.length) = A.length := by omega
  rw [m1, m2, m3, m4]
  have e : A ++ (mid ++ B) = (A ++ mid) ++ B := by simp
  rw [e, List.take_left' (by simp), List.drop_left' rfl]

theorem trim_pad (d : Str) : trim (' ' :: (d ++ [' '])) = trim d := by
  have sp : isSpace ' ' = true := by decide
  unfold trim
  rw [List.dropWhile_cons, if_pos sp]
  rcases all_or_stop isSpace d with hall | hstop
  · have h1 := dropWhile_append_of_all isSpace d [' '] hall
    have h2 := dropWhile_all isSpace d hall
    rw [h1.1, h2.1]
    simp [List.dropWhile_cons, sp]
  · have h1 := dropWhile_append_of_stop isSpace d [' '] hstop
    rw [h1.1, List.reverse_append]
    simp [List.dropWhile_cons, sp]

/-- The first capture of the address pattern is a piece of the searched text. -/
theorem matchAddress_occurs (T cp : Str) (h : matchAddress T = some cp) :
    ∃ u v, T = u ++ (cp ++ v) := by
  unfold matchAddress at h
  cases hs : search (runItems addressItems) T with
  | none => rw [hs] at h; cases h
  | some r =>
    rw [hs] at h
    simp only [Option.map_some', Option.some.injEq] at h
    obtain ⟨p, s, hT, hm⟩ := search_eq_some _ r T hs
    have hin := runItems_input addressItems s r hm
    have hsplit : r.1.flatten = (r.1.take 1).flatten ++ (r.1.drop 1).flatten := by
      rw [← List.flatten_append, List.take_append_drop]
    refine ⟨p ++ (r.1.take 1).flatten, r.2, ?_⟩
    rw [hT, hin, hsplit, h]
    simp

/-! ## The statements on `parseTaskCommand` and `isValidAddress` -/

/-- C1 (counterexample): two commands of the stated form, with a valid address, a future
deadline and a decimal amount, that do not parse. With the description
`work for 3 days` the first `for <amount> <token>` clause is the one inside the
description and the call throws `Only ETH is supported currently`; with the description
`due by 2000-01-01 00:00` the first `by <date-time>` clause is the one inside the
description and the call throws `Deadline must be in the future`. -/
theorem parseTaskCommand_canonical_counterexample :
    isValidAddress sampleAddress = true ∧ isDateTimeText sampleDeadline = true ∧
    isAmountText "1.5".toList = true ∧
    utcDateParse sampleDeadline = some 4102444800000 ∧
    sampleNow < (4102444800000 : Int) ∧
    parseTaskCommand utcDateParse sampleNow
      (taskCommand sampleAddress "work for 3 days".toList sampleDeadline "1.5".toList) =
      Except.error "Only ETH is supported currently" ∧
    parseTaskCommand utcDateParse sampleNow
      (taskCommand sampleAddress "due by 2000-01-01 00:00".toList sampleDeadline
        "1.5".toList) =
      Except.error "Deadline must be in the future" :=
  ⟨by decide, by decide, by decide, by decide, by decide, rfl, rfl⟩

/-- C1 (amended): for every valid address `a`, every description `d` that contains no
`by <date-time>` clause and, followed by ` by`, no `for <amount> <word>` clause, every
text `t` of the form `YYYY-MM-DD HH:MM` that lies in the future (the engine reads it
as a whole number of seconds `ms / 1000`, later than the clock), and every decimal
amount `n`, the command `/task @a d by t for n ETH` parses, with counterparty `a`,
deadline the Unix time of `t` in seconds, value `n` as typed and token `ETH`. -/
theorem parseTaskCommand_canonical (dateParse : Str → Option Int) (nowMs : Int)
    (a d t n : Str) (ms : Int) (ha : isValidAddress a = true) (hd1 : matchDate d = none)
    (hd2 : matchValue (d ++ [' ', 'b', 'y']) = none) (ht : isDateTimeText t = true)
    (hn : isAmountText n = true) (hdp : dateParse t = some ms) (hsec : ms % 1000 = 0)
    (hfut : nowMs < ms) :
    ∃ description,
      parseTaskCommand dateParse nowMs (taskCommand a d t n) =
        Except.ok (some
          { counterparty := a
            description := description
            deadline := ms / 1000
            value := n
            token := ['E', 'T', 'H'] }) :=
  ⟨_, parse_canonical dateParse nowMs a d t n ms ha hd1 hd2 ht hn hdp (by omega)⟩

/-- C1 (witness): the amended statement at `/task @0x1234…5678 write docs by
2100-01-01 00:00 for 1.5 ETH`. -/
theorem parseTaskCommand_canonical_witness :
    (isValidAddress sampleAddress = true ∧ matchDate "write docs".toList = none ∧
      matchValue ("write docs".toList ++ [' ', 'b', 'y']) = none ∧
      isDateTimeText sampleDeadline = true ∧ isAmountText "1.5".toList = true ∧
      utcDateParse sampleDeadline = some 4102444800000 ∧
      (4102444800000 : Int) % 1000 = 0 ∧ sampleNow < (4102444800000 : Int)) ∧
    ∃ description,
      parseTaskCommand utcDateParse sampleNow
          (taskCommand sampleAddress "write docs".toList sampleDeadline "1.5".toList) =
        Except.ok (some
          { counterparty := sampleAddress
            description := description
            deadline := (4102444800000 : Int) / 1000
            value := "1.5".toList
            token := ['E', 'T', 'H'] }) :=
  ⟨⟨by decide, by decide, by decide, by decide, by decide, by decide, by decide, by decide⟩,
    parseTaskCommand_canonical utcDateParse sampleNow sampleAddress "write docs".toList
      sampleDeadline "1.5".toList 4102444800000 (by decide) (by decide) (by decide)
      (by decide) (by decide) (by decide) (by decide) (by decide)⟩

/-- C2 (counterexample): for the description `stand by me` the returned description is
`stand`, which is not the description trimmed. -/
theorem parseTaskCommand_description_counterexample :
    parseTaskCommand utcDateParse sampleNow
      (taskCommand sampleAddress "stand by me".toList sampleDeadline "1.5".toList) =
      Except.ok (some
        { counterparty := sampleAddress
          description := "stand".toList
          deadline := 4102444800
          value := "1.5".toList
          token := "ETH".toList }) ∧
    trim "stand by me".toList ≠ "stand".toList :=
  ⟨rfl, by decide⟩

/-- C2 (amended): when `parseTaskCommand` returns an object, its description is the
text between the first occurrence of the counterparty address and the first `by` after
it, trimmed; for the command `/task @a d by t for n ETH` with a valid address `a` this
is `d` trimmed whenever `d` does not contain `by`. -/
theorem parseTaskCommand_description (dateParse : Str → Option Int) (nowMs : Int)
    (command : Str) (task : TaskData)
    (h : parseTaskCommand dateParse nowMs command = Except.ok (some task)) :
    (∃ pre mid post,
      trim (command.drop 5) = pre ++ (task.counterparty ++ (mid ++ 'b' :: 'y' :: post)) ∧
      firstIdx task.counterparty (trim (command.drop 5)) = some pre.length ∧
      firstIdx ['b', 'y'] (mid ++ 'b' :: 'y' :: post) = some mid.length ∧
      task.description = trim mid) ∧
    (∀ a d t n, command = taskCommand a d t n → isValidAddress a = true →
      ¬ ['b', 'y'] <:+: d → task.description = trim d) := by
  obtain ⟨_, ds, ms, amount, token, hA, _, _, _, _, _, hidx, htask⟩ :=
    parse_ok_inv dateParse nowMs command task h
  have hdesc : task.description = trim (substring (trim (command.drop 5))
      (indexOf (trim (command.drop 5)) task.counterparty 0 + task.counterparty.length)
      (indexOf (trim (command.drop 5)) ['b', 'y']
        (indexOf (trim (command.drop 5)) task.counterparty 0 +
          task.counterparty.length))) := by
    conv_lhs => rw [htask]
  -- the general shape of the text
  have general : ∀ T cp : Str, matchAddress T = some cp →
      indexOf T ['b', 'y'] (indexOf T cp 0 + cp.length) ≠ -1 →
      ∃ pre mid post, T = pre ++ (cp ++ (mid ++ 'b' :: 'y' :: post)) ∧
        firstIdx cp T = some pre.length ∧
        firstIdx ['b', 'y'] (mid ++ 'b' :: 'y' :: post) = some mid.length ∧
        substring T (indexOf T cp 0 + cp.length)
          (indexOf T ['b', 'y'] (indexOf T cp 0 + cp.length)) = mid := by
    intro T cp hm hi
    obtain ⟨u0, v0, hT0⟩ := matchAddress_occurs T cp hm
    obtain ⟨k, hk, _⟩ := firstIdx_isSome cp v0 u0
    rw [← hT0] at hk
    obtain ⟨pre, v, hT, hpre⟩ := firstIdx_some_spec cp T k hk
    have hi0 : indexOf T cp 0 = (k : Int) := by
      unfold indexOf
      simp only [Int.toNat_zero, Nat.zero_min, List.drop_zero, Nat.zero_add, hk]
    rw [hi0] at hi ⊢
    have hstart : ((k : Int) + (cp.length : Int)) = ((k + cp.length : Nat) : Int) := by
      push_cast
      rfl
    rw [hstart] at hi ⊢
    have hlen : k + cp.length ≤ T.length := by
      rw [hT]
      simp only [List.length_append]
      omega
    have hdrop : T.drop (k + cp.length) = v := by
      have e : T = (pre ++ cp) ++ v := by rw [hT]; simp
      rw [e]
      exact List.drop_left' (by simp [hpre])
    have hmin : min ((k + cp.length : Nat) : Int).toNat T.length = k + cp.length := by
      rw [Int.toNat_ofNat]
      omega
    unfold indexOf at hi ⊢
    rw [hmin, hdrop] at hi ⊢
    cases hj : firstIdx ['b', 'y'] v with
    | none => rw [hj] at hi; exact absurd rfl hi
    | some j =>
      obtain ⟨mid, post, hv, hmid⟩ := firstIdx_some_spec ['b', 'y'] v j hj
      refine ⟨pre, mid, post, ?_, ?_, ?_, ?_⟩
      · rw [hT, hv]
        rfl
      · rw [hk, hpre]
      · have e : mid ++ 'b' :: 'y' :: post = mid ++ (['b', 'y'] ++ post) := rfl
        rw [e, ← hv, hj, hmid]
      · simp only []
        have e : T = (pre ++ cp) ++ (mid ++ ('b' :: 'y' :: post)) := by
          rw [hT, hv]
          simp
        have e2 : ((k + cp.length : Nat) : Int) = (((pre ++ cp).length : Nat) : Int) := by
          simp [hpre]
        have e3 : ((k + cp.length + j : Nat) : Int) =
            (((pre ++ cp).length + mid.length : Nat) : Int) := by
          simp [hpre, hmid]
        rw [e2, e3]
        conv_lhs => rw [e]
        exact substring_mid (pre ++ cp) mid ('b' :: 'y' :: post)
  constructor
  · obtain ⟨pre, mid, post, h1, h2, h3, h4⟩ :=
      general (trim (command.drop 5)) task.counterparty hA hidx
    exact ⟨pre, mid, post, h1, h2, h3, by rw [hdesc, h4]⟩
  · intro a d t n hc ha hby
    subst hc
    rw [taskText_eq] at hA hdesc
    have hcp : task.counterparty = a := by
      rw [matchAddress_taskText a d t n ha] at hA
      exact (Option.some.inj hA).symm
    have hlen : a.length = 42 := by
      obtain ⟨h, rfl, hlen, _⟩ := (isValidAddress_iff a).mp ha
      simp [hlen]
    have hstart : indexOf (taskText a d t n) a 0 + (a.length : Int) = 43 := by
      rw [indexOf_address a d t n ha, hlen]
      rfl
    obtain ⟨hdrop, hlen2⟩ := taskText_drop a d t n ha
    have hend : indexOf (taskText a d t n) ['b', 'y'] 43 = ((43 + (d.length + 2) : Nat) : Int) := by
      unfold indexOf
      have hmin : min (43 : Int).toNat (taskText a d t n).length = 43 := by
        have : (43 : Int).toNat = 43 := rfl
        rw [this]
        omega
      have hskip := firstIdx_by_skip (' ' :: (t ++ ' ' :: 'f' ::
        'o' :: 'r' :: ' ' :: (n ++ [' ', 'E', 'T', 'H']))) d
        (firstIdx_none_of_absent _ _ hby)
      have hp : List.isPrefixOf ['b', 'y'] (' ' :: (d ++ ' ' :: 'b' :: 'y' :: ' ' :: (t ++ ' ' ::
          'f' :: 'o' :: 'r' :: ' ' :: (n ++ [' ', 'E', 'T', 'H'])))) = false := by
        simp [List.isPrefixOf]
      rw [hmin, hdrop, firstIdx_cons_skip _ _ _ hp, hskip]
      rfl
    rw [hdesc, hcp, hstart, hend]
    have e : taskText a d t n = ('@' :: a) ++ ((' ' :: (d ++ [' '])) ++ ('b' :: 'y' :: ' ' ::
        (t ++ ' ' :: 'f' :: 'o' :: 'r' :: ' ' :: (n ++ [' ', 'E', 'T', 'H'])))) := by
      simp [taskText]
    have e2 : (43 : Int) = ((('@' :: a).length : Nat) : Int) := by
      simp [hlen]
    have e3 : ((43 + (d.length + 2) : Nat) : Int) =
        ((('@' :: a).length + (' ' :: (d ++ [' '])).length : Nat) : Int) := by
      have e4 : 43 + (d.length + 2) = ('@' :: a).length + (' ' :: (d ++ [' '])).length := by
        simp only [List.length_cons, List.length_append, List.length_nil, hlen]
      rw [e4]
    rw [e2, e3]
    conv_lhs => rw [e]
    rw [substring_mid, trim_pad]

/-- C2 (witness): the amended statement at `sampleCommand`, whose description
`write docs` contains no `by`. -/
theorem parseTaskCommand_description_witness :
    parseTaskCommand utcDateParse sampleNow sampleCommand = Except.ok (some sampleTask) ∧
    (∃ pre mid post,
      trim (sampleCommand.drop 5) =
        pre ++ (sampleTask.counterparty ++ (mid ++ 'b' :: 'y' :: post)) ∧
      firstIdx sampleTask.counterparty (trim (sampleCommand.drop 5)) = some pre.length ∧
      firstIdx ['b', 'y'] (mid ++ 'b' :: 'y' :: post) = some mid.length ∧
      sampleTask.description = trim mid) ∧
    sampleTask.description = trim "write docs".toList :=
  ⟨rfl, (parseTaskCommand_description utcDateParse sampleNow sampleCommand sampleTask rfl).1,
    (parseTaskCommand_description utcDateParse sampleNow sampleCommand sampleTask rfl).2
      sampleAddress "write docs".toList sampleDeadline "1.5".toList rfl (by decide)
      (by decide)⟩

/-- C3 (the code at the failing input): on `/task hello` the function does not return
`null`; it throws `Invalid counterparty address format`, whatever the date parser and
the clock. -/
theorem parseTaskCommand_throws_on_failure (dateParse : Str → Option Int) (nowMs : Int) :
    parseTaskCommand dateParse nowMs "/task hello".toList =
      Except.error "Invalid counterparty address format" := rfl

/-- C4: a returned task has a deadline strictly later than the current time in whole
seconds, and that deadline is the reading of the matched date text by the engine, which
was a valid date. -/
theorem parseTaskCommand_deadline_future (dateParse : Str → Option Int) (nowMs : Int)
    (command : Str) (task : TaskData)
    (h : parseTaskCommand dateParse nowMs command = Except.ok (some task)) :
    nowMs / 1000 < task.deadline ∧
    ∃ ds ms, matchDate (trim (command.drop 5)) = some ds ∧ dateParse ds = some ms ∧
      task.deadline = ms / 1000 := by
  obtain ⟨_, ds, ms, amount, token, _, hD, hms, hfut, _, _, _, htask⟩ :=
    parse_ok_inv dateParse nowMs command task h
  have hdl : task.deadline = ms / 1000 := by
    conv_lhs => rw [htask]
  exact ⟨by rw [hdl]; exact hfut, ds, ms, hD, hms, hdl⟩

/-- C4 (witness): the statement at `sampleCommand`. -/
theorem parseTaskCommand_deadline_future_witness :
    parseTaskCommand utcDateParse sampleNow sampleCommand = Except.ok (some sampleTask) ∧
    sampleNow / 1000 < sampleTask.deadline ∧
    ∃ ds ms, matchDate (trim (sampleCommand.drop 5)) = some ds ∧
      utcDateParse ds = some ms ∧ sampleTask.deadline = ms / 1000 :=
  ⟨rfl, parseTaskCommand_deadline_future utcDateParse sampleNow sampleCommand sampleTask rfl⟩

/-- C5 (counterexample): in `/task pay for 5 USD` the first `for <amount> <token>` clause
names the token `USD`, yet the call fails with `Invalid counterparty address format`,
not with `Only ETH is supported currently`. -/
theorem parseTaskCommand_only_eth_counterexample :
    matchValue (trim ("/task pay for 5 USD".toList.drop 5)) =
      some ("5".toList, "USD".toList) ∧
    toLowerCase "USD".toList ≠ "eth".toList ∧
    parseTaskCommand utcDateParse sampleNow "/task pay for 5 USD".toList =
      Except.error "Invalid counterparty address format" :=
  ⟨by decide, by decide, rfl⟩

/-- C5 (amended): a returned task has a token equal to `eth` ignoring case; and a
command that starts with `/task `, whose address and deadline pass their checks, and whose
first `for <amount> <token>` clause names another token, fails with
`Only ETH is supported currently`. -/
theorem parseTaskCommand_only_eth (dateParse : Str → Option Int) (nowMs : Int)
    (command : Str) :
    (∀ task, parseTaskCommand dateParse nowMs command = Except.ok (some task) →
      toLowerCase task.token = "eth".toList) ∧
    (∀ cp ds ms amount token, "/task ".toList.isPrefixOf command = true →
      matchAddress (trim (command.drop 5)) = some cp →
      matchDate (trim (command.drop 5)) = some ds → dateParse ds = some ms →
      nowMs / 1000 < ms / 1000 →
      matchValue (trim (command.drop 5)) = some (amount, token) →
      toLowerCase token ≠ "eth".toList →
      parseTaskCommand dateParse nowMs command =
        Except.error "Only ETH is supported currently") := by
  constructor
  · intro task h
    obtain ⟨_, ds, ms, amount, token, _, _, _, _, _, htok, _, htask⟩ :=
      parse_ok_inv dateParse nowMs command task h
    have : task.token = token := by
      conv_lhs => rw [htask]
    rw [this]
    exact htok
  · intro cp ds ms amount token hp hA hD hms hfut hV htok
    unfold parseTaskCommand
    simp only [hp, Bool.not_true, Bool.false_eq_true, if_false, hA, hD, hms,
      if_neg (not_le.mpr hfut), hV, if_pos htok]

/-- C5 (witness): the amended statement at `sampleCommand`, which is accepted with
the token `ETH`, and at the same command with the amount `1.5 USD`, which is rejected. -/
theorem parseTaskCommand_only_eth_witness :
    toLowerCase sampleTask.token = "eth".toList ∧
    parseTaskCommand utcDateParse sampleNow
      "/task @0x1234567890abcdef1234567890abcdef12345678 write docs by 2100-01-01 00:00 for 1.5 USD".toList =
      Except.error "Only ETH is supported currently" :=
  ⟨(parseTaskCommand_only_eth utcDateParse sampleNow sampleCommand).1 sampleTask rfl,
    (parseTaskCommand_only_eth utcDateParse sampleNow
      "/task @0x1234567890abcdef1234567890abcdef12345678 write docs by 2100-01-01 00:00 for 1.5 USD".toList).2
      sampleAddress sampleDeadline 4102444800000 "1.5".toList "USD".toList
      (by decide) (by decide) (by decide) (by decide) (by decide) (by decide) (by decide)⟩

theorem isHexDigit_iff (c : Char) :
    isHexDigit c = true ↔ c ∈ "0123456789abcdefABCDEF".toList := by
  constructor
  · intro h
    simp only [isHexDigit, Bool.or_eq_true, Bool.and_eq_true, decide_eq_true_eq] at h
    have hc : c = Char.ofNat c.toNat := (Char.ofNat_toNat c).symm
    have hr : c.toNat ∈ [48, 49, 50, 51, 52, 53, 54, 55, 56, 57, 97, 98, 99, 100, 101, 102,
        65, 66, 67, 68, 69, 70] := by
      simp only [List.mem_cons, List.mem_singleton, List.not_mem_nil, or_false]
      omega
    simp only [List.mem_cons, List.mem_singleton, List.not_mem_nil, or_false] at hr
    rw [hc]
    rcases hr with h | h | h | h | h | h | h | h | h | h | h | h | h | h | h | h | h | h | h |
      h | h | h <;> rw [h] <;> decide
  · intro h
    have l : "0123456789abcdefABCDEF".toList = ['0', '1', '2', '3', '4', '5', '6', '7', '8',
      '9', 'a', 'b', 'c', 'd', 'e', 'f', 'A', 'B', 'C', 'D', 'E', 'F'] := rfl
    rw [l] at h
    simp only [List.mem_cons, List.mem_singleton, List.not_mem_nil, or_false] at h
    rcases h with h | h | h | h | h | h | h | h | h | h | h | h | h | h | h | h | h | h | h |
      h | h | h <;> rw [h] <;> decide

/-- C6: `isValidAddress(s)` is true exactly when `s` has 42 characters, begins with `0x`
and its remaining 40 characters are hexadecimal digits (`0-9`, `a-f`, `A-F`). -/
theorem isValidAddress_spec (s : Str) :
    isValidAddress s = true ↔
      s.length = 42 ∧ s.take 2 = ['0', 'x'] ∧
        ∀ c ∈ s.drop 2, c ∈ "0123456789abcdefABCDEF".toList := by
  rw [isValidAddress_iff]
  constructor
  · rintro ⟨h, rfl, hlen, hall⟩
    refine ⟨by simp [hlen], rfl, ?_⟩
    intro c hc
    exact (isHexDigit_iff c).mp (hall c hc)
  · rintro ⟨hlen, htake, hall⟩
    match s, hlen, htake, hall with
    | c1 :: c2 :: h, hlen, htake, hall =>
      simp only [List.take_succ_cons, List.take_zero, List.cons.injEq, and_true] at htake
      obtain ⟨rfl, rfl⟩ := htake
      refine ⟨h, rfl, by simpa using hlen, ?_⟩
      intro c hc
      exact (isHexDigit_iff c).mpr (hall c hc)

/-! ## The `/message` command for every address -/

theorem isHexDigit_not_space (c : Char) (h : isHexDigit c = true) : isSpace c = false := by
  simp only [isHexDigit, Bool.or_eq_true, Bool.and_eq_true, decide_eq_true_eq] at h
  cases hs : isSpace c
  · rfl
  · simp only [isSpace, Bool.or_eq_true, Bool.and_eq_true, decide_eq_true_eq,
      beq_iff_eq] at hs
    omega

theorem trim_of_no_space (X : Str) (hX : ∀ c ∈ X, isSpace c = false) : trim X = X := by
  unfold trim
  have h1 : ∀ Y : Str, (∀ c ∈ Y, isSpace c = false) → Y.dropWhile isSpace = Y := by
    intro Y hY
    cases Y with
    | nil => rfl
    | cons y Y => exact (dropWhile_cons_stop isSpace y Y (hY y (List.mem_cons_self _ _))).1
  rw [h1 X hX, h1 X.reverse (fun c hc => hX c (List.mem_reverse.mp hc)), List.reverse_reverse]

/-- For every valid address `a`, the chat input answers `/message @a` by the call
`onStartMessaging(x, a)` where `x` is the text made of the last two characters of `a`:
the recipient is the second argument. -/
theorem message_command_effect (dateParse : Str → Option Int) (nowMs : Int)
    (currentUser a : Str) (ha : isValidAddress a = true) :
    ChatInput.handleSendMessage dateParse nowMs currentUser ("/message @".toList ++ a) =
      ([ChatEffect.startMessaging (a.drop 40) a], []) := by
  have hlen : a.length = 42 := by
    obtain ⟨h, rfl, hlen, _⟩ := (isValidAddress_iff a).mp ha
    simp [hlen]
  have hsp : ∀ c ∈ a, isSpace c = false := by
    obtain ⟨h, rfl, _, hall⟩ := (isValidAddress_iff a).mp ha
    intro c hc
    simp only [List.mem_cons] at hc
    rcases hc with rfl | rfl | hc
    · decide
    · decide
    · exact isHexDigit_not_space c (hall c hc)
  have l1 : "/message @".toList = ['/', 'm', 'e', 's', 's', 'a', 'g', 'e', ' ', '@'] := rfl
  have l2 : "/task".toList = ['/', 't', 'a', 's', 'k'] := rfl
  have l3 : "/message".toList = ['/', 'm', 'e', 's', 's', 'a', 'g', 'e'] := rfl
  have s1 : isSpace ' ' = true := by decide
  have s2 : isSpace '@' = false := by decide
  have s3 : isSpace '/' = false := by decide
  have e1 : trim (' ' :: '@' :: a) = '@' :: a := by
    have : trim ('@' :: a) = '@' :: a := trim_of_no_space _ (by
      intro c hc
      rcases List.mem_cons.mp hc with rfl | hc
      · exact s2
      · exact hsp c hc)
    unfold trim at this ⊢
    rw [List.dropWhile_cons, if_pos s1]
    exact this
  have e2 : (trim ("/message @".toList ++ a)).isEmpty = false := by
    rw [l1]
    unfold trim
    simp only [List.cons_append, List.dropWhile_cons, s3, Bool.false_eq_true, if_false]
    simp only [List.isEmpty_eq_false, ne_eq, List.reverse_eq_nil_iff]
    intro hnil
    have hmem : '/' ∈ List.dropWhile isSpace
        (List.reverse ('/' :: 'm' :: 'e' :: 's' :: 's' :: 'a' :: 'g' :: 'e' :: ' ' :: '@' ::
          ([] ++ a))) := by
      have hsplit := List.takeWhile_append_dropWhile isSpace
        (List.reverse ('/' :: 'm' :: 'e' :: 's' :: 's' :: 'a' :: 'g' :: 'e' :: ' ' :: '@' ::
          ([] ++ a)))
      have h2 : '/' ∈ List.reverse ('/' :: 'm' :: 'e' :: 's' :: 's' :: 'a' :: 'g' :: 'e' ::
          ' ' :: '@' :: ([] ++ a)) := by simp
      rw [← hsplit] at h2
      rcases List.mem_append.mp h2 with h3 | h3
      · have := List.mem_takeWhile_imp h3
        rw [s3] at this
        cases this
      · exact h3
    rw [hnil] at hmem
    cases hmem
  have e3 : ChatInput.parseMessageCommand ("/message @".toList ++ a) = some a := by
    unfold ChatInput.parseMessageCommand
    rw [l1]
    have : (['/', 'm', 'e', 's', 's', 'a', 'g', 'e', ' ', '@'] ++ a).drop 8 = ' ' :: '@' :: a :=
      rfl
    rw [this, e1]
    have := matchAddress_at_start a [] ha
    rwa [List.append_nil] at this
  have e4 : trim (("/message @".toList ++ a).drop (8 + a.length)) = a.drop 40 := by
    rw [l1, hlen]
    have : (['/', 'm', 'e', 's', 's', 'a', 'g', 'e', ' ', '@'] ++ a).drop (8 + 42) =
        a.drop 40 := by
      have : (['/', 'm', 'e', 's', 's', 'a', 'g', 'e', ' ', '@'] ++ a).drop (10 + 40) =
          a.drop 40 := by
        rw [← List.drop_drop]
        rfl
      exact this
    rw [this]
    exact trim_of_no_space _ (fun c hc => hsp c (List.mem_of_mem_drop hc))
  unfold ChatInput.handleSendMessage
  rw [e2]
  simp only [Bool.false_eq_true, if_false, e3, e4]
  rw [l1, l2, l3]
  simp [List.isPrefixOf]

/-! ## The `/message` command -/

/-- C7 (the code at the failing input): for the chat input `/message @0x1234…5678` the
chat input extracts the address but passes it as the second argument of
`onStartMessaging`; `App` binds its first argument, the text `78` left after position
`8 + 42` of the input, as the address. Whatever `ethers.utils.isAddress` answers, the
messenger is never opened with the address of the command as recipient: either a toast
`Invalid Ethereum address` is shown, or the recipient is `78`. -/
theorem message_command_recipient_lost (isAddress : Str → Bool) :
    isValidAddress sampleAddress = true ∧
    ChatInput.handleSendMessage utcDateParse sampleNow "Alice".toList
        ("/message @".toList ++ sampleAddress) =
      ([ChatEffect.startMessaging ['7', '8'] sampleAddress], []) ∧
    (App.submitChatInput true isAddress utcDateParse sampleNow "Alice".toList
        ("/message @".toList ++ sampleAddress) AppState.initial).recipientAddress ≠
      sampleAddress ∧
    ((App.submitChatInput true isAddress utcDateParse sampleNow "Alice".toList
        ("/message @".toList ++ sampleAddress) AppState.initial).showMessenger = false ∧
      (App.submitChatInput true isAddress utcDateParse sampleNow "Alice".toList
        ("/message @".toList ++ sampleAddress) AppState.initial).toasts =
        [("Error", "Invalid Ethereum address")] ∨
     (App.submitChatInput true isAddress utcDateParse sampleNow "Alice".toList
        ("/message @".toList ++ sampleAddress) AppState.initial).recipientAddress =
        ['7', '8']) := by
  have h1 : ChatInput.handleSendMessage utcDateParse sampleNow "Alice".toList
      ("/message @".toList ++ sampleAddress) =
      ([ChatEffect.startMessaging ['7', '8'] sampleAddress], []) := by decide
  have h2 : App.submitChatInput true isAddress utcDateParse sampleNow "Alice".toList
      ("/message @".toList ++ sampleAddress) AppState.initial =
      App.handleStartMessaging true isAddress ['7', '8'] AppState.initial := by
    unfold App.submitChatInput
    rw [h1]
    rfl
  refine ⟨by decide, h1, ?_, ?_⟩
  · rw [h2]
    unfold App.handleStartMessaging
    cases h : isAddress ['7', '8']
    · simp [h, AppState.initial, sampleAddress]
    · simp only [h]
      decide
  · rw [h2]
    unfold App.handleStartMessaging
    cases h : isAddress ['7', '8']
    · left
      simp [h, AppState.initial]
    · right
      simp [h]

/-! ## The agreement contract -/

/-- C8: a transaction changes the state of an agreement only along `Proposed → Active`
(`accept`), `Proposed → Voided` (`reject`), `Active → Completed` (`confirmCompletion` by
the creator) and `Active → Expired` (`reclaimOnExpiry` by the creator after the
deadline); `markAsDone` leaves the state as it is and succeeds in state `Active`;
`Completed`, `Expired` and `Voided` are terminal; and each of the four transitions happens
when its guard holds. -/
theorem ChronoContract.lifecycle (c : ChronoContract) (sender : Address) (timestamp : Nat)
    (m : Method) :
    ((c.exec sender timestamp m).1.state = c.state ∨
      (c.state = State.Proposed ∧ (∃ p, m = Method.accept p) ∧
        (c.exec sender timestamp m).1.state = State.Active) ∨
      (c.state = State.Proposed ∧ m = Method.reject ∧
        (c.exec sender timestamp m).1.state = State.Voided) ∨
      (c.state = State.Active ∧ m = Method.confirmCompletion ∧ sender = c.creator ∧
        (c.exec sender timestamp m).1.state = State.Completed) ∨
      (c.state = State.Active ∧ m = Method.reclaimOnExpiry ∧ sender = c.creator ∧
        c.deadline < timestamp ∧ (c.exec sender timestamp m).1.state = State.Expired)) ∧
    (c.exec sender timestamp Method.markAsDone).1.state = c.state ∧
    (c.state = State.Active →
      c.call c.counterparty timestamp Method.markAsDone = Except.ok c) ∧
    (c.state = State.Completed ∨ c.state = State.Expired ∨ c.state = State.Voided →
      (c.exec sender timestamp m).1 = c) ∧
    (c.state = State.Proposed →
      (c.exec c.counterparty timestamp (Method.accept c.value)).1.state = State.Active ∧
      (c.exec c.counterparty timestamp Method.reject).1.state = State.Voided) ∧
    (c.state = State.Active →
      (c.exec c.creator timestamp Method.confirmCompletion).1.state = State.Completed ∧
      (c.deadline < timestamp →
        (c.exec c.creator timestamp Method.reclaimOnExpiry).1.state = State.Expired)) := by
  refine ⟨?_, ?_, ?_, ?_, ?_, ?_⟩
  · cases m with
    | accept p =>
      simp only [ChronoContract.exec, ChronoContract.call, ChronoContract.accept,
        ChronoContract.reject, ChronoContract.markAsDone, ChronoContract.confirmCompletion,
        ChronoContract.reclaimOnExpiry]
      by_cases h1 : sender ≠ c.counterparty
      · simp [h1]
      · by_cases h2 : c.state ≠ State.Proposed
        · simp [h1, h2]
        · by_cases h3 : p ≠ c.value
          · simp [h1, h2, h3]
          · right; left
            simp only [ne_eq, not_not] at h2
            simp [h1, h2, h3]
    | reject =>
      simp only [ChronoContract.exec, ChronoContract.call, ChronoContract.accept,
        ChronoContract.reject, ChronoContract.markAsDone, ChronoContract.confirmCompletion,
        ChronoContract.reclaimOnExpiry]
      by_cases h1 : sender ≠ c.counterparty
      · simp [h1]
      · by_cases h2 : c.state ≠ State.Proposed
        · simp [h1, h2]
        · right; right; left
          simp only [ne_eq, not_not] at h2
          simp [h1, h2]
    | markAsDone =>
      left
      simp only [ChronoContract.exec, ChronoContract.call, ChronoContract.accept,
        ChronoContract.reject, ChronoContract.markAsDone, ChronoContract.confirmCompletion,
        ChronoContract.reclaimOnExpiry]
      by_cases h1 : sender ≠ c.counterparty
      · simp [h1]
      · by_cases h2 : c.state ≠ State.Active
        · simp [h1, h2]
        · simp [h1, h2]
    | confirmCompletion =>
      simp only [ChronoContract.exec, ChronoContract.call, ChronoContract.accept,
        ChronoContract.reject, ChronoContract.markAsDone, ChronoContract.confirmCompletion,
        ChronoContract.reclaimOnExpiry]
      by_cases h1 : sender ≠ c.creator
      · simp [h1]
      · by_cases h2 : c.state ≠ State.Active
        · simp [h1, h2]
        · right; right; right; left
          simp only [ne_eq, not_not] at h1 h2
          simp [h1, h2]
    | reclaimOnExpiry =>
      simp only [ChronoContract.exec, ChronoContract.call, ChronoContract.accept,
        ChronoContract.reject, ChronoContract.markAsDone, ChronoContract.confirmCompletion,
        ChronoContract.reclaimOnExpiry]
      by_cases h1 : sender ≠ c.creator
      · simp [h1]
      · by_cases h2 : c.state ≠ State.Active
        · simp [h1, h2]
        · by_cases h3 : timestamp ≤ c.deadline
          · simp [h1, h2, h3]
          · right; right; right; right
            simp only [ne_eq, not_not] at h1 h2
            have h4 : c.deadline < timestamp := by omega
            simp [h1, h2, h3, h4]
  · simp only [ChronoContract.exec, ChronoContract.call, ChronoContract.accept,
        ChronoContract.reject, ChronoContract.markAsDone, ChronoContract.confirmCompletion,
        ChronoContract.reclaimOnExpiry]
    by_cases h1 : sender ≠ c.counterparty
    · simp [h1]
    · by_cases h2 : c.state ≠ State.Active
      · simp [h1, h2]
      · simp [h1, h2]
  · intro h
    simp [ChronoContract.call, ChronoContract.markAsDone, h]
  · intro h
    have hP : c.state ≠ State.Proposed := by
      rcases h with h | h | h <;> rw [h] <;> decide
    have hA : c.state ≠ State.Active := by
      rcases h with h | h | h <;> rw [h] <;> decide
    cases m <;> simp only [ChronoContract.exec, ChronoContract.call, ChronoContract.accept,
        ChronoContract.reject, ChronoContract.markAsDone, ChronoContract.confirmCompletion,
        ChronoContract.reclaimOnExpiry] <;>
      simp only [hP, hA, ne_eq, not_false_eq_true, if_true] <;> split_ifs <;> rfl
  · intro h
    simp [ChronoContract.exec, ChronoContract.call, ChronoContract.accept, ChronoContract.reject,
      ChronoContract.markAsDone, ChronoContract.confirmCompletion,
      ChronoContract.reclaimOnExpiry, h]
  · intro h
    refine ⟨by simp [ChronoContract.exec, ChronoContract.call, ChronoContract.accept, ChronoContract.reject,
      ChronoContract.markAsDone, ChronoContract.confirmCompletion,
      ChronoContract.reclaimOnExpiry, h], ?_⟩
    intro h2
    have : ¬ timestamp ≤ c.deadline := by omega
    simp [ChronoContract.exec, ChronoContract.call, ChronoContract.accept, ChronoContract.reject,
      ChronoContract.markAsDone, ChronoContract.confirmCompletion,
      ChronoContract.reclaimOnExpiry, h, this]

/-- C8 (witness): the lifecycle on the example agreement: accepted by its counterparty it
becomes `Active`, and then confirmed by its creator it becomes `Completed`. -/
theorem ChronoContract.lifecycle_witness :
    sampleAgreement.state = State.Proposed ∧
    (sampleAgreement.exec 2 10 (Method.accept 50)).1.state = State.Active ∧
    (sampleAgreement.exec 2 10 Method.reject).1.state = State.Voided :=
  ⟨rfl, (ChronoContract.lifecycle sampleAgreement 2 10 Method.reject).2.2.2.2.1 rfl⟩

/-- A transaction either leaves the agreement as it was or leaves it in a state other
than `Proposed`. -/
theorem ChronoContract.exec_unchanged_or_left (c : ChronoContract) (sender : Address)
    (timestamp : Nat) (m : Method) :
    (c.exec sender timestamp m).1 = c ∨ (c.exec sender timestamp m).1.state ≠ State.Proposed := by
  cases m with
  | accept p =>
    simp only [ChronoContract.exec, ChronoContract.call, ChronoContract.accept,
        ChronoContract.reject, ChronoContract.markAsDone, ChronoContract.confirmCompletion,
        ChronoContract.reclaimOnExpiry]
    by_cases h1 : sender ≠ c.counterparty
    · simp [h1]
    · by_cases h2 : c.state ≠ State.Proposed
      · simp [h1, h2]
      · by_cases h3 : p ≠ c.value
        · simp [h1, h2, h3]
        · simp [h1, h2, h3]
  | reject =>
    simp only [ChronoContract.exec, ChronoContract.call, ChronoContract.accept,
        ChronoContract.reject, ChronoContract.markAsDone, ChronoContract.confirmCompletion,
        ChronoContract.reclaimOnExpiry]
    by_cases h1 : sender ≠ c.counterparty
    · simp [h1]
    · by_cases h2 : c.state ≠ State.Proposed
      · simp [h1, h2]
      · simp [h1, h2]
  | markAsDone =>
    simp only [ChronoContract.exec, ChronoContract.call, ChronoContract.accept,
        ChronoContract.reject, ChronoContract.markAsDone, ChronoContract.confirmCompletion,
        ChronoContract.reclaimOnExpiry]
    by_cases h1 : sender ≠ c.counterparty
    · simp [h1]
    · by_cases h2 : c.state ≠ State.Active
      · simp [h1, h2]
      · simp [h1, h2]
  | confirmCompletion =>
    simp only [ChronoContract.exec, ChronoContract.call, ChronoContract.accept,
        ChronoContract.reject, ChronoContract.markAsDone, ChronoContract.confirmCompletion,
        ChronoContract.reclaimOnExpiry]
    by_cases h1 : sender ≠ c.creator
    · simp [h1]
    · by_cases h2 : c.state ≠ State.Active
      · simp [h1, h2]
      · simp [h1, h2]
  | reclaimOnExpiry =>
    simp only [ChronoContract.exec, ChronoContract.call, ChronoContract.accept,
        ChronoContract.reject, ChronoContract.markAsDone, ChronoContract.confirmCompletion,
        ChronoContract.reclaimOnExpiry]
    by_cases h1 : sender ≠ c.creator
    · simp [h1]
    · by_cases h2 : c.state ≠ State.Active
      · simp [h1, h2]
      · by_cases h3 : timestamp ≤ c.deadline
        · simp [h1, h2, h3]
        · simp [h1, h2, h3]

/-- An agreement that is still `Proposed` holds no ether. -/
theorem ChronoContract.proposed_balance (c : ChronoContract) (hr : c.Reachable)
    (hP : c.state = State.Proposed) : c.balance = 0 := by
  induction hr with
  | deploy creator counterparty description deadline value => rfl
  | step c sender timestamp m _ ih =>
    rcases ChronoContract.exec_unchanged_or_left c sender timestamp m with h | h
    · rw [h] at hP ⊢
      exact ih hP
    · exact absurd hP h

/-- C9: for an agreement in state `Proposed`, `accept` succeeds only when called by the
counterparty with a payment equal to the value of the agreement; it then sets the state
to `Active` and the contract holds exactly that value. A call of the counterparty with
another payment reverts with `Must send exact value for escrow` and a call from another
account reverts with `Only the counterparty can call this function`; both leave the
agreement as it was, in state `Proposed`. -/
theorem ChronoContract.accept_spec (c : ChronoContract) (sender : Address)
    (timestamp payment : Nat) (hr : c.Reachable) (hP : c.state = State.Proposed) :
    (∀ c2, c.call sender timestamp (Method.accept payment) = Except.ok c2 →
      sender = c.counterparty ∧ payment = c.value) ∧
    (sender = c.counterparty → payment = c.value →
      c.exec sender timestamp (Method.accept payment) =
        ({ c with state := State.Active, balance := c.value }, none)) ∧
    (sender = c.counterparty → payment ≠ c.value →
      c.exec sender timestamp (Method.accept payment) = (c, some Revert.wrongValue) ∧
      Revert.wrongValue.message = some "Must send exact value for escrow" ∧
      (c.exec sender timestamp (Method.accept payment)).1.state = State.Proposed) ∧
    (sender ≠ c.counterparty →
      c.exec sender timestamp (Method.accept payment) = (c, some Revert.onlyCounterparty) ∧
      Revert.onlyCounterparty.message =
        some "Only the counterparty can call this function" ∧
      (c.exec sender timestamp (Method.accept payment)).1.state = State.Proposed) := by
  have hb := ChronoContract.proposed_balance c hr hP
  refine ⟨?_, ?_, ?_, ?_⟩
  · intro c2 h
    unfold ChronoContract.call ChronoContract.accept at h
    by_cases h1 : sender ≠ c.counterparty
    · simp [h1] at h
    · by_cases h3 : payment ≠ c.value
      · simp [h1, hP, h3] at h
      · simp only [ne_eq, not_not] at h1 h3
        exact ⟨h1, h3⟩
  · intro h1 h2
    simp [ChronoContract.exec, ChronoContract.call, ChronoContract.accept, ChronoContract.reject,
      ChronoContract.markAsDone, ChronoContract.confirmCompletion,
      ChronoContract.reclaimOnExpiry, h1, h2, hP, hb]
  · intro h1 h2
    have e : c.exec sender timestamp (Method.accept payment) =
        (c, some Revert.wrongValue) := by
      simp [ChronoContract.exec, ChronoContract.call, ChronoContract.accept, ChronoContract.reject,
      ChronoContract.markAsDone, ChronoContract.confirmCompletion,
      ChronoContract.reclaimOnExpiry, h1, h2, hP]
    exact ⟨e, rfl, by rw [e]; exact hP⟩
  · intro h1
    have e : c.exec sender timestamp (Method.accept payment) =
        (c, some Revert.onlyCounterparty) := by
      simp [ChronoContract.exec, ChronoContract.call, ChronoContract.accept, ChronoContract.reject,
      ChronoContract.markAsDone, ChronoContract.confirmCompletion,
      ChronoContract.reclaimOnExpiry, h1]
    exact ⟨e, rfl, by rw [e]; exact hP⟩

/-- C9 (witness): the example agreement, freshly deployed with value 50: accepted by its
counterparty with 50 it is `Active` and holds exactly 50; with 25 the call reverts for
the payment; from account 3 it reverts for the caller. -/
theorem ChronoContract.accept_spec_witness :
    sampleAgreement.Reachable ∧ sampleAgreement.state = State.Proposed ∧
    sampleAgreement.exec 2 10 (Method.accept 50) =
      ({ sampleAgreement with state := State.Active, balance := 50 }, none) ∧
    sampleAgreement.exec 2 10 (Method.accept 25) =
      (sampleAgreement, some Revert.wrongValue) ∧
    sampleAgreement.exec 3 10 (Method.accept 50) =
      (sampleAgreement, some Revert.onlyCounterparty) :=
  ⟨ChronoContract.Reachable.deploy _ _ _ _ _, rfl,
    (ChronoContract.accept_spec sampleAgreement 2 10 50
      (ChronoContract.Reachable.deploy _ _ _ _ _) rfl).2.1 rfl rfl,
    ((ChronoContract.accept_spec sampleAgreement 2 10 25
      (ChronoContract.Reachable.deploy _ _ _ _ _) rfl).2.2.1 rfl (by decide)).1,
    ((ChronoContract.accept_spec sampleAgreement 3 10 50
      (ChronoContract.Reachable.deploy _ _ _ _ _) rfl).2.2.2 (by decide)).1⟩

/-! ## The factory -/

theorem ChronosFactory.reachable_deployed (addressOf : Nat → Address) (f : ChronosFactory)
    (hf : ChronosFactory.Reachable addressOf f) :
    f.deployedAgreements = (List.range f.deployedAgreements.length).map addressOf := by
  induction hf with
  | fresh => rfl
  | create f creator counterparty description deadline value _ ih =>
    simp only [ChronosFactory.createAgreement, List.length_append, List.length_singleton,
      List.range_succ, List.map_append, List.map_singleton, List.map_nil, List.map_cons]
    rw [← ih]

/-- C10: a call of `createAgreement` by `creator` appends exactly one address to the list
of deployed agreements, an address that was not in the list before; the same address is
appended to the agreements of the creator and to those of the counterparty (once for each
of the two roles) and the lists of the other users are unchanged; a freshly deployed
factory has no deployed agreement. -/
theorem ChronosFactory.createAgreement_spec (addressOf : Nat → Address)
    (hinj : Function.Injective addressOf) (f : ChronosFactory)
    (hf : ChronosFactory.Reachable addressOf f) (creator counterparty : Address)
    (description : Str) (deadline value : Nat) :
    (f.createAgreement addressOf creator counterparty description deadline
        value).1.getDeployedAgreements =
      f.getDeployedAgreements ++
        [(f.createAgreement addressOf creator counterparty description deadline value).2] ∧
    (f.createAgreement addressOf creator counterparty description deadline value).2 ∉
      f.getDeployedAgreements ∧
    (∀ u, (f.createAgreement addressOf creator counterparty description deadline
        value).1.getUserAgreements u =
      f.getUserAgreements u ++
        (if u = creator then
          [(f.createAgreement addressOf creator counterparty description deadline value).2]
         else []) ++
        (if u = counterparty then
          [(f.createAgreement addressOf creator counterparty description deadline value).2]
         else [])) ∧
    ChronosFactory.fresh.getDeployedAgreements = [] := by
  refine ⟨rfl, ?_, ?_, rfl⟩
  · intro hmem
    have hd := ChronosFactory.reachable_deployed addressOf f hf
    simp only [ChronosFactory.getDeployedAgreements, ChronosFactory.createAgreement] at hmem
    rw [hd] at hmem
    simp only [List.mem_map, List.mem_range, List.length_map, List.length_range] at hmem
    obtain ⟨k, hk, hk2⟩ := hmem
    have := hinj hk2
    omega
  · intro u
    simp only [ChronosFactory.getUserAgreements, ChronosFactory.createAgreement]
    by_cases h1 : u = creator
    · subst h1
      by_cases h2 : u = counterparty
      · subst h2
        simp
      · simp [h2]
    · by_cases h2 : u = counterparty
      · subst h2
        simp [h1]
      · simp [h1, h2]

/-- C10 (witness): the first agreement created on a fresh factory by account 1 with
counterparty 2 is at the address 1000, the only deployed agreement and the only
agreement of each of the two. -/
theorem ChronosFactory.createAgreement_spec_witness :
    (ChronosFactory.fresh.createAgreement sampleAddressOf 1 2 "Test Agreement".toList 1000
        50).1.getDeployedAgreements = [1000] ∧
    (ChronosFactory.fresh.createAgreement sampleAddressOf 1 2 "Test Agreement".toList 1000
        50).1.getUserAgreements 1 = [1000] ∧
    (ChronosFactory.fresh.createAgreement sampleAddressOf 1 2 "Test Agreement".toList 1000
        50).1.getUserAgreements 2 = [1000] :=
  have h := ChronosFactory.createAgreement_spec sampleAddressOf
    (fun _ _ hab => Nat.add_left_cancel hab) ChronosFactory.fresh
    ChronosFactory.Reachable.fresh 1 2 "Test Agreement".toList 1000 50
  ⟨h.1, h.2.2.1 1, h.2.2.1 2⟩

/-! ## Digits -/

theorem radixDigit_digitChar : ∀ d, d < 36 → radixDigit (digitChar d) = some d := by
  decide

theorem isLowerHexDigit_digitChar : ∀ d, d < 16 → isLowerHexDigit (digitChar d) = true := by
  decide

theorem isDigit_digitChar : ∀ d, d < 10 → isDigit (digitChar d) = true := by
  decide

theorem digitChar_zero_iff : ∀ d, d < 36 → (digitChar d = '0' ↔ d = 0) := by
  decide

theorem digitsValue_append_one (r : Nat) (xs : Str) (c : Char) :
    digitsValue r (xs ++ [c]) = digitsValue r xs * r + (radixDigit c).getD 0 := by
  simp [digitsValue, List.foldl_append]

theorem digitsValue_zeros (r k : Nat) (xs : Str) :
    digitsValue r (List.replicate k '0' ++ xs) = digitsValue r xs := by
  have h0 : (radixDigit '0').getD 0 = 0 := by decide
  have key : ∀ k, List.foldl (fun acc c => acc * r + (radixDigit c).getD 0) 0
      (List.replicate k '0') = 0 := by
    intro k
    induction k with
    | zero => rfl
    | succ k ih => rw [List.replicate_succ', List.foldl_append, ih]; simp [h0]
  unfold digitsValue
  rw [List.foldl_append, key]

/-- What `toDigits` prints: the digits of `n`, each below the radix, none of them a
leading zero, and together worth `n`. -/
theorem toDigits_spec (r : Nat) (h2 : 2 ≤ r) (h36 : r ≤ 36) :
    ∀ fuel n acc, n < fuel →
      ∃ ds : Str, toDigits r fuel n acc = ds ++ acc ∧ ds ≠ [] ∧
        (∀ c ∈ ds, ∃ d, d < r ∧ c = digitChar d) ∧ digitsValue r ds = n ∧
        (ds.head? = some '0' → n = 0) ∧ (n = 0 → ds = ['0']) := by
  intro fuel
  induction fuel with
  | zero => intro n acc h; omega
  | succ fuel ih =>
    intro n acc hn
    by_cases hlt : n < r
    · refine ⟨[digitChar n], ?_, by simp, ?_, ?_, ?_, ?_⟩
      · simp [toDigits, hlt]
      · intro c hc
        exact ⟨n, hlt, by simpa using hc⟩
      · simp [digitsValue, radixDigit_digitChar n (by omega)]
      · intro h
        have : digitChar n = '0' := by simpa using h
        exact (digitChar_zero_iff n (by omega)).1 this
      · intro h
        subst h
        rfl
    · have hr : r ≤ n := Nat.le_of_not_lt hlt
      have hdiv : n / r < n := Nat.div_lt_self (by omega) (by omega)
      have hpos : 0 < n / r := Nat.div_pos hr (by omega)
      obtain ⟨ds, h1, h2', h3, h4, h5, _⟩ :=
        ih (n / r) (digitChar (n % r) :: acc) (by omega)
      refine ⟨ds ++ [digitChar (n % r)], ?_, by simp, ?_, ?_, ?_, ?_⟩
      · simp [toDigits, hlt, h1]
      · intro c hc
        rcases List.mem_append.1 hc with hc | hc
        · exact h3 c hc
        · exact ⟨n % r, Nat.mod_lt _ (by omega), by simpa using hc⟩
      · rw [digitsValue_append_one, h4,
          radixDigit_digitChar (n % r) (by have := Nat.mod_lt n (show 0 < r by omega); omega)]
        simp only [Option.getD_some]
        exact Nat.div_add_mod' n r
      · intro h
        cases ds with
        | nil => exact absurd rfl h2'
        | cons d ds =>
          have := h5 (by simpa using h)
          omega
      · intro h; omega

theorem natToString_spec (r : Nat) (h2 : 2 ≤ r) (h36 : r ≤ 36) (n : Nat) :
    natToString r n ≠ [] ∧ (∀ c ∈ natToString r n, ∃ d, d < r ∧ c = digitChar d) ∧
      digitsValue r (natToString r n) = n ∧
      ((natToString r n).head? = some '0' → n = 0) ∧ (n = 0 → natToString r n = ['0']) := by
  obtain ⟨ds, h1, h2', h3, h4, h5, h6⟩ := toDigits_spec r h2 h36 (n + 1) n [] (by omega)
  have : natToString r n = ds := by simpa [natToString] using h1
  rw [this]
  exact ⟨h2', h3, h4, h5, h6⟩

theorem isRadixDigit_digitChar (r d : Nat) (hd : d < r) (h36 : r ≤ 36) :
    isRadixDigit r (digitChar d) = true := by
  simp [isRadixDigit, radixDigit_digitChar d (by omega), hd]

theorem radixDigit_toLower (c : Char) : radixDigit c.toLower = radixDigit c := by
  by_cases h : 65 ≤ c.toNat ∧ c.toNat ≤ 90
  · have hc : c = Char.ofNat c.toNat := (Char.ofNat_toNat c).symm
    obtain ⟨k, hk⟩ : ∃ k, c.toNat = k := ⟨_, rfl⟩
    rw [hk] at h hc
    subst hc
    obtain ⟨h1, h2⟩ := h
    interval_cases k <;> decide
  · have : c.toLower = c := by
      unfold Char.toLower
      simp only [ge_iff_le]
      rw [if_neg h]
    rw [this]

theorem digitsValue_toLowerCase (r : Nat) (xs : Str) :
    digitsValue r (toLowerCase xs) = digitsValue r xs := by
  unfold digitsValue toLowerCase
  rw [List.foldl_map]
  simp only [radixDigit_toLower]

theorem isRadixDigit_toLower (r : Nat) (c : Char) :
    isRadixDigit r c.toLower = isRadixDigit r c := by
  simp [isRadixDigit, radixDigit_toLower]

theorem isRadixDigit_not_space (r : Nat) (c : Char) (h : isRadixDigit r c = true) :
    isSpace c = false := by
  cases hs : isSpace c
  · rfl
  · exfalso
    simp only [isSpace, Bool.or_eq_true, Bool.and_eq_true, decide_eq_true_eq,
      beq_iff_eq] at hs
    have : radixDigit c = none := by
      simp only [radixDigit, isDigit, Bool.and_eq_true, decide_eq_true_eq]
      rw [if_neg (by omega), if_neg (by omega), if_neg (by omega)]
    simp [isRadixDigit, this] at h

theorem isRadixDigit_not_sign (r : Nat) (c : Char) (h : isRadixDigit r c = true) :
    c ≠ '+' ∧ c ≠ '-' := by
  constructor
  · intro hc
    subst hc
    simp [isRadixDigit, show radixDigit '+' = none by decide] at h
  · intro hc
    subst hc
    simp [isRadixDigit, show radixDigit '-' = none by decide] at h

/-! ## `parseInt` on strings of digits -/

theorem digitChar_ne_x : ∀ d, d < 10 → digitChar d ≠ 'x' := by
  decide

theorem parseInt_decimal (ds : Str) (hne : ds ≠ [])
    (hall : ∀ c ∈ ds, isRadixDigit 10 c = true) :
    parseInt ds 10 = JSNum.ofSigned false (digitsValue 10 ds) := by
  cases ds with
  | nil => exact absurd rfl hne
  | cons c cs =>
    have hc := hall c (List.mem_cons_self _ _)
    have hsp := isRadixDigit_not_space 10 c hc
    obtain ⟨hplus, hminus⟩ := isRadixDigit_not_sign 10 c hc
    have htw : List.takeWhile (isRadixDigit 10) (c :: cs) = c :: cs :=
      List.takeWhile_eq_self_iff.2 hall
    have hd : List.dropWhile isSpace (c :: cs) = c :: cs := by
      simp [List.dropWhile, hsp]
    unfold parseInt
    simp only [hd, List.head?_cons]
    have e1 : (some c == some '-') = false := by simp [hminus]
    have e2 : (some c == some '+') = false := by simp [hplus]
    simp only [e1, e2, Bool.or_self, Bool.false_eq_true, if_false]
    simp [htw]

theorem parseInt_marked_hex (h : Str) (hne : h ≠ [])
    (hall : ∀ c ∈ h, isRadixDigit 16 c = true) :
    parseInt ('0' :: 'x' :: h) 16 = JSNum.ofSigned false (digitsValue 16 h) := by
  have htw : List.takeWhile (isRadixDigit 16) h = h := List.takeWhile_eq_self_iff.2 hall
  have hd : List.dropWhile isSpace ('0' :: 'x' :: h) = '0' :: 'x' :: h := by
    simp [List.dropWhile, show isSpace '0' = false by decide]
  unfold parseInt
  simp only [hd, List.head?_cons]
  have e1 : (some '0' == some '-') = false := by decide
  have e2 : (some '0' == some '+') = false := by decide
  simp only [e1, e2, Bool.or_self, Bool.false_eq_true, if_false]
  have e3 : "0x".toList.isPrefixOf ('0' :: 'x' :: h) = true := by
    simp [List.isPrefixOf]
  simp only [e3]
  cases h with
  | nil => exact absurd rfl hne
  | cons c cs => simp [htw]

/-! ## The agreement states in the front end -/

theorem numberKeyed_StateLabels_eq_arrayAt (s : JSNum) :
    numberKeyed StateLabels s =
      arrayAt ["Proposed".toList, "Active".toList, "Completed".toList, "Expired".toList,
        "Voided".toList] s := by
  cases s with
  | nan => rfl
  | inf negative => rfl
  | int i =>
    simp only [numberKeyed, arrayAt]
    by_cases h : 0 ≤ i
    · rw [if_pos h, if_pos h]
      rcases hn : i.toNat with _ | _ | _ | _ | _ | n
      · rfl
      · rfl
      · rfl
      · rfl
      · rfl
      · simp [StateLabels, List.find?]
    · rw [if_neg h, if_neg h]

/-- C11: the front end numbers the five states as the contract tests do (PROPOSED = 0,
ACTIVE = 1, COMPLETED = 2, EXPIRED = 3, VOIDED = 4); for every state number the label of
`Tag` is the label of `getStateLabel`; for the number of a member of `ContractState` it
is the name of that member (Proposed, Active, Completed, Expired, Voided), and for any
other number it is Unknown. -/
theorem state_labels_agree :
    ContractState = ChronoContractTest.State ∧
    ContractState = [("PROPOSED".toList, 0), ("ACTIVE".toList, 1), ("COMPLETED".toList, 2),
      ("EXPIRED".toList, 3), ("VOIDED".toList, 4)] ∧
    (∀ s : JSNum, Tag.label s = getStateLabel s) ∧
    (∀ e ∈ ContractState, Tag.label (JSNum.int e.2) = memberLabel e.1) ∧
    [0, 1, 2, 3, 4].map (fun k : Nat => Tag.label (JSNum.int k)) =
      ["Proposed".toList, "Active".toList, "Completed".toList, "Expired".toList,
        "Voided".toList] ∧
    (∀ s : JSNum, (∀ e ∈ ContractState, s ≠ JSNum.int e.2) →
      Tag.label s = "Unknown".toList) := by
  refine ⟨rfl, rfl, ?_, by decide, by decide, ?_⟩
  · intro s
    unfold Tag.label getStateLabel
    rw [numberKeyed_StateLabels_eq_arrayAt]
  · intro s hs
    cases s with
    | nan => rfl
    | inf negative => rfl
    | int i =>
      simp only [Tag.label, numberKeyed]
      by_cases h : 0 ≤ i
      · rw [if_pos h]
        have hi : i = (i.toNat : Int) := (Int.toNat_of_nonneg h).symm
        rcases hn : i.toNat with _ | _ | _ | _ | _ | n
        · exact absurd (by rw [hi, hn]) (hs ("PROPOSED".toList, 0) (by simp [ContractState]))
        · exact absurd (by rw [hi, hn]) (hs ("ACTIVE".toList, 1) (by simp [ContractState]))
        · exact absurd (by rw [hi, hn]) (hs ("COMPLETED".toList, 2) (by simp [ContractState]))
        · exact absurd (by rw [hi, hn]) (hs ("EXPIRED".toList, 3) (by simp [ContractState]))
        · exact absurd (by rw [hi, hn]) (hs ("VOIDED".toList, 4) (by simp [ContractState]))
        · simp [StateLabels, List.find?, orElseStr]
      · rw [if_neg h]
        rfl

/-! ## Chain IDs -/

/-- C12: for every non-negative integer `n`, `formatChainIdForWallet(n)` is `0x`
followed by the lowercase hexadecimal digits of `n` (no leading zero, worth `n`) padded
on the left with zeros to at least six digits and never cut; 84532, 1, 10 and 100 give
`0x014a34`, `0x000001`, `0x00000a` and `0x000064`, as the verification scripts
compute. -/
theorem formatChainIdForWallet_spec (objToString : JSValue → Option Str) :
    (∀ n : Nat, ∃ digits : Str,
      formatChainIdForWallet objToString (JSValue.num (JSNum.int n)) =
        some ("0x".toList ++ (List.replicate (6 - digits.length) '0' ++ digits)) ∧
      formatChainIdHex (JSNum.int n) =
        "0x".toList ++ (List.replicate (6 - digits.length) '0' ++ digits) ∧
      digits ≠ [] ∧ (∀ c ∈ digits, isLowerHexDigit c = true) ∧
      digitsValue 16 digits = n ∧ (digits.head? = some '0' → digits = ['0']) ∧
      6 ≤ (List.replicate (6 - digits.length) '0' ++ digits).length) ∧
    formatChainIdForWallet objToString (JSValue.num (JSNum.int 84532)) =
      some "0x014a34".toList ∧
    formatChainIdForWallet objToString (JSValue.num (JSNum.int 1)) =
      some "0x000001".toList ∧
    formatChainIdForWallet objToString (JSValue.num (JSNum.int 10)) =
      some "0x00000a".toList ∧
    formatChainIdForWallet objToString (JSValue.num (JSNum.int 100)) =
      some "0x000064".toList := by
  refine ⟨?_, rfl, rfl, rfl, rfl⟩
  intro n
  obtain ⟨h1, h2, h3, h4, h5⟩ := natToString_spec 16 (by omega) (by omega) n
  have hstr : (JSNum.int (n : Int)).toStr 16 = natToString 16 n := by
    simp [JSNum.toStr]
  refine ⟨natToString 16 n, ?_, ?_, h1, ?_, h3, ?_, ?_⟩
  · simp [formatChainIdForWallet, hstr, padStart]
  · simp [formatChainIdHex, hstr, padStart]
  · intro c hc
    obtain ⟨d, hd, rfl⟩ := h2 c hc
    exact isLowerHexDigit_digitChar d hd
  · intro h
    exact h5 (h4 h)
  · simp only [List.length_append, List.length_replicate]
    omega

theorem roundToDouble_safe (n : Nat) (h : n < 2 ^ 53) : roundToDouble n = some n := by
  unfold roundToDouble
  rw [if_pos h]

theorem ofSigned_of_double (n : Nat) (h : roundToDouble n = some n) :
    JSNum.ofSigned false n = JSNum.int n := by
  simp [JSNum.ofSigned, h]

/-- C13 (counterexample): `2^53 + 1` is a non-negative integer, but JavaScript numbers
do not hold it: `normalizeChainId` returns `2^53` for its decimal string
`9007199254740993` and for the string `0x20000000000001` of its hexadecimal digits. -/
theorem normalizeChainId_counterexample :
    natToString 10 9007199254740993 = "9007199254740993".toList ∧
    natToString 16 9007199254740993 = "20000000000001".toList ∧
    normalizeChainId (JSValue.str "9007199254740993".toList) =
      JSValue.num (JSNum.int 9007199254740992) ∧
    normalizeChainId (JSValue.str "0x20000000000001".toList) =
      JSValue.num (JSNum.int 9007199254740992) ∧
    normalizeChainId (JSValue.str "9007199254740993".toList) ≠
      JSValue.num (JSNum.int 9007199254740993) := by
  have e : normalizeChainId (JSValue.str "9007199254740993".toList) =
      JSValue.num (JSNum.int 9007199254740992) := by rfl
  refine ⟨by decide, by decide, e, by rfl, ?_⟩
  rw [e]
  intro h
  injection h with h
  injection h with h
  exact absurd h (by decide)

/-- C13 (amended): for every non-negative integer `n` that a JavaScript number holds
exactly (its nearest double is `n` itself, as for every integer below `2^53`),
`normalizeChainId` returns `n` for the number `n`, for the decimal string of `n`, and
for every string `0x` followed by hexadecimal digits of `n` in either letter case with
any number `k` of leading zeros. -/
theorem normalizeChainId_spec (n : Nat) (hn : roundToDouble n = some n) :
    normalizeChainId (JSValue.num (JSNum.int n)) = JSValue.num (JSNum.int n) ∧
    normalizeChainId (JSValue.str (natToString 10 n)) = JSValue.num (JSNum.int n) ∧
    ∀ (k : Nat) (h : Str), toLowerCase h = List.replicate k '0' ++ natToString 16 n →
      normalizeChainId (JSValue.str ("0x".toList ++ h)) = JSValue.num (JSNum.int n) := by
  refine ⟨rfl, ?_, ?_⟩
  · obtain ⟨h1, h2, h3, _, _⟩ := natToString_spec 10 (by omega) (by omega) n
    have hall : ∀ c ∈ natToString 10 n, isRadixDigit 10 c = true := by
      intro c hc
      obtain ⟨d, hd, rfl⟩ := h2 c hc
      exact isRadixDigit_digitChar 10 d hd (by omega)
    have hnp : "0x".toList.isPrefixOf (natToString 10 n) = false := by
      rcases hs : natToString 10 n with _ | ⟨a, _ | ⟨b, cs⟩⟩
      · rfl
      · simp [List.isPrefixOf]
      · have hb : b ∈ natToString 10 n := by rw [hs]; simp
        obtain ⟨d, hd, rfl⟩ := h2 b hb
        have hx : digitChar d ≠ 'x' := digitChar_ne_x d hd
        have hx' : ¬ 'x' = digitChar d := fun e => hx e.symm
        simp [List.isPrefixOf, hx']
    unfold normalizeChainId
    simp only [hnp, Bool.false_eq_true, if_false]
    rw [parseInt_decimal _ h1 hall, h3, ofSigned_of_double n hn]
  · intro k h hh
    obtain ⟨h1, h2, h3, _, _⟩ := natToString_spec 16 (by omega) (by omega) n
    have hall : ∀ c ∈ h, isRadixDigit 16 c = true := by
      intro c hc
      have hm : c.toLower ∈ toLowerCase h := List.mem_map_of_mem _ hc
      rw [hh] at hm
      rw [← isRadixDigit_toLower]
      rcases List.mem_append.1 hm with hm | hm
      · rw [(List.mem_replicate.1 hm).2]
        decide
      · obtain ⟨d, hd, hd'⟩ := h2 _ hm
        rw [hd']
        exact isRadixDigit_digitChar 16 d hd (by omega)
    have hne : h ≠ [] := by
      intro he
      subst he
      have : List.replicate k '0' ++ natToString 16 n = [] := hh.symm
      exact h1 (List.append_eq_nil.1 this).2
    have hval : digitsValue 16 h = n := by
      rw [← digitsValue_toLowerCase, hh, digitsValue_zeros, h3]
    have hp : "0x".toList.isPrefixOf ("0x".toList ++ h) = true := by
      simp [List.isPrefixOf]
    unfold normalizeChainId
    simp only [hp, if_true]
    show JSValue.num (parseInt ('0' :: 'x' :: h) 16) = _
    rw [parseInt_marked_hex h hne hall, hval, ofSigned_of_double n hn]

/-- C13 (witness): the three formats for the chain ID 84532 of Base Sepolia, which is
below `2^53`, the hexadecimal one with a leading zero and capital letters. -/
theorem normalizeChainId_spec_witness :
    roundToDouble 84532 = some 84532 ∧
    normalizeChainId (JSValue.num (JSNum.int 84532)) = JSValue.num (JSNum.int 84532) ∧
    normalizeChainId (JSValue.str "84532".toList) = JSValue.num (JSNum.int 84532) ∧
    normalizeChainId (JSValue.str "0x014A34".toList) = JSValue.num (JSNum.int 84532) :=
  ⟨roundToDouble_safe 84532 (by decide),
    (normalizeChainId_spec 84532 (roundToDouble_safe 84532 (by decide))).1,
    (normalizeChainId_spec 84532 (roundToDouble_safe 84532 (by decide))).2.1,
    (normalizeChainId_spec 84532 (roundToDouble_safe 84532 (by decide))).2.2 1
      "014A34".toList (by decide)⟩

/-! ## Time and address formatting -/

theorem JSNum_toStr_nonneg (r : Nat) (i : Int) (h : 0 ≤ i) :
    (JSNum.int i).toStr r = natToString r i.toNat := by
  simp only [JSNum.toStr]
  rw [if_neg (by omega)]

/-- C14: with `r = deadline - now` whole seconds, `d = floor(r / 86400)`,
`h = floor((r mod 86400) / 3600)` and `m = floor((r mod 3600) / 60)`: for `r <= 0`
`getTimeRemaining` returns `Expired`; for `r > 0` it holds that `h < 24`, `m < 60` and
`d*86400 + h*3600 + m*60 <= r < d*86400 + h*3600 + m*60 + 60`, and the result is
`<d>d <h>h remaining` when `r >= 86400`, `<h>h <m>m remaining` when
`3600 <= r < 86400`, and `<m>m remaining` when `r < 3600`, the numbers printed in
decimal. -/
theorem getTimeRemaining_spec (nowMs deadline r d h m : Int)
    (hr : r = deadline - nowMs / 1000) (hd : d = r / 86400)
    (hh : h = (r % 86400) / 3600) (hm : m = (r % 3600) / 60) :
    (r ≤ 0 → getTimeRemaining nowMs deadline = "Expired".toList) ∧
    (0 < r →
      0 ≤ d ∧ 0 ≤ h ∧ h < 24 ∧ 0 ≤ m ∧ m < 60 ∧
      d * 86400 + h * 3600 + m * 60 ≤ r ∧ r < d * 86400 + h * 3600 + m * 60 + 60 ∧
      (86400 ≤ r → getTimeRemaining nowMs deadline =
        natToString 10 d.toNat ++ "d ".toList ++ natToString 10 h.toNat ++
          "h remaining".toList) ∧
      (3600 ≤ r → r < 86400 → getTimeRemaining nowMs deadline =
        natToString 10 h.toNat ++ "h ".toList ++ natToString 10 m.toNat ++
          "m remaining".toList) ∧
      (r < 3600 → getTimeRemaining nowMs deadline =
        natToString 10 m.toNat ++ "m remaining".toList)) := by
  subst hr hd hh hm
  constructor
  · intro h0
    simp only [getTimeRemaining]
    rw [if_pos h0]
  · intro h0
    have hd0 : 0 ≤ (deadline - nowMs / 1000) / 86400 := by omega
    have hh0 : 0 ≤ (deadline - nowMs / 1000) % 86400 / 3600 := by omega
    have hm0 : 0 ≤ (deadline - nowMs / 1000) % 3600 / 60 := by omega
    refine ⟨hd0, hh0, by omega, hm0, by omega, by omega, by omega, ?_, ?_, ?_⟩
    · intro h1
      simp only [getTimeRemaining]
      rw [if_neg (by omega), if_pos (by omega), JSNum_toStr_nonneg 10 _ hd0,
        JSNum_toStr_nonneg 10 _ hh0]
    · intro h1 h2
      simp only [getTimeRemaining]
      rw [if_neg (by omega), if_neg (by omega), if_pos (by omega),
        JSNum_toStr_nonneg 10 _ hh0, JSNum_toStr_nonneg 10 _ hm0]
    · intro h1
      simp only [getTimeRemaining]
      rw [if_neg (by omega), if_neg (by omega), if_neg (by omega),
        JSNum_toStr_nonneg 10 _ hm0]

/-- C14 (witness): a deadline one day, one hour, one minute and one second after the
clock, where `r = 90061` and `d = h = m = 1`. -/
theorem getTimeRemaining_spec_witness :
    getTimeRemaining sampleNow 1700090061 = "1d 1h remaining".toList :=
  (((getTimeRemaining_spec sampleNow 1700090061 90061 1 1 1 (by decide) (by decide)
    (by decide) (by decide)).2 (by decide)).2.2.2.2.2.2.2.1 (by decide)).trans (by decide)

/-- C15: for a non-empty address string, `formatAddress` gives its first six characters
(all of it if shorter), three dots, and its last four characters (all of it if
shorter); for a string of 42 characters the result has 13 characters; for an empty or
missing address it is the empty string. -/
theorem formatAddress_spec :
    (∀ s : Str, s ≠ [] → formatAddress (JSValue.str s) =
      Except.ok (s.take 6 ++ "...".toList ++ s.drop (s.length - 4))) ∧
    (∀ s : Str, s.length = 42 → ∃ r : Str, formatAddress (JSValue.str s) = Except.ok r ∧
      r.length = 13 ∧ r.take 6 = s.take 6 ∧ (r.drop 6).take 3 = "...".toList ∧
      r.drop 9 = s.drop 38) ∧
    formatAddress (JSValue.str []) = Except.ok [] ∧
    formatAddress JSValue.undefined = Except.ok [] ∧
    formatAddress JSValue.null = Except.ok [] := by
  have main : ∀ s : Str, s ≠ [] → formatAddress (JSValue.str s) =
      Except.ok (s.take 6 ++ "...".toList ++ s.drop (s.length - 4)) := by
    intro s hs
    have ht : (JSValue.str s).truthy = true := by
      cases s with
      | nil => exact absurd rfl hs
      | cons c cs => rfl
    have e1 : substring s 0 6 = s.take 6 := by
      simp [substring, List.take_take]
    have e2 : substring s ((s.length : Int) - 4) (s.length : Int) = s.drop (s.length - 4) := by
      have ha : ((s.length : Int) - 4).toNat = s.length - 4 := by omega
      simp only [substring, ha, Int.toNat_ofNat, Nat.min_self]
      rw [Nat.min_eq_left (Nat.sub_le _ _), Nat.max_eq_right (Nat.sub_le _ _),
        Nat.min_eq_left (Nat.sub_le _ _), List.take_length]
    simp only [formatAddress, ht, Bool.not_true, Bool.false_eq_true, if_false, e1, e2]
  refine ⟨main, ?_, rfl, rfl, rfl⟩
  intro s hs
  have hne : s ≠ [] := by
    intro h
    subst h
    simp at hs
  refine ⟨_, main s hne, ?_, ?_, ?_, ?_⟩
  · simp [hs]
  · have h6 : (s.take 6).length = 6 := by simp [hs]
    rw [List.append_assoc, List.take_append_of_le_length (by omega)]
    rw [List.take_of_length_le (by omega)]
  · have h6 : (s.take 6).length = 6 := by simp [hs]
    rw [List.append_assoc, List.drop_append_of_le_length (by omega)]
    rw [List.drop_of_length_le (by omega)]
    simp
  · have h6 : (s.take 6 ++ "...".toList).length = 9 := by simp [hs]
    rw [List.drop_append_of_le_length (by omega), List.drop_of_length_le (by omega), hs]
    rfl

/-! ## Safe access -/

theorem valuesAlong_ne_nil (getProp : JSValue → Str → JSValue) (v : JSValue)
    (keys : List Str) : valuesAlong getProp v keys ≠ [] := by
  cases keys with
  | nil => simp [valuesAlong]
  | cons k ks => simp [valuesAlong]

theorem truthy_isPresent (v : JSValue) (h : v.truthy = true) : v.isPresent = true := by
  cases v with
  | undefined => simp [JSValue.truthy] at h
  | null => simp [JSValue.truthy] at h
  | bool b => rfl
  | num n => rfl
  | str s => rfl
  | obj props => rfl
  | func result => rfl

/-- The loop of `getNestedProperty` against the values met along the keys. -/
theorem walk_spec (getProp : JSValue → Str → JSValue) (d : JSValue) :
    ∀ (keys : List Str) (v : JSValue),
      getNestedProperty.walk getProp d v keys =
        Except.ok
          (if ((valuesAlong getProp v keys).dropLast.all JSValue.isPresent &&
              !(keys.foldl getProp v).isUndefined) = true
            then keys.foldl getProp v else d) := by
  intro keys
  induction keys with
  | nil =>
    intro v
    cases hv : v.isUndefined
    · simp [getNestedProperty.walk, valuesAlong, hv]
    · simp [getNestedProperty.walk, valuesAlong, hv]
  | cons k ks ih =>
    intro v
    have hd : (valuesAlong getProp v (k :: ks)).dropLast =
        v :: (valuesAlong getProp (getProp v k) ks).dropLast := by
      simp only [valuesAlong]
      exact List.dropLast_cons_of_ne_nil (valuesAlong_ne_nil getProp _ ks)
    rw [hd]
    cases hp : v.isPresent
    · have hn : (v.isUndefined || v.isNull) = true := by
        cases h : (v.isUndefined || v.isNull)
        · simp [JSValue.isPresent, h] at hp
        · rfl
      simp [getNestedProperty.walk, hn, hp]
    · have hn : (v.isUndefined || v.isNull) = false := by
        cases h : (v.isUndefined || v.isNull)
        · rfl
        · simp [JSValue.isPresent, h] at hp
      simp only [getNestedProperty.walk, readProp, hn, Bool.false_eq_true, if_false,
        List.all_cons, hp, Bool.true_and, List.foldl_cons]
      exact ih (getProp v k)

/-- C16: for an object (or any truthy value) `obj`, a non-empty path `p` and a default
`d`, `getNestedProperty` returns normally; the result is the value reached by following
the keys of `p` from `obj` when every value on the way before the last is neither
`null` nor `undefined` and the value reached is not `undefined`, and it is `d`
otherwise. When `obj` or the path is missing or empty (falsy), the result is `d`. -/
theorem getNestedProperty_spec (getProp : JSValue → Str → JSValue)
    (obj path d : JSValue) :
    (∀ p : Str, path = JSValue.str p → obj.truthy = true → p ≠ [] →
      getNestedProperty getProp obj path d =
        Except.ok
          (if ((valuesAlong getProp obj (splitOn '.' p)).dropLast.all JSValue.isPresent &&
              !((splitOn '.' p).foldl getProp obj).isUndefined) = true
            then (splitOn '.' p).foldl getProp obj else d)) ∧
    (obj.truthy = false ∨ path.truthy = false →
      getNestedProperty getProp obj path d = Except.ok d) := by
  constructor
  · intro p hp ho hne
    subst hp
    have ht : (JSValue.str p).truthy = true := by
      cases p with
      | nil => exact absurd rfl hne
      | cons c cs => rfl
    simp only [getNestedProperty, ho, ht, Bool.not_true, Bool.or_self, Bool.false_eq_true,
      if_false]
    exact walk_spec getProp d (splitOn '.' p) obj
  · intro h
    rcases h with h | h
    · simp [getNestedProperty, h]
    · simp [getNestedProperty, h]

/-- C16 (witness): the path `a.b` in an object that holds 7 under it, and the path
`a.c`, which is absent, with the default `null`. -/
theorem getNestedProperty_spec_witness :
    getNestedProperty ownProp
      (JSValue.obj [("a".toList, JSValue.obj [("b".toList, JSValue.num (JSNum.int 7))])])
      (JSValue.str "a.b".toList) JSValue.null = Except.ok (JSValue.num (JSNum.int 7)) ∧
    getNestedProperty ownProp
      (JSValue.obj [("a".toList, JSValue.obj [("b".toList, JSValue.num (JSNum.int 7))])])
      (JSValue.str "a.c".toList) JSValue.null = Except.ok JSValue.null :=
  ⟨((getNestedProperty_spec ownProp
      (JSValue.obj [("a".toList, JSValue.obj [("b".toList, JSValue.num (JSNum.int 7))])])
      (JSValue.str "a.b".toList) JSValue.null).1 "a.b".toList rfl rfl (by decide)).trans rfl,
    ((getNestedProperty_spec ownProp
      (JSValue.obj [("a".toList, JSValue.obj [("b".toList, JSValue.num (JSNum.int 7))])])
      (JSValue.str "a.c".toList) JSValue.null).1 "a.c".toList rfl rfl (by decide)).trans rfl⟩

theorem ownProp_falsy (v : JSValue) (h : v.truthy = false) :
    (ownProp v "toNumber".toList).isFunction = false := by
  cases v with
  | undefined => rfl
  | null => rfl
  | bool b => rfl
  | num n => rfl
  | str s =>
    cases s with
    | nil => rfl
    | cons c cs => simp [JSValue.truthy] at h
  | obj props => simp [JSValue.truthy] at h
  | func result => simp [JSValue.truthy] at h

theorem safeToNumber_truthy (getProp : JSValue → Str → JSValue)
    (bigNumber defaultArg : JSValue) (ht : bigNumber.truthy = true) :
    safeToNumber getProp bigNumber defaultArg =
      Except.ok
        (match getProp bigNumber "toNumber".toList with
         | JSValue.func (some v) => v
         | _ => if defaultArg.isUndefined = true then JSValue.num (JSNum.int 0)
            else defaultArg) := by
  have hp : bigNumber.isPresent = true := truthy_isPresent bigNumber ht
  have hn : (bigNumber.isUndefined || bigNumber.isNull) = false := by
    cases h : (bigNumber.isUndefined || bigNumber.isNull)
    · rfl
    · simp [JSValue.isPresent, h] at hp
  simp only [safeToNumber, readProp, ht, hn, Bool.not_true, Bool.false_eq_true, if_false]
  generalize getProp bigNumber "toNumber".toList = f
  cases f with
  | func result =>
    cases result with
    | some v => rfl
    | none => rfl
  | undefined => rfl
  | null => rfl
  | bool b => rfl
  | num n => rfl
  | str s => rfl
  | obj props => rfl

/-- C17: `safeToNumber` never throws. In an engine where no falsy value has a
`toNumber` function, the result is what `bigNumber.toNumber()` returns when the input
is neither `null` nor `undefined`, has a `toNumber` function and the call returns
normally; in every other case (`null` or `undefined` input, no `toNumber` function,
or a call that throws) it is the default, which is 0 when omitted. -/
theorem safeToNumber_spec (getProp : JSValue → Str → JSValue)
    (hstd : ∀ v : JSValue, v.truthy = false →
      (getProp v "toNumber".toList).isFunction = false)
    (bigNumber defaultArg : JSValue) :
    ∃ r : JSValue, safeToNumber getProp bigNumber defaultArg = Except.ok r ∧
      (∀ v, bigNumber.isPresent = true →
        getProp bigNumber "toNumber".toList = JSValue.func (some v) → r = v) ∧
      (bigNumber.isPresent = false ∨
        (getProp bigNumber "toNumber".toList).isFunction = false ∨
        getProp bigNumber "toNumber".toList = JSValue.func none →
        r = if defaultArg.isUndefined = true then JSValue.num (JSNum.int 0)
          else defaultArg) := by
  cases ht : bigNumber.truthy
  · refine ⟨if defaultArg.isUndefined = true then JSValue.num (JSNum.int 0)
      else defaultArg, ?_, ?_, ?_⟩
    · simp [safeToNumber, ht]
    · intro v _ hf
      have := hstd bigNumber ht
      rw [hf] at this
      simp [JSValue.isFunction] at this
    · intro _
      rfl
  · have hp : bigNumber.isPresent = true := truthy_isPresent bigNumber ht
    rw [safeToNumber_truthy getProp bigNumber defaultArg ht]
    refine ⟨_, rfl, ?_, ?_⟩
    · intro v _ hf
      rw [hf]
    · intro h
      rcases h with h | h | h
      · rw [hp] at h
        exact absurd h (by decide)
      · generalize getProp bigNumber "toNumber".toList = f at h
        cases f with
        | func result => simp [JSValue.isFunction] at h
        | undefined => rfl
        | null => rfl
        | bool b => rfl
        | num n => rfl
        | str s => rfl
        | obj props => rfl
      · rw [h]

/-- C17 (witness): a value whose `toNumber` returns 42 gives 42; one whose `toNumber`
throws gives the default 0 of an omitted argument; `null` gives the default 5 that is
passed; `undefined` does not throw. -/
theorem safeToNumber_spec_witness :
    safeToNumber ownProp
      (JSValue.obj [("toNumber".toList, JSValue.func (some (JSValue.num (JSNum.int 42))))])
      JSValue.undefined = Except.ok (JSValue.num (JSNum.int 42)) ∧
    safeToNumber ownProp (JSValue.obj [("toNumber".toList, JSValue.func none)])
      JSValue.undefined = Except.ok (JSValue.num (JSNum.int 0)) ∧
    safeToNumber ownProp JSValue.null (JSValue.num (JSNum.int 5)) =
      Except.ok (JSValue.num (JSNum.int 5)) ∧
    ∃ r, safeToNumber ownProp JSValue.undefined JSValue.undefined = Except.ok r :=
  ⟨rfl, rfl, rfl,
    (safeToNumber_spec ownProp ownProp_falsy JSValue.undefined JSValue.undefined).imp
      (fun _ h => h.1)⟩

/-! ## The REST endpoints -/

theorem descriptionBlank_of_blank (getProp : JSValue → Str → JSValue) (description : JSValue)
    (h : description.truthy = false ∨ ∃ s, description = JSValue.str s ∧ trim s = []) :
    descriptionBlank getProp description = Except.ok true := by
  rcases h with h | ⟨s, rfl, hs⟩
  · simp [descriptionBlank, h]
  · cases ht : (JSValue.str s).truthy
    · simp [descriptionBlank, ht]
    · simp [descriptionBlank, ht, hs]

theorem descriptionBlank_of_string (getProp : JSValue → Str → JSValue) (description : JSValue)
    (h : description.truthy = false ∨ ∃ s, description = JSValue.str s) :
    ∃ b, descriptionBlank getProp description = Except.ok b := by
  rcases h with h | ⟨s, rfl⟩
  · exact ⟨true, by simp [descriptionBlank, h]⟩
  · cases ht : (JSValue.str s).truthy
    · exact ⟨true, by simp [descriptionBlank, ht]⟩
    · exact ⟨(trim s).isEmpty, by simp [descriptionBlank, ht]⟩

/-- C18 (amended): when the counterparty is missing or not a valid address, or
the description is missing or a blank string, or `parseInt(deadline)` is `NaN` or not
later than the current time in seconds, or `parseFloat(value)` is `NaN` or not greater
than zero, the handler of `POST /api/agreements` answers without a call to the factory
contract; the answer is HTTP 400 when the description is absent or a string and the
deadline and the value convert to strings without throwing, as all primitives do. -/
theorem createAgreementHandler_rejects (env : ServerEnv)
    (counterparty description deadline value : JSValue)
    (hbad : counterparty.truthy = false ∨ env.isAddress counterparty = false ∨
      description.truthy = false ∨ (∃ s, description = JSValue.str s ∧ trim s = []) ∨
      (∃ text, deadline.toStr env.objToString = some text ∧
        (parseInt text 0 = JSNum.nan ∨
          (∃ t, parseInt text 0 = JSNum.int t ∧ t ≤ env.nowMs / 1000) ∨
          parseInt text 0 = JSNum.inf true)) ∨
      (∃ text, value.toStr env.objToString = some text ∧
        ((parseFloat text).isNaN = true ∨ (parseFloat text).leZero = true))) :
    (∃ status message, createAgreementHandler env counterparty description deadline value =
      CreateOutcome.respond status message) ∧
    ((description.truthy = false ∨ ∃ s, description = JSValue.str s) →
      (deadline.toStr env.objToString).isSome = true →
      (value.toStr env.objToString).isSome = true →
      ∃ message, createAgreementHandler env counterparty description deadline value =
        CreateOutcome.respond 400 message) := by
  by_cases hcp : (!counterparty.truthy || !env.isAddress counterparty) = true
  · have e : createAgreementHandler env counterparty description deadline value =
        CreateOutcome.respond 400 "Invalid counterparty address".toList := by
      simp only [createAgreementHandler]
      rw [if_pos hcp]
    exact ⟨⟨_, _, e⟩, fun _ _ _ => ⟨_, e⟩⟩
  · have hcp' : counterparty.truthy = true ∧ env.isAddress counterparty = true := by
      cases h1 : counterparty.truthy
      · simp [h1] at hcp
      · cases h2 : env.isAddress counterparty
        · simp [h2] at hcp
        · exact ⟨rfl, rfl⟩
    simp only [createAgreementHandler]
    rw [if_neg hcp]
    rcases hb : descriptionBlank env.getProp description with e | b
    · refine ⟨⟨_, _, rfl⟩, ?_⟩
      intro hs _ _
      obtain ⟨b, hb'⟩ := descriptionBlank_of_string env.getProp description hs
      rw [hb] at hb'
      exact absurd hb' (by simp)
    · cases b with
      | true => exact ⟨⟨_, _, rfl⟩, fun _ _ _ => ⟨_, rfl⟩⟩
      | false =>
        simp only []
        have hnb : ¬ (description.truthy = false ∨
            ∃ s, description = JSValue.str s ∧ trim s = []) := by
          intro h
          have := descriptionBlank_of_blank env.getProp description h
          rw [hb] at this
          exact absurd this (by simp)
        rcases hd : deadline.toStr env.objToString with _ | deadlineText
        · refine ⟨⟨_, _, rfl⟩, ?_⟩
          intro _ h _
          simp at h
        · simp only []
          by_cases hdl : ((parseInt deadlineText 0).isNaN ||
              (parseInt deadlineText 0).leInt (env.nowMs / 1000)) = true
          · rw [if_pos hdl]
            exact ⟨⟨_, _, rfl⟩, fun _ _ _ => ⟨_, rfl⟩⟩
          · rw [if_neg hdl]
            rcases hv : value.toStr env.objToString with _ | valueText
            · refine ⟨⟨_, _, rfl⟩, ?_⟩
              intro _ _ h
              simp at h
            · simp only []
              by_cases hval : ((parseFloat valueText).isNaN ||
                  (parseFloat valueText).leZero) = true
              · rw [if_pos hval]
                exact ⟨⟨_, _, rfl⟩, fun _ _ _ => ⟨_, rfl⟩⟩
              · exfalso
                rcases hbad with h | h | h | h | h | h
                · rw [hcp'.1] at h
                  exact absurd h (by decide)
                · rw [hcp'.2] at h
                  exact absurd h (by decide)
                · exact hnb (Or.inl h)
                · exact hnb (Or.inr h)
                · obtain ⟨text, h1, h2⟩ := h
                  rw [hd] at h1
                  injection h1 with h1
                  subst h1
                  apply hdl
                  rcases h2 with h2 | ⟨t, h2, h3⟩ | h2
                  · rw [h2]
                    rfl
                  · rw [h2]
                    simp [JSNum.isNaN, JSNum.leInt, h3]
                  · rw [h2]
                    rfl
                · obtain ⟨text, h1, h2⟩ := h
                  rw [hv] at h1
                  injection h1 with h1
                  subst h1
                  apply hval
                  rcases h2 with h2 | h2
                  · simp [h2]
                  · simp [h2]

/-- C18 (witness): a request whose deadline `abc` holds no number: the handler answers
400. -/
theorem createAgreementHandler_rejects_witness :
    ∃ message, createAgreementHandler sampleEnv (JSValue.str sampleAddress)
      (JSValue.str "Complete the documentation".toList) (JSValue.str "abc".toList)
      (JSValue.str "1".toList) = CreateOutcome.respond 400 message :=
  (createAgreementHandler_rejects sampleEnv (JSValue.str sampleAddress)
    (JSValue.str "Complete the documentation".toList) (JSValue.str "abc".toList)
    (JSValue.str "1".toList)
    (Or.inr (Or.inr (Or.inr (Or.inr (Or.inl
      ⟨"abc".toList, rfl, Or.inl (by decide)⟩)))))).2 (Or.inr ⟨_, rfl⟩) rfl rfl

/-- C18 (counterexample): the deadline `9999999999abc` is not an integer timestamp, yet
`parseInt` reads its digits and the handler, instead of answering 400, goes on to the
call of the factory with the text as it came; and with a description that is the number
123 and the deadline `abc` the call `description.trim()` throws and the answer is HTTP
500, not 400. -/
theorem createAgreementHandler_counterexample :
    "9999999999abc".toList.all isDigit = false ∧
    createAgreementHandler sampleEnv (JSValue.str sampleAddress)
      (JSValue.str "Complete the documentation".toList)
      (JSValue.str "9999999999abc".toList) (JSValue.str "1".toList) =
      CreateOutcome.factoryCall (JSValue.str sampleAddress)
        (JSValue.str "Complete the documentation".toList)
        (JSValue.str "9999999999abc".toList) 1000000000000000000 ∧
    createAgreementHandler sampleEnv (JSValue.str sampleAddress)
      (JSValue.num (JSNum.int 123)) (JSValue.str "abc".toList) (JSValue.str "1".toList) =
      CreateOutcome.respond 500 "Internal server error".toList :=
  ⟨by decide, rfl, rfl⟩

end Chronos
